import Mathlib

/-!
# The JSON struct builder of `src/lib/json/struct.go`

`_StructBuilder` receives the events of a JSON parser (`Int64`, `String`,
`Array`, `Elem`, `Map`, `Key`, ...) and stores them, through package `reflect`,
into the value the caller passed to `Unmarshal`.

The builder works on mutable memory with aliasing (a `reflect.Value` is a type
plus an address), so the embedding passes an explicit heap:

* `Heap` is a list of allocated objects, an address is an index into it, and a
  `Loc` is an object plus a path into the composite stored inline in it;
* a `Value` is a type and an optional location, as in package `reflect`;
* every builder method takes the heap and the receiver and returns `Option`:
  `none` is a run-time fault (nil dereference, access outside an object) or a
  loop that never ends.

Package `reflect` and the parser are not among the sources; what the builder
uses of them is modelled from the spec and marked so.

Machine integers are `Int` with explicit wrap-around. The width of `int` and
`uint` is the parameter `w`; the floating point conversions of the language are
the parameter `fc : FloatConv`. Types are finite trees: a type that refers to
itself by name is not expressible.
-/

/-- Kinds of package `reflect` that the builder switches on. -/
inductive Kind where
  | BoolKind | StringKind
  | IntKind | Int8Kind | Int16Kind | Int32Kind | Int64Kind
  | UintKind | Uint8Kind | Uint16Kind | Uint32Kind | Uint64Kind
  | FloatKind | Float32Kind | Float64Kind
  | PtrKind | ArrayKind | StructKind
  deriving DecidableEq, Repr

/-- Scalar types of destination values. -/
inductive Basic where
  | bool | string
  | int | int8 | int16 | int32 | int64
  | uint | uint8 | uint16 | uint32 | uint64
  | float | float32 | float64
  deriving DecidableEq, Repr

/-- Types of destination values: scalars, pointers, slices (open arrays),
fixed-size arrays and structs with their fields in declaration order. -/
inductive Typ where
  | basic (b : Basic)
  | ptr (sub : Typ)
  | slice (elem : Typ)
  | array (elem : Typ) (len : Nat)
  | struct (fields : List (String × Typ))
  deriving Repr

mutual
/-- Boolean equality test of types. -/
def Typ.beq : Typ → Typ → Bool
  | .basic a, .basic b => a == b
  | .ptr a, .ptr b => Typ.beq a b
  | .slice a, .slice b => Typ.beq a b
  | .array a n, .array b m => Typ.beq a b && n == m
  | .struct a, .struct b => Typ.beqFields a b
  | _, _ => false
/-- Boolean equality test of field lists. -/
def Typ.beqFields : List (String × Typ) → List (String × Typ) → Bool
  | [], [] => true
  | a :: as, b :: bs => a.1 == b.1 && Typ.beq a.2 b.2 && Typ.beqFields as bs
  | _, _ => false
end

/-- Modelled from the spec: `Type.Kind()` of package reflect (not in the sources) for
the scalar types. -/
def Basic.Kind : Basic → Kind
  | .bool => .BoolKind
  | .string => .StringKind
  | .int => .IntKind
  | .int8 => .Int8Kind
  | .int16 => .Int16Kind
  | .int32 => .Int32Kind
  | .int64 => .Int64Kind
  | .uint => .UintKind
  | .uint8 => .Uint8Kind
  | .uint16 => .Uint16Kind
  | .uint32 => .Uint32Kind
  | .uint64 => .Uint64Kind
  | .float => .FloatKind
  | .float32 => .Float32Kind
  | .float64 => .Float64Kind

/-- Modelled from the spec: `Type.Kind()` of package reflect (not in the sources);
slices and fixed-size arrays both have kind `ArrayKind`. -/
def Typ.Kind : Typ → Kind
  | .basic b => b.Kind
  | .ptr _ => .PtrKind
  | .slice _ => .ArrayKind
  | .array _ _ => .ArrayKind
  | .struct _ => .StructKind

/-- Address of an allocated object: its index in the heap. -/
abbrev Addr := Nat

/-- Location of a value: an object and the path of field / element numbers
leading to the value inside the composite stored in that object. -/
structure Loc where
  obj : Addr
  path : List Nat
  deriving DecidableEq, Repr

/-- Location of component `i` of the composite at `l`. -/
def Loc.sub (l : Loc) (i : Nat) : Loc := ⟨l.obj, l.path ++ [i]⟩

/-- Contents of memory. Integers of every width are `int`, floating point
numbers are kept as bit patterns, a pointer holds the location it points to, a
slice is its header (backing object, length, capacity), and structs and
fixed-size arrays store their components inline. -/
inductive Val where
  | bool (b : Bool)
  | string (s : String)
  | int (i : Int)
  | float (bits : Nat)
  | ptr (target : Option Loc)
  | slice (data : Option Addr) (len cap : Nat)
  | tuple (elems : List Val)
  deriving Repr

mutual
/-- Boolean equality test of memory contents. -/
def Val.beq : Val → Val → Bool
  | .bool a, .bool b => a == b
  | .string a, .string b => a == b
  | .int a, .int b => a == b
  | .float a, .float b => a == b
  | .ptr a, .ptr b => a == b
  | .slice d l c, .slice d2 l2 c2 => d == d2 && l == l2 && c == c2
  | .tuple a, .tuple b => Val.beqList a b
  | _, _ => false
/-- Boolean equality test of lists of memory contents. -/
def Val.beqList : List Val → List Val → Bool
  | [], [] => true
  | a :: as, b :: bs => Val.beq a b && Val.beqList as bs
  | _, _ => false
end

/-- Zero value of a scalar type. -/
def Basic.zero : Basic → Val
  | .bool => .bool false
  | .string => .string ""
  | .int | .int8 | .int16 | .int32 | .int64 => .int 0
  | .uint | .uint8 | .uint16 | .uint32 | .uint64 => .int 0
  | .float | .float32 | .float64 => .float 0

mutual
/-- Zero value of a type, as freshly allocated memory holds it. -/
def Typ.zero : Typ → Val
  | .basic b => b.zero
  | .ptr _ => .ptr none
  | .slice _ => .slice none 0 0
  | .array e n => .tuple (List.replicate n (Typ.zero e))
  | .struct fs => .tuple (Typ.zeroFields fs)
/-- Zero values of the fields of a struct type. -/
def Typ.zeroFields : List (String × Typ) → List Val
  | [] => []
  | f :: r => Typ.zero f.2 :: Typ.zeroFields r
end

/-- Component of a composite value at a path. -/
def Val.at : Val → List Nat → Option Val
  | v, [] => some v
  | .tuple es, i :: p =>
    match es[i]? with
    | some e => e.at p
    | none => none
  | _, _ :: _ => none

/-- Composite value with the component at a path replaced. -/
def Val.update : Val → List Nat → Val → Option Val
  | _, [], x => some x
  | .tuple es, i :: p, x =>
    match es[i]? with
    | some e =>
      match e.update p x with
      | some e1 => some (.tuple (es.set i e1))
      | none => none
    | none => none
  | _, _ :: _, _ => none

/-- Memory: the list of allocated objects; an allocation appends one. -/
abbrev Heap := List Val

/-- Read the value at a location. -/
def load (h : Heap) (l : Loc) : Option Val :=
  match h[l.obj]? with
  | some o => o.at l.path
  | none => none

/-- Overwrite the value at a location (which must exist). -/
def store (h : Heap) (l : Loc) (x : Val) : Option Heap :=
  match h[l.obj]? with
  | some o =>
    match o.update l.path x with
    | some o1 => some (h.set l.obj o1)
    | none => none
  | none => none

/-- Allocate a fresh object; returns the new heap and the object's address. -/
def alloc (h : Heap) (x : Val) : Heap × Addr := (h ++ [x], h.length)

/-! ## Machine arithmetic -/

/-- Conversion of an integer to a signed integer type of `w` bits
(two's-complement narrowing), as `int8(i)`, ..., `int64(i)`, `int(i)` do. -/
def wrapInt (w : Nat) (x : Int) : Int :=
  (x + 2 ^ (w - 1)) % 2 ^ w - 2 ^ (w - 1)

/-- Conversion of an integer to an unsigned integer type of `w` bits, as
`uint8(i)`, ..., `uint64(i)`, `uint(i)` do. -/
def wrapUint (w : Nat) (x : Int) : Int :=
  x % 2 ^ w

/-- Floating point conversions of the language, left uninterpreted: floating
point numbers are bit patterns and the builder only moves them around.
`float64OfInt64 i` is `float64(i)` for an `int64`, `float64OfUint64 u` is
`float64(u)` for a `uint64`, `int64OfFloat64 f` is `int64(f)`, and
`floatOfFloat64`, `float32OfFloat64` are `float(f)` and `float32(f)`. -/
structure FloatConv where
  float64OfInt64 : Int → Nat
  float64OfUint64 : Nat → Nat
  int64OfFloat64 : Nat → Int
  floatOfFloat64 : Nat → Nat
  float32OfFloat64 : Nat → Nat

/-! ## Package reflect -/

/-- Modelled from the spec: `reflect.Value` (package reflect is not in the sources),
the Destination Handle of the spec: a non-owning reference to one storage location
plus its declared type. The location is absent for the target of an unset pointer. -/
structure Value where
  typ : Typ
  addr : Option Loc
  deriving Repr

/-- Modelled from the spec: `Value.Kind()` of package reflect (not in the sources),
the kind of the handle's declared type. -/
def Value.Kind (v : Value) : Kind := v.typ.Kind

/-- Modelled from the spec: the `Set` method of the scalar values of package reflect,
which is not in the sources (`BoolValue.Set`, `StringValue.Set`, `Int8Value.Set`,
...): overwrites the storage location of the handle; a fault when the handle has
no location. -/
def Value.Set (h : Heap) (v : Value) (x : Val) : Option Heap :=
  match v.addr with
  | some l => store h l x
  | none => none

/-- Modelled from the spec: `PtrValue.Get()` of package reflect (not in the sources):
the address held in the pointer, `some none` when the pointer is unset (nil). -/
def Value.Get (h : Heap) (v : Value) : Option (Option Loc) :=
  match v.addr with
  | some l =>
    match load h l with
    | some (.ptr t) => some t
    | _ => none
  | none => none

/-- Modelled from the spec: `PtrType.Sub()` of package reflect (not in the sources):
the pointed-to type. -/
def Typ.Sub : Typ → Option Typ
  | .ptr s => some s
  | _ => none

/-- Modelled from the spec: `PtrValue.Sub()` of package reflect (not in the sources):
the handle of the pointed-to value (with no location when the pointer is unset). -/
def Value.Sub (h : Heap) (v : Value) : Option Value :=
  match v.typ.Sub, v.Get h with
  | some s, some t => some ⟨s, t⟩
  | _, _ => none

/-- Modelled from the spec: `PtrValue.SetSub(subv)` of package reflect (not in the
sources): binds the pointer to the storage of `subv`. -/
def Value.SetSub (h : Heap) (v : Value) (subv : Value) : Option Heap :=
  v.Set h (.ptr subv.addr)

/-- Modelled from the spec: `ArrayValue.Len()` of package reflect (not in the
sources): the length in the header of a slice, the declared length of a fixed-size
array. -/
def Value.Len (h : Heap) (v : Value) : Option Nat :=
  match v.typ, v.addr with
  | .slice _, some l =>
    match load h l with
    | some (.slice _ len _) => some len
    | _ => none
  | .array _ n, _ => some n
  | _, _ => none

/-- Modelled from the spec: `ArrayValue.Cap()` of package reflect (not in the
sources): the capacity in the header of a slice, the declared length of a
fixed-size array. -/
def Value.Cap (h : Heap) (v : Value) : Option Nat :=
  match v.typ, v.addr with
  | .slice _, some l =>
    match load h l with
    | some (.slice _ _ cap) => some cap
    | _ => none
  | .array _ n, _ => some n
  | _, _ => none

/-- Modelled from the spec: `ArrayValue.SetLen(len)` of package reflect (not in the
sources): writes the length into the header of a slice; nothing for a fixed-size
array. -/
def Value.SetLen (h : Heap) (v : Value) (len : Nat) : Option Heap :=
  match v.typ, v.addr with
  | .slice _, some l =>
    match load h l with
    | some (.slice d _ cap) => store h l (.slice d len cap)
    | _ => none
  | .array _ _, _ => some h
  | _, _ => none

/-- Modelled from the spec: `ArrayValue.Elem(i)` of package reflect (not in the
sources): the handle of element `i`, in the backing object of a slice or inline in
a fixed-size array. -/
def Value.Elem (h : Heap) (v : Value) (i : Nat) : Option Value :=
  match v.typ, v.addr with
  | .slice e, some l =>
    match load h l with
    | some (.slice (some d) _ _) => some ⟨e, some ⟨d, [i]⟩⟩
    | some (.slice none _ _) => some ⟨e, none⟩
    | _ => none
  | .array e _, some l => some ⟨e, some (l.sub i)⟩
  | .array e _, none => some ⟨e, none⟩
  | _, _ => none

/-- Modelled from the spec: `ArrayValue.CopyFrom(src, n)` of package reflect (not in
the sources): copies the first `n` elements of `src` into the receiver, element by
element. -/
def Value.CopyFrom (dst src : Value) : Nat → Heap → Option Heap
  | 0, h => some h
  | n + 1, h =>
    match Value.CopyFrom dst src n h with
    | some h1 =>
      match src.Elem h1 n, dst.Elem h1 n with
      | some ⟨_, some ls⟩, some d =>
        match load h1 ls with
        | some x => d.Set h1 x
        | none => none
      | _, _ => none
    | none => none

/-- Modelled from the spec: `ArrayType.Elem()` of package reflect (not in the
sources): the element type of a sequence type, growable or of fixed size. -/
def Typ.Elem : Typ → Option Typ
  | .slice e => some e
  | .array e _ => some e
  | _ => none

/-- Modelled from the spec: `reflect.NewSliceValue(typ, len, cap)` of package reflect,
not in the sources (§4.3 of the spec: "allocate a new sequence with length 0 and
an initial capacity of 8"): for a sequence type, growable or of fixed size, it
allocates a backing object of `cap` zero elements and a slice header over it
with the given length and capacity, and returns the handle of that new
sequence. The argument is the source's `psubtype.(reflect.ArrayType)`; on a type
that is not a sequence type this type assertion of the source fails. -/
def NewSliceValue (h : Heap) (typ : Typ) (len cap : Nat) : Option (Heap × Value) :=
  match typ.Elem with
  | some e =>
    let (h1, d) := alloc h (.tuple (List.replicate cap e.zero))
    let (h2, a) := alloc h1 (.slice (some d) len cap)
    some (h2, ⟨.slice e, some ⟨a, []⟩⟩)
  | none => none

/-- Modelled from the spec: `reflect.NewInitValue(typ)` of package reflect, not in the
sources (§4.5 beginObject): allocates a zero-valued target of the given type. -/
def NewInitValue (h : Heap) (typ : Typ) : Heap × Value :=
  let (h1, a) := alloc h typ.zero
  (h1, ⟨typ, some ⟨a, []⟩⟩)

/-- Modelled from the spec: `StructType.Field(i)` of package reflect (not in the
sources): name and type of the field declared at position `i`. -/
def Typ.Field : Typ → Nat → Option (String × Typ)
  | .struct fs, i => fs[i]?
  | _, _ => none

/-- Modelled from the spec: `StructType.Len()` of package reflect (not in the
sources): the number of declared fields. -/
def Typ.Len : Typ → Nat
  | .struct fs => fs.length
  | _ => 0

/-- Modelled from the spec: `StructValue.Field(i)` of package reflect (not in the
sources): the handle of the field declared at position `i`, stored inline in the
struct. -/
def Value.Field (v : Value) (i : Nat) : Option Value :=
  match v.typ.Field i with
  | some (_, t) => some ⟨t, v.addr.map (fun l => l.sub i)⟩
  | none => none

/-- Modelled from the spec: `reflect.NewValue(val)` of package reflect, not in the
sources (§4.6, step 1, and §7): the construction of the destination handle. The
destination must be a pointer to a mutable value: for a pointer the handle is
over a fresh copy of the interface value `val` (the copy points where `val`
does); for a value that is not a pointer the construction fails, which fails
the whole call. -/
def NewValue (h : Heap) (typ : Typ) (val : Val) : Option (Heap × Value) :=
  match typ with
  | .ptr _ =>
    let (h1, a) := alloc h val
    some (h1, ⟨typ, some ⟨a, []⟩⟩)
  | _ => none

/-! ## The builder -/

/-- The source's `type _StructBuilder struct { val reflect.Value }`. -/
structure _StructBuilder where
  val : Value
  deriving Repr

/-- The source's `Builder` interface as the builder implements it: a
`*_StructBuilder` that may be nil. -/
abbrev Builder := Option _StructBuilder

/-- The source's `var nobuilder *_StructBuilder`: the nil builder. -/
def nobuilder : Builder := none

/-- The source's `setfloat(v, f)`. -/
def setfloat (fc : FloatConv) (h : Heap) (v : Value) (f : Nat) : Option Heap :=
  match v.Kind with
  | .FloatKind => v.Set h (.float (fc.floatOfFloat64 f))
  | .Float32Kind => v.Set h (.float (fc.float32OfFloat64 f))
  | .Float64Kind => v.Set h (.float f)
  | _ => some h

/-- The source's `setint(v, i)`; `w` is the width of `int` and `uint`. -/
def setint (w : Nat) (h : Heap) (v : Value) (i : Int) : Option Heap :=
  match v.Kind with
  | .IntKind => v.Set h (.int (wrapInt w i))
  | .Int8Kind => v.Set h (.int (wrapInt 8 i))
  | .Int16Kind => v.Set h (.int (wrapInt 16 i))
  | .Int32Kind => v.Set h (.int (wrapInt 32 i))
  | .Int64Kind => v.Set h (.int (wrapInt 64 i))
  | .UintKind => v.Set h (.int (wrapUint w i))
  | .Uint8Kind => v.Set h (.int (wrapUint 8 i))
  | .Uint16Kind => v.Set h (.int (wrapUint 16 i))
  | .Uint32Kind => v.Set h (.int (wrapUint 32 i))
  | .Uint64Kind => v.Set h (.int (wrapUint 64 i))
  | _ => some h

/-- The source's `(b *_StructBuilder) Int64(i int64)`. -/
def _StructBuilder.Int64 (w : Nat) (fc : FloatConv) (h : Heap) (b : Builder) (i : Int) :
    Option Heap :=
  match b with
  | none => some h
  | some b =>
    let v := b.val
    match v.Kind with
    | .FloatKind | .Float32Kind | .Float64Kind => setfloat fc h v (fc.float64OfInt64 i)
    | _ => setint w h v i

/-- The source's `(b *_StructBuilder) Uint64(i uint64)`. -/
def _StructBuilder.Uint64 (w : Nat) (fc : FloatConv) (h : Heap) (b : Builder) (i : Nat) :
    Option Heap :=
  match b with
  | none => some h
  | some b =>
    let v := b.val
    match v.Kind with
    | .FloatKind | .Float32Kind | .Float64Kind => setfloat fc h v (fc.float64OfUint64 i)
    | _ => setint w h v (wrapInt 64 i)

/-- The source's `(b *_StructBuilder) Float64(f float64)`. -/
def _StructBuilder.Float64 (w : Nat) (fc : FloatConv) (h : Heap) (b : Builder) (f : Nat) :
    Option Heap :=
  match b with
  | none => some h
  | some b =>
    let v := b.val
    match v.Kind with
    | .FloatKind | .Float32Kind | .Float64Kind => setfloat fc h v f
    | _ => setint w h v (fc.int64OfFloat64 f)

/-- The source's `(b *_StructBuilder) Null()`: an empty body. -/
def _StructBuilder.Null (h : Heap) (_b : Builder) : Option Heap :=
  some h

/-- The source's `(b *_StructBuilder) Array()`. -/
def _StructBuilder.Array (h : Heap) (b : Builder) : Option Heap :=
  match b with
  | none => some h
  | some b =>
    let v := b.val
    if v.Kind = .PtrKind then
      let pv := v
      match pv.typ.Sub, pv.Get h with
      | some psubtype, some tgt =>
        if tgt = none ∧ psubtype.Kind = .ArrayKind then
          match NewSliceValue h psubtype 0 8 with
          | some (h1, av) => pv.SetSub h1 av
          | none => none
        else some h
      | _, _ => none
    else some h

/-- The loop `for n <= i { n *= 2 }` of `Elem` on `int`s of `w` bits, run for
at most `fuel` iterations; `none` when the loop is still running then. -/
def growCap (w : Nat) : Nat → Int → Int → Option Int
  | 0, _, _ => none
  | fuel + 1, n, i => if n ≤ i then growCap w fuel (wrapInt w (n * 2)) i else some n

/-- The first half of the source's `Elem`: the body of
`if v.Kind() == reflect.PtrKind { ... v = psub }`. Returns the heap and the
new `v`, which is `psub`, the handle taken before any growth: the source's
`av = av1` assigns the variable `av` of the inner block only. After `w + 1`
doublings `n` is zero and stays so, hence `w + 2` rounds of the loop decide
whether it ends (`growCap_fuel`). -/
def elemGrow (w : Nat) (h : Heap) (v : Value) (i : Int) : Option (Heap × Value) :=
  let pv := v
  match pv.Sub h with
  | some psub =>
    if psub.Kind = .ArrayKind then
      let av := psub
      match av.Cap h with
      | some cap =>
        if i > cap then
          let n : Int := cap
          let n := if n < 8 then 8 else n
          match growCap w (w + 2) n i, av.Len h with
          | some n, some len =>
            match NewSliceValue h av.typ len n.toNat with
            | some (h1, av1) =>
              match av1.CopyFrom av len h1 with
              | some h2 =>
                match pv.SetSub h2 av1 with
                | some h3 => some (h3, psub)
                | none => none
              | none => none
            | none => none
          | _, _ => none
        else some (h, psub)
      | none => none
    else some (h, psub)
  | none => none

/-- The second half of the source's `Elem`: the body of
`if v.Kind() == reflect.ArrayKind { ... }` and the final `return nobuilder`. -/
def elemIndex (h : Heap) (v : Value) (i : Int) : Option (Heap × Builder) :=
  if v.Kind = .ArrayKind then
    let av := v
    match av.Len h, av.Cap h with
    | some len, some cap =>
      match (if (len : Int) ≤ i ∧ i < cap then av.SetLen h (i + 1).toNat else some h) with
      | some h1 =>
        match av.Len h1 with
        | some len1 =>
          if i < len1 then
            match av.Elem h1 i.toNat with
            | some e => some (h1, some ⟨e⟩)
            | none => none
          else some (h1, nobuilder)
        | none => none
      | none => none
    | _, _ => none
  else some (h, nobuilder)

/-- The source's `(b *_StructBuilder) Elem(i int) Builder`. -/
def _StructBuilder.Elem (w : Nat) (h : Heap) (b : Builder) (i : Int) : Option (Heap × Builder) :=
  match b with
  | none => some (h, nobuilder)
  | some b =>
    if i < 0 then some (h, nobuilder)
    else
      let v := b.val
      if v.Kind = .PtrKind then
        match elemGrow w h v i with
        | some (h1, v1) => elemIndex h1 v1 i
        | none => none
      else elemIndex h v i

/-- The source's `(b *_StructBuilder) Map()`. -/
def _StructBuilder.Map (h : Heap) (b : Builder) : Option Heap :=
  match b with
  | none => some h
  | some b =>
    let v := b.val
    if v.Kind = .PtrKind then
      let pv := v
      match pv.typ.Sub, pv.Get h with
      | some sub, some tgt =>
        if tgt = none then
          let (h1, nv) := NewInitValue h sub
          pv.SetSub h1 nv
        else some h
      | _, _ => none
    else some h

/-- The loop `for i := 0; i < t.Len(); i++ { ... }` of `Key`, with `n` rounds
left to run from index `i`. -/
def keyLoop (sv : Value) (t : Typ) (k : String) : Nat → Nat → Option Builder
  | 0, _ => some nobuilder
  | n + 1, i =>
    match t.Field i with
    | some (name, _) =>
      if k = name then
        match sv.Field i with
        | some f => some (some ⟨f⟩)
        | none => none
      else keyLoop sv t k n (i + 1)
    | none => none

/-- The source's `(b *_StructBuilder) Key(k string) Builder`. -/
def _StructBuilder.Key (h : Heap) (b : Builder) (k : String) : Option Builder :=
  match b with
  | none => some nobuilder
  | some b =>
    let v := b.val
    match (if v.Kind = .PtrKind then v.Sub h else some v) with
    | some v =>
      if v.Kind = .StructKind then
        let sv := v
        let t := v.typ
        keyLoop sv t k t.Len 0
      else some nobuilder
    | none => none

/-- The source's `(b *_StructBuilder) String(s string)`. -/
def _StructBuilder.String (h : Heap) (b : Builder) (s : String) : Option Heap :=
  match b with
  | none => some h
  | some b =>
    let v := b.val
    if v.Kind = .StringKind then v.Set h (.string s) else some h

/-- The source's `(b *_StructBuilder) Bool(tf bool)`. -/
def _StructBuilder.Bool (h : Heap) (b : Builder) (tf : Bool) : Option Heap :=
  match b with
  | none => some h
  | some b =>
    let v := b.val
    if v.Kind = .BoolKind then v.Set h (.bool tf) else some h

/-! ## Event sequences -/

/-- Modelled from the spec: the events of the parser (`json.Parse` is not in the
sources; §6 of the spec lists them). `elem i` and `key k` call `Elem(i)` and
`Key(k)` on the current builder and make the returned builder current; `done`
marks the return from the nested value, which makes the parent current again. The
other events call the method of the same name on the current builder. -/
inductive Event where
  | null
  | bool (tf : Bool)
  | string (s : String)
  | int64 (i : Int)
  | uint64 (u : Nat)
  | float64 (f : Nat)
  | array
  | map
  | elem (i : Int)
  | key (k : String)
  | done
  deriving DecidableEq, Repr

/-- State of a run of events: the memory, the current builder and the builders
of the enclosing values, innermost first. -/
structure Run where
  heap : Heap
  cur : Builder
  up : List Builder

/-- Apply one event to the current builder. -/
def step (w : Nat) (fc : FloatConv) (s : Run) : Event → Option Run
  | .null => (_StructBuilder.Null s.heap s.cur).map fun h => ⟨h, s.cur, s.up⟩
  | .bool tf => (_StructBuilder.Bool s.heap s.cur tf).map fun h => ⟨h, s.cur, s.up⟩
  | .string x => (_StructBuilder.String s.heap s.cur x).map fun h => ⟨h, s.cur, s.up⟩
  | .int64 i => (_StructBuilder.Int64 w fc s.heap s.cur i).map fun h => ⟨h, s.cur, s.up⟩
  | .uint64 u => (_StructBuilder.Uint64 w fc s.heap s.cur u).map fun h => ⟨h, s.cur, s.up⟩
  | .float64 f => (_StructBuilder.Float64 w fc s.heap s.cur f).map fun h => ⟨h, s.cur, s.up⟩
  | .array => (_StructBuilder.Array s.heap s.cur).map fun h => ⟨h, s.cur, s.up⟩
  | .map => (_StructBuilder.Map s.heap s.cur).map fun h => ⟨h, s.cur, s.up⟩
  | .elem i => (_StructBuilder.Elem w s.heap s.cur i).map fun r => ⟨r.1, r.2, s.cur :: s.up⟩
  | .key k => (_StructBuilder.Key s.heap s.cur k).map fun b => ⟨s.heap, b, s.cur :: s.up⟩
  | .done =>
    match s.up with
    | p :: ps => some ⟨s.heap, p, ps⟩
    | [] => some s

/-- Apply a sequence of events, stopping at the first fault. -/
def run (w : Nat) (fc : FloatConv) : Run → List Event → Option Run
  | s, [] => some s
  | s, e :: es =>
    match step w fc s e with
    | some s1 => run w fc s1 es
    | none => none

/-! ## The documented example of `Unmarshal` -/

/-- The doc comment's `type Email struct { where string; addr string }`. -/
def Email : Typ := .struct [("where", .basic .string), ("addr", .basic .string)]

/-- The doc comment's `type Result struct { name string; phone string; emails []Email }`. -/
def Result : Typ :=
  .struct [("name", .basic .string), ("phone", .basic .string), ("emails", .slice Email)]

/-- Memory of the documented example: `var r = Result{ "name", "phone", nil }` at
address 0 and, at address 1, the copy of `&r` that `reflect.NewValue` makes. -/
def docHeap : Heap :=
  match NewValue [.tuple [.string "name", .string "phone", .slice none 0 0]]
    (.ptr Result) (.ptr (some ⟨0, []⟩)) with
  | some r => r.1
  | none => []

/-- Root builder of the documented example, `&_StructBuilder{ reflect.NewValue(&r) }`. -/
def docRoot : Builder :=
  (NewValue [.tuple [.string "name", .string "phone", .slice none 0 0]]
    (.ptr Result) (.ptr (some ⟨0, []⟩))).map fun r => ⟨r.2⟩

/-- Events of the two-element array of the documented JSON text. -/
def docEmails : List Event :=
  [.array,
   .elem 0, .map, .key "where", .string "home", .done,
            .key "addr", .string "gre@example.com", .done, .done,
   .elem 1, .map, .key "where", .string "work", .done,
            .key "addr", .string "gre@work.com", .done, .done]

/-- Events of the documented JSON text, whose first key is spelled `email`. -/
def docEvents : List Event :=
  [.map, .key "email"] ++ docEmails ++ [.done,
   .key "name", .string "Grace R. Emlin", .done,
   .key "address", .string "123 Main Street", .done]

/-- The same events with the first key spelled like the field, `emails`. -/
def docEventsEmails : List Event :=
  [.map, .key "emails"] ++ docEmails ++ [.done,
   .key "name", .string "Grace R. Emlin", .done,
   .key "address", .string "123 Main Street", .done]

/-! ## Vocabulary of the claims -/

/-- Width in bits of the integer types (`w` for `int` and `uint`); `none` for
the types that are not integers. -/
def Basic.width (w : Nat) : Basic → Option Nat
  | .int | .uint => some w
  | .int8 | .uint8 => some 8
  | .int16 | .uint16 => some 16
  | .int32 | .uint32 => some 32
  | .int64 | .uint64 => some 64
  | _ => none

/-- Whether an integer type is signed. -/
def Basic.signed : Basic → Bool
  | .int | .int8 | .int16 | .int32 | .int64 => true
  | _ => false

/-- Representable range of an integer type of `n` bits: `[-2^(n-1), 2^(n-1))`
when signed, `[0, 2^n)` when unsigned. -/
def inRange (signed : Bool) (n : Nat) (x : Int) : Prop :=
  if signed then -(2 ^ (n - 1) : Int) ≤ x ∧ x < 2 ^ (n - 1) else 0 ≤ x ∧ x < 2 ^ n

instance (signed : Bool) (n : Nat) (x : Int) : Decidable (inRange signed n x) := by
  unfold inRange; infer_instance

/-- Conversion to an integer type of `n` bits of the given signedness. -/
def narrow (signed : Bool) (n : Nat) (x : Int) : Int :=
  if signed then wrapInt n x else wrapUint n x

/-- Events that address the indices `0, ..., n-1` of an array in increasing
order and send the string `s i` to the builder returned for index `i`. -/
def fillEvents (s : Nat → String) : Nat → List Event
  | 0 => []
  | n + 1 => fillEvents s n ++ [.elem n, .string (s n), .done]

/-- Builder over an unset `*[]string` stored at address 0. -/
def seqDest : Builder := some ⟨⟨.ptr (.slice (.basic .string)), some ⟨0, []⟩⟩⟩

/-- Memory after `Array()` and `Elem(0)`, ..., `Elem(7)` on `seqDest`, each
element set to `"x"`: the pointer, the backing object and the slice header. -/
def fullHeap : Heap :=
  [.ptr (some ⟨2, []⟩), .tuple (List.replicate 8 (.string "x")), .slice (some 1) 8 8]

/-! ## Separation: what a value refers to -/

mutual
/-- Objects a value refers to: the objects its pointers point into and the
backing objects of its slices. -/
def Val.refs : Val → List Addr
  | .ptr (some l) => [l.obj]
  | .slice (some d) _ _ => [d]
  | .tuple es => Val.refsList es
  | _ => []
/-- Objects the values of a list refer to. -/
def Val.refsList : List Val → List Addr
  | [] => []
  | v :: vs => v.refs ++ Val.refsList vs
end

/-- A location is within bounds for a builder below field `j0` of the record
at path `pr` of object `R`: it lies outside the protected objects `F`, or
inside that field. -/
def Loc.Within (F : List Addr) (R : Addr) (pr : List Nat) (j0 : Nat) (l : Loc) : Prop :=
  l.obj ∉ F ∨ (l.obj = R ∧ ∃ rest, l.path = pr ++ j0 :: rest)

/-- A handle is within bounds when its location, if any, is. -/
def Value.Within (F : List Addr) (R : Addr) (pr : List Nat) (j0 : Nat) (v : Value) : Prop :=
  ∀ l, v.addr = some l → l.Within F R pr j0

/-- A builder is within bounds when it is nil or its handle is within bounds. -/
def BuilderWithin (F : List Addr) (R : Addr) (pr : List Nat) (j0 : Nat) (b : Builder) : Prop :=
  ∀ sb, b = some sb → sb.val.Within F R pr j0

/-- Memory `h` is framed with respect to the memory `h0` at the start: the
protected objects `F` (among them `R`) are allocated, no object outside `F` and
nothing in field `j0` of the record at path `pr` of `R` refers to an object of
`F`, and the other fields of that record hold what they held in `h0`. -/
structure Framed (F : List Addr) (R : Addr) (pr : List Nat) (j0 : Nat) (h0 h : Heap) : Prop where
  mem : R ∈ F
  allocated : ∀ f ∈ F, f < h.length
  outside : ∀ o v, h[o]? = some v → o ∉ F → ∀ a ∈ v.refs, a ∉ F
  field : ∀ u, load h ⟨R, pr ++ [j0]⟩ = some u → ∀ a ∈ u.refs, a ∉ F
  others : ∀ j, j ≠ j0 → load h ⟨R, pr ++ [j]⟩ = load h0 ⟨R, pr ++ [j]⟩
  protected_same : ∀ f ∈ F, f ≠ R → h[f]? = h0[f]?

/-! ## Records with and without aliasing -/

/-- A record type `struct { name string }`. -/
def Leaf : Typ := .struct [("name", .basic .string)]

/-- A record type `struct { inner Leaf; p *Leaf }`. -/
def Holder : Typ := .struct [("inner", Leaf), ("p", .ptr Leaf)]

/-- Memory holding one `Holder` record `r` with `r.inner.name = "a"` and
`r.p = &r.inner`: field `p` points into the record itself. -/
def aliasHeap : Heap := [.tuple [.tuple [.string "a"], .ptr (some ⟨0, [0]⟩)]]

/-- Builder over the record of `aliasHeap`. -/
def aliasDest : Builder := some ⟨⟨Holder, some ⟨0, []⟩⟩⟩

/-- Builder over field `p` of the record of `aliasHeap`. -/
def aliasField : Builder := some ⟨⟨.ptr Leaf, some ⟨0, [1]⟩⟩⟩

/-- Memory holding one `Holder` record `r` with `r.inner.name = "a"` and `r.p`
pointing to a separate `Leaf` record, whose name is `"c"`. -/
def sepHeap : Heap := [.tuple [.tuple [.string "a"], .ptr (some ⟨1, []⟩)], .tuple [.string "c"]]

/-! ## Sequences bound to a destination -/

/-- The sequence a destination stands for in `Elem`: the destination itself, or
the pointed-to value when the destination is a pointer. -/
def boundSeq (h : Heap) (d : Value) : Option Value :=
  if d.Kind = .PtrKind then d.Sub h else some d

/-- The value stored in element `j` of a sequence. -/
def elemAt (h : Heap) (s : Value) (j : Nat) : Option Val :=
  match s.Elem h j with
  | some ⟨_, some l⟩ => load h l
  | _ => none

/-- Memory with a `*[]string` at address 0 bound to a slice of length 3 and
capacity 8 (header at address 2, backing object at address 1). -/
def partHeap : Heap :=
  [.ptr (some ⟨2, []⟩),
   .tuple (List.replicate 3 (.string "x") ++ List.replicate 5 (.string "")),
   .slice (some 1) 3 8]

/-- Memory with one `[2]int` holding zeros, and the builder over it. -/
def pairHeap : Heap := [.tuple [.int 0, .int 0]]

/-- Builder over the `[2]int` of `pairHeap`. -/
def pairDest : Builder := some ⟨⟨.array (.basic .int) 2, some ⟨0, []⟩⟩⟩

/-! ## The entry point -/

/-- Modelled from the spec: the parser `Parse(s, b)` of package json (not in the
sources), taken as a parameter: from the text, the event sink and the memory it
yields the memory it leaves and its report `(ok, errindx, errtok)`; `none` when
it faults. -/
abbrev ParseFn := String → Builder → Heap → Option (Heap × Bool × Int × String)

/-- The source's `Unmarshal(s, val)`. `typ` and `val` are the dynamic type and the
value of the interface value `val`; the result is the memory and `(ok, errtok)`,
and `none` when the call fails without returning: when `reflect.NewValue(val)`
fails, or when the parser does. -/
def Unmarshal (Parse : ParseFn) (h : Heap) (s : String) (typ : Typ) (val : Val) :
    Option (Heap × Bool × String) :=
  match NewValue h typ val with
  | some (h1, v) =>
    let b : Builder := some ⟨v⟩
    match Parse s b h1 with
    | some (h2, ok, _, errtok) =>
      if !ok then some (h2, false, errtok)
      else some (h2, true, "")
    | none => none
  | none => none

/-- A parser that accepts every text and sends the events `es` to its sink. -/
def replay (w : Nat) (fc : FloatConv) (es : List Event) : ParseFn :=
  fun _ b h => (run w fc ⟨h, b, []⟩ es).map fun r => (r.heap, true, 0, "")

/-- A parser that rejects every text with the token `tok` at index `idx` and
sends nothing to its sink. -/
def reject (idx : Int) (tok : String) : ParseFn :=
  fun _ _ h => some (h, false, idx, tok)

/-- Memory of the caller of the documented example before the call: the
variable `r = Result{ "name", "phone", nil }` at address 0. -/
def callerHeap : Heap := [.tuple [.string "name", .string "phone", .slice none 0 0]]

/-- Length and capacity of the sequence bound to a destination: of the
destination itself when it is a sequence, of what the pointer is bound to when
it is a pointer to a sequence; `none` when no sequence is bound. -/
def seqLenCap (h : Heap) (d : Value) : Option (Nat × Nat) :=
  match boundSeq h d with
  | some s =>
    if s.Kind = .ArrayKind then
      match s.Len h, s.Cap h with
      | some len, some cap => some (len, cap)
      | _, _ => none
    else none
  | none => none

/-! # Theorems -/

/-! ## Decidable equality of types and memory contents -/

mutual
theorem Val.beq_iff : ∀ a b : Val, Val.beq a b = true ↔ a = b
  | .bool a, .bool b => by simp [Val.beq]
  | .string a, .string b => by simp [Val.beq]
  | .int a, .int b => by simp [Val.beq]
  | .float a, .float b => by simp [Val.beq]
  | .ptr a, .ptr b => by simp [Val.beq]
  | .slice d l c, .slice d2 l2 c2 => by simp [Val.beq, and_assoc]
  | .tuple a, .tuple b => by simp [Val.beq, Val.beqList_iff a b]
  | .bool _, .string _ | .bool _, .int _ | .bool _, .float _ | .bool _, .ptr _
  | .bool _, .slice .. | .bool _, .tuple _ => by simp [Val.beq]
  | .string _, .bool _ | .string _, .int _ | .string _, .float _ | .string _, .ptr _
  | .string _, .slice .. | .string _, .tuple _ => by simp [Val.beq]
  | .int _, .bool _ | .int _, .string _ | .int _, .float _ | .int _, .ptr _
  | .int _, .slice .. | .int _, .tuple _ => by simp [Val.beq]
  | .float _, .bool _ | .float _, .string _ | .float _, .int _ | .float _, .ptr _
  | .float _, .slice .. | .float _, .tuple _ => by simp [Val.beq]
  | .ptr _, .bool _ | .ptr _, .string _ | .ptr _, .int _ | .ptr _, .float _
  | .ptr _, .slice .. | .ptr _, .tuple _ => by simp [Val.beq]
  | .slice .., .bool _ | .slice .., .string _ | .slice .., .int _ | .slice .., .float _
  | .slice .., .ptr _ | .slice .., .tuple _ => by simp [Val.beq]
  | .tuple _, .bool _ | .tuple _, .string _ | .tuple _, .int _ | .tuple _, .float _
  | .tuple _, .ptr _ | .tuple _, .slice .. => by simp [Val.beq]
theorem Val.beqList_iff : ∀ a b : List Val, Val.beqList a b = true ↔ a = b
  | [], [] => by simp [Val.beqList]
  | a :: as, b :: bs => by simp [Val.beqList, Val.beq_iff a b, Val.beqList_iff as bs]
  | [], _ :: _ => by simp [Val.beqList]
  | _ :: _, [] => by simp [Val.beqList]
end


instance : DecidableEq Val := fun a b => decidable_of_iff _ (Val.beq_iff a b)

mutual
theorem Typ.beq_iff_eq : ∀ a b : Typ, Typ.beq a b = true ↔ a = b
  | .basic a, .basic b => by simp [Typ.beq]
  | .ptr a, .ptr b => by simp [Typ.beq, Typ.beq_iff_eq a b]
  | .slice a, .slice b => by simp [Typ.beq, Typ.beq_iff_eq a b]
  | .array a n, .array b m => by simp [Typ.beq, Typ.beq_iff_eq a b]
  | .struct a, .struct b => by simp [Typ.beq, Typ.beqFields_iff a b]
  | .basic _, .ptr _ | .basic _, .slice _ | .basic _, .array .. | .basic _, .struct _
  | .ptr _, .basic _ | .ptr _, .slice _ | .ptr _, .array .. | .ptr _, .struct _
  | .slice _, .basic _ | .slice _, .ptr _ | .slice _, .array .. | .slice _, .struct _
  | .array .., .basic _ | .array .., .ptr _ | .array .., .slice _ | .array .., .struct _
  | .struct _, .basic _ | .struct _, .ptr _ | .struct _, .slice _ | .struct _, .array .. => by
    simp [Typ.beq]
theorem Typ.beqFields_iff : ∀ a b : List (String × Typ), Typ.beqFields a b = true ↔ a = b
  | [], [] => by simp [Typ.beqFields]
  | (a1, a2) :: as, (b1, b2) :: bs => by
    simp [Typ.beqFields, Typ.beq_iff_eq a2 b2, Typ.beqFields_iff as bs, and_assoc]
  | [], _ :: _ => by simp [Typ.beqFields]
  | _ :: _, [] => by simp [Typ.beqFields]
end

instance : DecidableEq Typ := fun a b => decidable_of_iff _ (Typ.beq_iff_eq a b)

deriving instance DecidableEq for Value
deriving instance DecidableEq for _StructBuilder
deriving instance DecidableEq for Run

/-! ## Reading back what was stored -/

theorem Val.at_update_same : ∀ (p : List Nat) (v x old : Val), v.at p = some old →
    ∃ v1, v.update p x = some v1 ∧ v1.at p = some x
  | [], v, x, old, _ => ⟨x, by simp [Val.update, Val.at]⟩
  | i :: p, v, x, old, hv => by
    cases v with
    | tuple es =>
      simp only [Val.at] at hv
      cases he : es[i]? with
      | none => simp [he] at hv
      | some e =>
        simp only [he] at hv
        obtain ⟨e1, h1, h2⟩ := Val.at_update_same p e x old hv
        have hi : i < es.length := (List.getElem?_eq_some.mp he).1
        exact ⟨.tuple (es.set i e1), by simp [Val.update, he, h1], by
          simp [Val.at, List.getElem?_set, hi, h2]⟩
    | _ => simp [Val.at] at hv

theorem load_store_same {h : Heap} {l : Loc} {old : Val} (x : Val) (hl : load h l = some old) :
    ∃ h1, store h l x = some h1 ∧ load h1 l = some x := by
  unfold load at hl
  cases ho : h[l.obj]? with
  | none => simp [ho] at hl
  | some o =>
    simp only [ho] at hl
    obtain ⟨o1, h1, h2⟩ := Val.at_update_same l.path o x old hl
    have hi : l.obj < h.length := (List.getElem?_eq_some.mp ho).1
    exact ⟨h.set l.obj o1, by simp [store, ho, h1], by simp [load, List.getElem?_set, hi, h2]⟩

/-! ## The documented example -/

/-- C1 (the code departs from its documentation). On the documented example the
builder leaves `r.emails` empty: the run of the documented events ends with
`r = Result{ "Grace R. Emlin", "phone", nil }`, because `Key("email")` matches no
field; and the same holds with the key spelled `emails`, because the field is
a slice that is not behind a pointer, so `Array()` allocates nothing and
`Elem(0)` finds no capacity. -/
theorem C1_documented_example_leaves_emails_empty (w : Nat) (fc : FloatConv) :
    run w fc ⟨docHeap, docRoot, []⟩ docEvents =
      some ⟨[.tuple [.string "Grace R. Emlin", .string "phone", .slice none 0 0],
             .ptr (some ⟨0, []⟩)], docRoot, []⟩ ∧
    run w fc ⟨docHeap, docRoot, []⟩ docEventsEmails =
      some ⟨[.tuple [.string "Grace R. Emlin", .string "phone", .slice none 0 0],
             .ptr (some ⟨0, []⟩)], docRoot, []⟩ :=
  ⟨rfl, rfl⟩

/-! ## Growing a sequence -/

/-- C2 (the code departs from the claim at n = 9). After `Array()` and
`Elem(0)`, ..., `Elem(8)` in increasing order on an unset `*[]string`, with a
string sent through each returned builder, the bound sequence has length 8 (not
9) and capacity 8, and `Elem(8)` returned the nil builder: the ninth value is
lost. -/
theorem C2_nine_elements_keep_eight (w : Nat) (fc : FloatConv) :
    run w fc ⟨[.ptr none], seqDest, []⟩ (.array :: fillEvents (fun _ => "x") 9) =
      some ⟨fullHeap, seqDest, []⟩ ∧
    run w fc ⟨[.ptr none], seqDest, []⟩ (.array :: fillEvents (fun _ => "x") 8) =
      some ⟨fullHeap, seqDest, []⟩ ∧
    _StructBuilder.Elem w fullHeap seqDest 8 = some (fullHeap, nobuilder) :=
  ⟨rfl, rfl, rfl⟩

/-- C10 (the code departs from the claim at i = c). For a pointer bound to a
slice of capacity `c` (and length at most `c`), `Elem(c)` changes nothing in
memory, so the capacity stays `c` instead of exceeding `c`, and it returns the
nil builder. -/
theorem C10_index_at_capacity_does_not_grow (w : Nat) (h : Heap) (e : Typ) (l l2 : Loc)
    (d : Option Addr) (len c : Nat)
    (hp : load h l = some (.ptr (some l2)))
    (hs : load h l2 = some (.slice d len c)) (hlen : len ≤ c) :
    _StructBuilder.Elem w h (some ⟨⟨.ptr (.slice e), some l⟩⟩) c = some (h, nobuilder) := by
  have h1 : ¬ ((c : Int) < 0) := by omega
  have h2 : ¬ ((c : Int) < len) := by omega
  simp [_StructBuilder.Elem, elemGrow, elemIndex, Value.Sub, Value.Get, Value.Kind, Typ.Kind,
    Typ.Sub, Value.Cap, Value.Len, hp, hs, h1, h2]

/-- Witness of C10: the pointer of `fullHeap` is bound to a slice of capacity 8,
and `Elem(8)` leaves the memory as it is. -/
theorem C10_index_at_capacity_witness :
    load fullHeap ⟨0, []⟩ = some (.ptr (some ⟨2, []⟩)) ∧
    load fullHeap ⟨2, []⟩ = some (.slice (some 1) 8 8) ∧
    _StructBuilder.Elem 32 fullHeap seqDest (8 : Nat) = some (fullHeap, nobuilder) :=
  ⟨by decide, by decide,
   C10_index_at_capacity_does_not_grow 32 fullHeap (.basic .string) ⟨0, []⟩ ⟨2, []⟩ (some 1) 8 8
     (by decide) (by decide) (by decide)⟩

/-! ## Integer conversions -/

theorem two_pow_pred (n : Nat) (hn : 0 < n) : (2 : Int) ^ n = 2 * 2 ^ (n - 1) := by
  obtain ⟨m, rfl⟩ : ∃ m, n = m + 1 := ⟨n - 1, by omega⟩
  simp [pow_succ, mul_comm]

theorem narrow_inRange (s : Bool) (n : Nat) (hn : 0 < n) (x : Int) :
    inRange s n (narrow s n x) := by
  have hpos : (0 : Int) < 2 ^ n := by positivity
  cases s
  · simp only [inRange, narrow, wrapUint, Bool.false_eq_true, if_false]
    exact ⟨Int.emod_nonneg _ hpos.ne', Int.emod_lt_of_pos _ hpos⟩
  · simp only [inRange, narrow, wrapInt, if_true]
    have h1 := Int.emod_nonneg (x + 2 ^ (n - 1)) hpos.ne'
    have h2 := Int.emod_lt_of_pos (x + 2 ^ (n - 1)) hpos
    have hp := two_pow_pred n hn
    constructor <;> omega

theorem narrow_dvd (s : Bool) (n : Nat) (x : Int) : (2 : Int) ^ n ∣ narrow s n x - x := by
  cases s
  · simp only [narrow, wrapUint, Bool.false_eq_true, if_false]
    exact ⟨-(x / 2 ^ n), by have := Int.emod_add_ediv x (2 ^ n); linarith⟩
  · simp only [narrow, wrapInt, if_true]
    exact ⟨-((x + 2 ^ (n - 1)) / 2 ^ n), by
      have := Int.emod_add_ediv (x + 2 ^ (n - 1)) (2 ^ n); linarith⟩

theorem inRange_unique (s : Bool) (n : Nat) (hn : 0 < n) (a b : Int)
    (ha : inRange s n a) (hb : inRange s n b) (hd : (2 : Int) ^ n ∣ a - b) : a = b := by
  have habs : |a - b| < 2 ^ n := by
    cases s
    · simp only [inRange, Bool.false_eq_true, if_false] at ha hb
      rw [abs_lt]; constructor <;> omega
    · simp only [inRange, if_true] at ha hb
      have hp := two_pow_pred n hn
      rw [abs_lt]; constructor <;> omega
  have := Int.eq_zero_of_abs_lt_dvd hd habs
  omega

theorem width_pos (w : Nat) (hw : 0 < w) (K : Basic) (n : Nat) (hK : K.width w = some n) :
    0 < n := by
  cases K <;> simp [Basic.width] at hK <;> omega

theorem width_le (w : Nat) (hw : w ≤ 64) (K : Basic) (n : Nat) (hK : K.width w = some n) :
    n ≤ 64 := by
  cases K <;> simp [Basic.width] at hK <;> omega

theorem setint_width (w : Nat) (h : Heap) (K : Basic) (n : Nat) (a : Option Loc) (i : Int)
    (hK : K.width w = some n) :
    setint w h ⟨.basic K, a⟩ i = Value.Set h ⟨.basic K, a⟩ (.int (narrow K.signed n i)) := by
  cases K <;> simp [Basic.width] at hK <;> subst hK <;>
    simp [setint, Value.Kind, Typ.Kind, Basic.Kind, narrow, Basic.signed]

theorem Int64_width (w : Nat) (fc : FloatConv) (h : Heap) (K : Basic) (n : Nat) (l : Loc)
    (i : Int) (hK : K.width w = some n) :
    _StructBuilder.Int64 w fc h (some ⟨⟨.basic K, some l⟩⟩) i =
      store h l (.int (narrow K.signed n i)) := by
  have hs := setint_width w h K n (some l) i hK
  cases K <;> simp [Basic.width] at hK <;>
    simp_all [_StructBuilder.Int64, Value.Kind, Typ.Kind, Basic.Kind, Value.Set]

theorem Uint64_width (w : Nat) (fc : FloatConv) (h : Heap) (K : Basic) (n : Nat) (l : Loc)
    (u : Nat) (hK : K.width w = some n) :
    _StructBuilder.Uint64 w fc h (some ⟨⟨.basic K, some l⟩⟩) u =
      store h l (.int (narrow K.signed n (wrapInt 64 u))) := by
  have hs := setint_width w h K n (some l) (wrapInt 64 u) hK
  cases K <;> simp [Basic.width] at hK <;>
    simp_all [_StructBuilder.Uint64, Value.Kind, Typ.Kind, Basic.Kind, Value.Set]

/-- C3. For every integer kind `K` (of `n` bits, `int` and `uint` being `w` bits
wide with `0 < w ≤ 64`), every existing destination of that kind and every `v`
in the range of `K`: `Int64(v)` (for `v` an `int64`) leaves the destination
holding exactly `v`, and so does `Uint64(v)` when `v` is not negative. -/
theorem C3_value_in_range_is_stored_exactly (w : Nat) (fc : FloatConv) (h : Heap) (K : Basic)
    (n : Nat) (l : Loc) (old : Val) (v : Int)
    (hw : 0 < w) (hw64 : w ≤ 64) (hK : K.width w = some n)
    (hl : load h l = some old) (hv : inRange K.signed n v) :
    (inRange true 64 v →
      ∃ h1, _StructBuilder.Int64 w fc h (some ⟨⟨.basic K, some l⟩⟩) v = some h1 ∧
        load h1 l = some (.int v)) ∧
    (0 ≤ v →
      ∃ h1, _StructBuilder.Uint64 w fc h (some ⟨⟨.basic K, some l⟩⟩) v.toNat = some h1 ∧
        load h1 l = some (.int v)) := by
  have hn := width_pos w hw K n hK
  have hn64 := width_le w hw64 K n hK
  constructor
  · intro _
    rw [Int64_width w fc h K n l v hK,
      inRange_unique K.signed n hn _ _ (narrow_inRange K.signed n hn v) hv (narrow_dvd _ n v)]
    exact load_store_same _ hl
  · intro h0
    have hcast : ((v.toNat : Nat) : Int) = v := Int.toNat_of_nonneg h0
    rw [Uint64_width w fc h K n l v.toNat hK, hcast]
    have hd : (2 : Int) ^ n ∣ narrow K.signed n (wrapInt 64 v) - v := by
      have h1 := narrow_dvd K.signed n (wrapInt 64 v)
      have h2 : (2 : Int) ^ n ∣ wrapInt 64 v - v :=
        dvd_trans (pow_dvd_pow 2 hn64) (narrow_dvd true 64 v)
      have := dvd_add h1 h2
      simpa using this
    rw [inRange_unique K.signed n hn _ _ (narrow_inRange K.signed n hn _) hv hd]
    exact load_store_same _ hl

/-- Witness of C3: a `uint8` destination holding 0 receives 200. -/
theorem C3_value_in_range_witness :
    (0 < 32 ∧ 32 ≤ 64 ∧ Basic.uint8.width 32 = some 8 ∧
      load [.int 0] ⟨0, []⟩ = some (.int 0) ∧ inRange Basic.uint8.signed 8 200) ∧
    ∀ fc : FloatConv,
      (inRange true 64 200 →
        ∃ h1, _StructBuilder.Int64 32 fc [.int 0] (some ⟨⟨.basic .uint8, some ⟨0, []⟩⟩⟩) 200 =
            some h1 ∧ load h1 ⟨0, []⟩ = some (.int 200)) ∧
      (0 ≤ (200 : Int) →
        ∃ h1, _StructBuilder.Uint64 32 fc [.int 0] (some ⟨⟨.basic .uint8, some ⟨0, []⟩⟩⟩)
            (200 : Int).toNat = some h1 ∧ load h1 ⟨0, []⟩ = some (.int 200)) :=
  ⟨by decide, fun fc =>
    C3_value_in_range_is_stored_exactly 32 fc [.int 0] .uint8 8 ⟨0, []⟩ (.int 0) 200
      (by decide) (by decide) rfl (by decide) (by decide)⟩

/-- C4. For every integer kind `K` of `n` bits (`int` and `uint` being `w > 0`
bits wide), every existing destination of that kind and every input `v`
(in particular every `int64`), `Int64(v)` succeeds and stores the one value of
the range of `K` that is congruent to `v` modulo `2^n`. -/
theorem C4_out_of_range_value_wraps (w : Nat) (fc : FloatConv) (h : Heap) (K : Basic)
    (n : Nat) (l : Loc) (old : Val) (v : Int)
    (hw : 0 < w) (hK : K.width w = some n) (hl : load h l = some old) :
    ∃ h1 s, _StructBuilder.Int64 w fc h (some ⟨⟨.basic K, some l⟩⟩) v = some h1 ∧
      load h1 l = some (.int s) ∧ inRange K.signed n s ∧ (2 : Int) ^ n ∣ s - v ∧
      ∀ t, inRange K.signed n t → (2 : Int) ^ n ∣ t - v → t = s := by
  have hn := width_pos w hw K n hK
  obtain ⟨h1, hs, hld⟩ := load_store_same (.int (narrow K.signed n v)) hl
  refine ⟨h1, narrow K.signed n v, ?_, hld, narrow_inRange _ n hn v, narrow_dvd _ n v, ?_⟩
  · rw [Int64_width w fc h K n l v hK, hs]
  · intro t ht hd
    refine inRange_unique K.signed n hn _ _ ht (narrow_inRange _ n hn v) ?_
    have := dvd_sub hd (narrow_dvd K.signed n v)
    simpa using this

/-- Witness of C4: 300 sent to an `int8` destination is stored as 44. -/
theorem C4_out_of_range_witness :
    (0 < 32 ∧ Basic.int8.width 32 = some 8 ∧ load [.int 0] ⟨0, []⟩ = some (.int 0)) ∧
    ∀ fc : FloatConv,
      ∃ h1 s, _StructBuilder.Int64 32 fc [.int 0] (some ⟨⟨.basic .int8, some ⟨0, []⟩⟩⟩) 300 =
          some h1 ∧
        load h1 ⟨0, []⟩ = some (.int s) ∧ inRange Basic.int8.signed 8 s ∧
        (2 : Int) ^ 8 ∣ s - 300 ∧
        ∀ t, inRange Basic.int8.signed 8 t → (2 : Int) ^ 8 ∣ t - 300 → t = s :=
  ⟨by decide, fun fc =>
    C4_out_of_range_value_wraps 32 fc [.int 0] .int8 8 ⟨0, []⟩ (.int 0) 300
      (by decide) rfl (by decide)⟩

/-! ## Scalars that do not fit, and the nil builder -/

/-- C7. For every existing destination `d`: `Bool(tf)` succeeds and afterwards
the destination holds `tf` if the kind of `d` is boolean, and memory is
unchanged otherwise; `String(s)` succeeds and afterwards the destination holds
`s` if the kind of `d` is string, and memory is unchanged otherwise. -/
theorem C7_bool_and_string_set_only_their_kind (h : Heap) (d : Value) (l : Loc) (old : Val)
    (tf : Bool) (s : String) (hd : d.addr = some l) (hl : load h l = some old) :
    (∃ h1, _StructBuilder.Bool h (some ⟨d⟩) tf = some h1 ∧
      (d.Kind = .BoolKind → load h1 l = some (.bool tf)) ∧ (d.Kind ≠ .BoolKind → h1 = h)) ∧
    (∃ h1, _StructBuilder.String h (some ⟨d⟩) s = some h1 ∧
      (d.Kind = .StringKind → load h1 l = some (.string s)) ∧
      (d.Kind ≠ .StringKind → h1 = h)) := by
  constructor
  · by_cases hk : d.Kind = .BoolKind
    · obtain ⟨h1, hs, hld⟩ := load_store_same (.bool tf) hl
      exact ⟨h1, by simp [_StructBuilder.Bool, hk, Value.Set, hd, hs], fun _ => hld,
        fun hne => absurd hk hne⟩
    · exact ⟨h, by simp [_StructBuilder.Bool, hk], fun he => absurd he hk, fun _ => rfl⟩
  · by_cases hk : d.Kind = .StringKind
    · obtain ⟨h1, hs, hld⟩ := load_store_same (.string s) hl
      exact ⟨h1, by simp [_StructBuilder.String, hk, Value.Set, hd, hs], fun _ => hld,
        fun hne => absurd hk hne⟩
    · exact ⟨h, by simp [_StructBuilder.String, hk], fun he => absurd he hk, fun _ => rfl⟩

/-- Witness of C7: a boolean destination holding `false`. -/
theorem C7_bool_and_string_witness :
    (∃ h1, _StructBuilder.Bool [.bool false] (some ⟨⟨.basic .bool, some ⟨0, []⟩⟩⟩) true = some h1 ∧
      ((⟨.basic .bool, some ⟨0, []⟩⟩ : Value).Kind = .BoolKind →
        load h1 ⟨0, []⟩ = some (.bool true)) ∧
      ((⟨.basic .bool, some ⟨0, []⟩⟩ : Value).Kind ≠ .BoolKind → h1 = [.bool false])) ∧
    (∃ h1, _StructBuilder.String [.bool false] (some ⟨⟨.basic .bool, some ⟨0, []⟩⟩⟩) "s" =
        some h1 ∧
      ((⟨.basic .bool, some ⟨0, []⟩⟩ : Value).Kind = .StringKind →
        load h1 ⟨0, []⟩ = some (.string "s")) ∧
      ((⟨.basic .bool, some ⟨0, []⟩⟩ : Value).Kind ≠ .StringKind → h1 = [.bool false])) :=
  C7_bool_and_string_set_only_their_kind [.bool false] ⟨.basic .bool, some ⟨0, []⟩⟩ ⟨0, []⟩
    (.bool false) true "s" rfl (by decide)

/-- C8. For every destination whose kind is boolean, string, pointer, sequence
or record (neither an integer kind nor a floating kind), `Int64(v)`,
`Uint64(u)` and `Float64(f)` leave memory unchanged, for all `v`, `u`, `f`. -/
theorem C8_numbers_leave_other_kinds_unchanged (w : Nat) (fc : FloatConv) (h : Heap)
    (d : Value) (v : Int) (u f : Nat)
    (hk : d.Kind = .BoolKind ∨ d.Kind = .StringKind ∨ d.Kind = .PtrKind ∨
      d.Kind = .ArrayKind ∨ d.Kind = .StructKind) :
    _StructBuilder.Int64 w fc h (some ⟨d⟩) v = some h ∧
    _StructBuilder.Uint64 w fc h (some ⟨d⟩) u = some h ∧
    _StructBuilder.Float64 w fc h (some ⟨d⟩) f = some h := by
  rcases hk with hk | hk | hk | hk | hk <;>
    simp [_StructBuilder.Int64, _StructBuilder.Uint64, _StructBuilder.Float64, setint, hk]

/-- Witness of C8: numbers sent to the string field of a record. -/
theorem C8_numbers_leave_other_kinds_witness :
    ((⟨.basic .string, some ⟨0, [0]⟩⟩ : Value).Kind = .StringKind) ∧
    ∀ fc : FloatConv,
      _StructBuilder.Int64 32 fc [.tuple [.string "a"]] (some ⟨⟨.basic .string, some ⟨0, [0]⟩⟩⟩) 7 =
        some [.tuple [.string "a"]] ∧
      _StructBuilder.Uint64 32 fc [.tuple [.string "a"]] (some ⟨⟨.basic .string, some ⟨0, [0]⟩⟩⟩) 7 =
        some [.tuple [.string "a"]] ∧
      _StructBuilder.Float64 32 fc [.tuple [.string "a"]] (some ⟨⟨.basic .string, some ⟨0, [0]⟩⟩⟩) 7 =
        some [.tuple [.string "a"]] :=
  ⟨by decide, fun fc =>
    C8_numbers_leave_other_kinds_unchanged 32 fc [.tuple [.string "a"]]
      ⟨.basic .string, some ⟨0, [0]⟩⟩ 7 7 7 (Or.inr (Or.inl (by decide)))⟩

theorem step_nobuilder (w : Nat) (fc : FloatConv) (h : Heap) (up : List Builder) (e : Event)
    (hup : ∀ b ∈ up, b = nobuilder) :
    ∃ up1, step w fc ⟨h, nobuilder, up⟩ e = some ⟨h, nobuilder, up1⟩ ∧
      ∀ b ∈ up1, b = nobuilder := by
  cases e with
  | done =>
    cases up with
    | nil => exact ⟨[], by simp [step], by simp⟩
    | cons p ps =>
      have hp : p = nobuilder := hup p (by simp)
      exact ⟨ps, by simp [step, hp], fun b hb => hup b (by simp [hb])⟩
  | elem i =>
    exact ⟨nobuilder :: up, by simp [step, _StructBuilder.Elem, nobuilder], by
      intro b hb
      rcases List.mem_cons.mp hb with hb | hb
      · exact hb
      · exact hup b hb⟩
  | key k =>
    exact ⟨nobuilder :: up, by simp [step, _StructBuilder.Key, nobuilder], by
      intro b hb
      rcases List.mem_cons.mp hb with hb | hb
      · exact hb
      · exact hup b hb⟩
  | null => exact ⟨up, by simp [step, _StructBuilder.Null], hup⟩
  | bool tf => exact ⟨up, by simp [step, _StructBuilder.Bool, nobuilder], hup⟩
  | string s => exact ⟨up, by simp [step, _StructBuilder.String, nobuilder], hup⟩
  | int64 i => exact ⟨up, by simp [step, _StructBuilder.Int64, nobuilder], hup⟩
  | uint64 u => exact ⟨up, by simp [step, _StructBuilder.Uint64, nobuilder], hup⟩
  | float64 f => exact ⟨up, by simp [step, _StructBuilder.Float64, nobuilder], hup⟩
  | array => exact ⟨up, by simp [step, _StructBuilder.Array, nobuilder], hup⟩
  | map => exact ⟨up, by simp [step, _StructBuilder.Map, nobuilder], hup⟩

theorem run_nobuilder (w : Nat) (fc : FloatConv) (h : Heap) (es : List Event) :
    ∀ up : List Builder, (∀ b ∈ up, b = nobuilder) →
      ∃ up1, run w fc ⟨h, nobuilder, up⟩ es = some ⟨h, nobuilder, up1⟩ ∧
        ∀ b ∈ up1, b = nobuilder := by
  induction es with
  | nil => intro up hup; exact ⟨up, by simp [run], hup⟩
  | cons e es ih =>
    intro up hup
    obtain ⟨up1, hs, hup1⟩ := step_nobuilder w fc h up e hup
    obtain ⟨up2, hr, hup2⟩ := ih up1 hup1
    exact ⟨up2, by simp [run, hs, hr], hup2⟩

/-- C9. The nil builder absorbs every event: each of `Null`, `Bool`, `String`,
`Int64`, `Uint64`, `Float64`, `Array` and `Map` on it leaves memory unchanged,
`Elem(i)` and `Key(k)` on it return the nil builder and leave memory unchanged,
and every sequence of events routed through it ends with unchanged memory and
with only nil builders in play. -/
theorem C9_nil_builder_absorbs_every_event (w : Nat) (fc : FloatConv) (h : Heap) :
    _StructBuilder.Null h nobuilder = some h ∧
    (∀ tf, _StructBuilder.Bool h nobuilder tf = some h) ∧
    (∀ s, _StructBuilder.String h nobuilder s = some h) ∧
    (∀ i, _StructBuilder.Int64 w fc h nobuilder i = some h) ∧
    (∀ u, _StructBuilder.Uint64 w fc h nobuilder u = some h) ∧
    (∀ f, _StructBuilder.Float64 w fc h nobuilder f = some h) ∧
    _StructBuilder.Array h nobuilder = some h ∧
    _StructBuilder.Map h nobuilder = some h ∧
    (∀ i, _StructBuilder.Elem w h nobuilder i = some (h, nobuilder)) ∧
    (∀ k, _StructBuilder.Key h nobuilder k = some nobuilder) ∧
    (∀ es : List Event, ∃ up, run w fc ⟨h, nobuilder, []⟩ es = some ⟨h, nobuilder, up⟩ ∧
      ∀ b ∈ up, b = nobuilder) :=
  ⟨rfl, fun _ => rfl, fun _ => rfl, fun _ => rfl, fun _ => rfl, fun _ => rfl, rfl, rfl,
   fun _ => rfl, fun _ => rfl, fun es => run_nobuilder w fc h es [] (by simp)⟩

/-! ## Field lookup -/

theorem keyLoop_found (sv : Value) (fs : List (String × Typ)) (k : String) (j : Nat) (tj : Typ)
    (hsv : sv.typ = .struct fs) (hj : fs[j]? = some (k, tj))
    (hfirst : ∀ j1 x, j1 < j → fs[j1]? = some x → x.1 ≠ k) :
    ∀ n i, i ≤ j → j < i + n →
      keyLoop sv (.struct fs) k n i = some (some ⟨⟨tj, sv.addr.map (fun l => l.sub j)⟩⟩) := by
  intro n
  induction n with
  | zero => intro i h1 h2; omega
  | succ n ih =>
    intro i h1 h2
    rcases Nat.eq_or_lt_of_le h1 with heq | hlt
    · subst heq
      simp [keyLoop, Typ.Field, hj, Value.Field, hsv]
    · have hlen : j < fs.length := (List.getElem?_eq_some.mp hj).1
      have hi : i < fs.length := by omega
      have hne : (fs[i]).1 ≠ k := hfirst i fs[i] hlt (List.getElem?_eq_getElem hi)
      have hrec := ih (i + 1) (by omega) (by omega)
      simp only [keyLoop, Typ.Field, List.getElem?_eq_getElem hi]
      rw [if_neg (fun hk => hne hk.symm)]
      exact hrec

theorem keyLoop_absent (sv : Value) (fs : List (String × Typ)) (k : String)
    (hno : ∀ x ∈ fs, x.1 ≠ k) :
    ∀ n i, i + n ≤ fs.length → keyLoop sv (.struct fs) k n i = some nobuilder := by
  intro n
  induction n with
  | zero => intro i _; simp [keyLoop]
  | succ n ih =>
    intro i hle
    have hi : i < fs.length := by omega
    have hne : (fs[i]).1 ≠ k := hno fs[i] (List.getElem_mem hi)
    have hrec := ih (i + 1) (by omega)
    simp only [keyLoop, Typ.Field, List.getElem?_eq_getElem hi]
    rw [if_neg (fun hk => hne hk.symm)]
    exact hrec

theorem Key_eq_keyLoop (h : Heap) (d r : Value) (k : String)
    (hr : (d.Kind ≠ .PtrKind ∧ r = d) ∨ (d.Kind = .PtrKind ∧ d.Sub h = some r)) :
    _StructBuilder.Key h (some ⟨d⟩) k =
      if r.Kind = .StructKind then keyLoop r r.typ k r.typ.Len 0 else some nobuilder := by
  rcases hr with ⟨hk, rfl⟩ | ⟨hk, hs⟩
  · simp [_StructBuilder.Key, hk]
  · simp [_StructBuilder.Key, hk, hs]

/-- C5. Let `r` be the destination `d` after dereferencing one pointer layer,
if `d` is a pointer. If `r` is a record whose field number `j` is the first
declared field named exactly `k`, `Key(k)` returns a builder over field `j` of
`r`; if `r` is a record with no field named `k`, or `r` is not a record,
`Key(k)` returns the nil builder. -/
theorem C5_key_returns_first_field_named_k (h : Heap) (d r : Value) (k : String)
    (hr : (d.Kind ≠ .PtrKind ∧ r = d) ∨ (d.Kind = .PtrKind ∧ d.Sub h = some r)) :
    (∀ fs j tj, r.typ = .struct fs → fs[j]? = some (k, tj) →
      (∀ j1 x, j1 < j → fs[j1]? = some x → x.1 ≠ k) →
      _StructBuilder.Key h (some ⟨d⟩) k =
        some (some ⟨⟨tj, r.addr.map (fun l => l.sub j)⟩⟩)) ∧
    (∀ fs, r.typ = .struct fs → (∀ x ∈ fs, x.1 ≠ k) →
      _StructBuilder.Key h (some ⟨d⟩) k = some nobuilder) ∧
    (r.Kind ≠ .StructKind → _StructBuilder.Key h (some ⟨d⟩) k = some nobuilder) := by
  have hkey := Key_eq_keyLoop h d r k hr
  refine ⟨?_, ?_, ?_⟩
  · intro fs j tj ht hj hfirst
    have hlen : j < fs.length := (List.getElem?_eq_some.mp hj).1
    rw [hkey, if_pos (by simp [Value.Kind, ht, Typ.Kind]), ht]
    exact keyLoop_found r fs k j tj ht hj hfirst fs.length 0 (by omega) (by simpa using hlen)
  · intro fs ht hno
    rw [hkey, if_pos (by simp [Value.Kind, ht, Typ.Kind]), ht]
    exact keyLoop_absent r fs k hno fs.length 0 (by simp [Typ.Len])
  · intro hk
    rw [hkey, if_neg hk]

/-- Witness of C5: the root builder of the documented example is a pointer to
`r`; `Key("phone")` is a builder over field 1 of `r`, and the differently
cased `Key("Phone")` is the nil builder. -/
theorem C5_key_witness :
    (∀ fs j tj, Result = .struct fs → fs[j]? = some ("phone", tj) →
      (∀ j1 x, j1 < j → fs[j1]? = some x → x.1 ≠ "phone") →
      _StructBuilder.Key docHeap docRoot "phone" =
        some (some ⟨⟨tj, (some (⟨0, []⟩ : Loc)).map (fun l => l.sub j)⟩⟩)) ∧
    _StructBuilder.Key docHeap docRoot "phone" =
      some (some ⟨⟨.basic .string, some ⟨0, [1]⟩⟩⟩) ∧
    _StructBuilder.Key docHeap docRoot "Phone" = some nobuilder :=
  ⟨(C5_key_returns_first_field_named_k docHeap ⟨.ptr Result, some ⟨1, []⟩⟩
      ⟨Result, some ⟨0, []⟩⟩ "phone" (Or.inr ⟨by decide, by decide⟩)).1,
   by decide, by decide⟩

/-! ## Frame of the writes below a field -/

theorem Val.mem_refsList (a : Addr) : ∀ es : List Val,
    a ∈ Val.refsList es ↔ ∃ e ∈ es, a ∈ e.refs
  | [] => by simp [Val.refsList]
  | v :: vs => by simp [Val.refsList, Val.mem_refsList a vs]

theorem Val.at_refs (a : Addr) : ∀ (p : List Nat) (v u : Val),
    v.at p = some u → a ∈ u.refs → a ∈ v.refs
  | [], v, u, hv, ha => by
    simp [Val.at] at hv
    subst hv
    exact ha
  | i :: p, v, u, hv, ha => by
    cases v with
    | tuple es =>
      simp only [Val.at] at hv
      cases he : es[i]? with
      | none => simp [he] at hv
      | some e =>
        simp only [he] at hv
        have h1 := Val.at_refs a p e u hv ha
        simp only [Val.refs]
        exact (Val.mem_refsList a es).mpr ⟨e, List.getElem?_mem he, h1⟩
    | _ => simp [Val.at] at hv

theorem Val.update_refs (a : Addr) : ∀ (p : List Nat) (v x v1 : Val),
    v.update p x = some v1 → a ∈ v1.refs → a ∈ v.refs ∨ a ∈ x.refs
  | [], v, x, v1, hv, ha => by
    simp [Val.update] at hv
    subst hv
    exact Or.inr ha
  | i :: p, v, x, v1, hv, ha => by
    cases v with
    | tuple es =>
      simp only [Val.update] at hv
      cases he : es[i]? with
      | none => simp [he] at hv
      | some e =>
        simp only [he] at hv
        cases hu : e.update p x with
        | none => simp [hu] at hv
        | some e1 =>
          simp only [hu, Option.some.injEq] at hv
          subst hv
          simp only [Val.refs] at ha ⊢
          obtain ⟨e2, he2, ha2⟩ := (Val.mem_refsList a _).mp ha
          rcases List.mem_or_eq_of_mem_set he2 with hmem | heq
          · exact Or.inl ((Val.mem_refsList a es).mpr ⟨e2, hmem, ha2⟩)
          · subst heq
            rcases Val.update_refs a p e x e2 hu ha2 with h1 | h1
            · exact Or.inl ((Val.mem_refsList a es).mpr ⟨e, List.getElem?_mem he, h1⟩)
            · exact Or.inr h1
    | _ => simp [Val.update] at hv

theorem Val.at_append : ∀ (p s : List Nat) (v : Val),
    v.at (p ++ s) = (v.at p).bind (fun u => u.at s)
  | [], s, v => by simp [Val.at]
  | i :: p, s, v => by
    cases v with
    | tuple es =>
      rw [List.cons_append]
      simp only [Val.at]
      cases he : es[i]? with
      | none => simp
      | some e => simp [Val.at_append p s e]
    | _ => simp [Val.at]

theorem Val.update_append : ∀ (p s : List Nat) (v x v1 : Val),
    v.update (p ++ s) x = some v1 →
      ∃ u u1, v.at p = some u ∧ u.update s x = some u1 ∧ v1.at p = some u1
  | [], s, v, x, v1, hv => ⟨v, v1, by simp [Val.at], by simpa using hv, by simp [Val.at]⟩
  | i :: p, s, v, x, v1, hv => by
    cases v with
    | tuple es =>
      rw [List.cons_append] at hv
      simp only [Val.update] at hv
      cases he : es[i]? with
      | none => simp [he] at hv
      | some e =>
        simp only [he] at hv
        cases hu : e.update (p ++ s) x with
        | none => simp [hu] at hv
        | some e1 =>
          simp only [hu, Option.some.injEq] at hv
          subst hv
          obtain ⟨u, u1, h1, h2, h3⟩ := Val.update_append p s e x e1 hu
          have hi : i < es.length := (List.getElem?_eq_some.mp he).1
          exact ⟨u, u1, by simp [Val.at, he, h1], h2, by
            simp [Val.at, List.getElem?_set, hi, h3]⟩
    | _ => simp [Val.update] at hv

theorem Val.at_update_sibling (j0 j : Nat) (hj : j ≠ j0) (rest : List Nat) :
    ∀ (pr : List Nat) (v x v1 : Val), v.update (pr ++ j0 :: rest) x = some v1 →
      v1.at (pr ++ [j]) = v.at (pr ++ [j])
  | [], v, x, v1, hv => by
    cases v with
    | tuple es =>
      rw [List.nil_append] at hv
      simp only [Val.update] at hv
      cases he : es[j0]? with
      | none => simp [he] at hv
      | some e =>
        simp only [he] at hv
        cases hu : e.update rest x with
        | none => simp [hu] at hv
        | some e1 =>
          simp only [hu, Option.some.injEq] at hv
          subst hv
          simp [Val.at, List.getElem?_set, Ne.symm hj]
    | _ => simp [Val.update] at hv
  | i :: pr, v, x, v1, hv => by
    cases v with
    | tuple es =>
      rw [List.cons_append] at hv
      simp only [Val.update] at hv
      cases he : es[i]? with
      | none => simp [he] at hv
      | some e =>
        simp only [he] at hv
        cases hu : e.update (pr ++ j0 :: rest) x with
        | none => simp [hu] at hv
        | some e1 =>
          simp only [hu, Option.some.injEq] at hv
          subst hv
          have hi : i < es.length := (List.getElem?_eq_some.mp he).1
          have ih := Val.at_update_sibling j0 j hj rest pr e x e1 hu
          simp [Val.at, List.getElem?_set, hi, he, ih]
    | _ => simp [Val.update] at hv

theorem Basic.zero_refs_nil (b : Basic) : b.zero.refs = [] := by
  cases b <;> simp [Basic.zero, Val.refs]

theorem Val.refsList_replicate (v : Val) (hv : v.refs = []) :
    ∀ n, Val.refsList (List.replicate n v) = []
  | 0 => by simp [Val.refsList]
  | n + 1 => by simp [List.replicate_succ, Val.refsList, hv, Val.refsList_replicate v hv n]

mutual
theorem Typ.zero_refs : ∀ t : Typ, t.zero.refs = []
  | .basic b => by simp [Typ.zero, Basic.zero_refs_nil]
  | .ptr _ => by simp [Typ.zero, Val.refs]
  | .slice _ => by simp [Typ.zero, Val.refs]
  | .array e n => by
    simp only [Typ.zero, Val.refs]
    exact Val.refsList_replicate _ (Typ.zero_refs e) n
  | .struct fs => by
    simp only [Typ.zero, Val.refs]
    exact Typ.zeroFields_refs fs
theorem Typ.zeroFields_refs : ∀ fs : List (String × Typ), Val.refsList (Typ.zeroFields fs) = []
  | [] => by simp [Typ.zeroFields, Val.refsList]
  | f :: r => by
    simp [Typ.zeroFields, Val.refsList, Typ.zero_refs f.2, Typ.zeroFields_refs r]
end

theorem Framed.load_avoid {F : List Addr} {R : Addr} {pr : List Nat} {j0 : Nat} {h0 h : Heap}
    (hf : Framed F R pr j0 h0 h) {l : Loc} {u : Val} (hl : l.Within F R pr j0)
    (hu : load h l = some u) : ∀ a ∈ u.refs, a ∉ F := by
  intro a ha
  unfold load at hu
  cases ho : h[l.obj]? with
  | none => simp [ho] at hu
  | some o =>
    simp only [ho] at hu
    rcases hl with hout | ⟨hR, rest, hp⟩
    · exact hf.outside l.obj o ho hout a (Val.at_refs a l.path o u hu ha)
    · have hp2 : l.path = (pr ++ [j0]) ++ rest := by simp [hp]
      rw [hp2, Val.at_append] at hu
      cases hu0 : o.at (pr ++ [j0]) with
      | none => simp [hu0] at hu
      | some u0 =>
        simp only [hu0, Option.some_bind] at hu
        have hload : load h ⟨R, pr ++ [j0]⟩ = some u0 := by
          simp only [load]
          rw [← hR, ho]
          exact hu0
        exact hf.field u0 hload a (Val.at_refs a rest u0 u hu ha)

theorem load_set_ne (h : Heap) (o : Addr) (v : Val) (l : Loc) (hne : o ≠ l.obj) :
    load (h.set o v) l = load h l := by
  simp [load, List.getElem?_set_ne hne]

theorem Framed.after_store {F : List Addr} {R : Addr} {pr : List Nat} {j0 : Nat}
    {h0 h h1 : Heap} (hf : Framed F R pr j0 h0 h) {l : Loc} {x : Val}
    (hl : l.Within F R pr j0) (hx : ∀ a ∈ x.refs, a ∉ F) (hs : store h l x = some h1) :
    Framed F R pr j0 h0 h1 := by
  unfold store at hs
  cases ho : h[l.obj]? with
  | none => simp [ho] at hs
  | some o =>
    simp only [ho] at hs
    cases hu : o.update l.path x with
    | none => simp [hu] at hs
    | some o1 =>
      simp only [hu, Option.some.injEq] at hs
      subst hs
      have hlen : l.obj < h.length := (List.getElem?_eq_some.mp ho).1
      have hcase : l.obj ≠ R ∨ (l.obj = R ∧ ∃ rest, l.path = pr ++ j0 :: rest) := by
        rcases hl with hout | hin
        · exact Or.inl (fun he => hout (he ▸ hf.mem))
        · exact Or.inr hin
      refine ⟨hf.mem, ?_, ?_, ?_, ?_, ?_⟩
      · intro f hfF
        simpa using hf.allocated f hfF
      · intro o2 v hv hout a ha
        by_cases heq : l.obj = o2
        · subst heq
          simp [List.getElem?_set, hlen] at hv
          subst hv
          rcases Val.update_refs a l.path o x o1 hu ha with h1 | h1
          · exact hf.outside l.obj o ho hout a h1
          · exact hx a h1
        · rw [List.getElem?_set_ne heq] at hv
          exact hf.outside o2 v hv hout a ha
      · intro u hld
        rcases hcase with hne | ⟨hR, rest, hp⟩
        · rw [load_set_ne h l.obj o1 ⟨R, pr ++ [j0]⟩ hne] at hld
          exact hf.field u hld
        · have hp2 : l.path = (pr ++ [j0]) ++ rest := by simp [hp]
          rw [hp2] at hu
          obtain ⟨u0, u1, h1, h2, h3⟩ := Val.update_append (pr ++ [j0]) rest o x o1 hu
          have hu1 : u = u1 := by
            simp only [load] at hld
            rw [← hR] at hld
            simp [List.getElem?_set, hlen, h3] at hld
            exact hld.symm
          subst hu1
          have hload : load h ⟨R, pr ++ [j0]⟩ = some u0 := by
            simp only [load]
            rw [← hR, ho]
            exact h1
          intro a ha
          rcases Val.update_refs a rest u0 x u h2 ha with h4 | h4
          · exact hf.field u0 hload a h4
          · exact hx a h4
      · intro j hj
        rw [← hf.others j hj]
        rcases hcase with hne | ⟨hR, rest, hp⟩
        · exact load_set_ne h l.obj o1 ⟨R, pr ++ [j]⟩ hne
        · rw [hp] at hu
          have hsib := Val.at_update_sibling j0 j hj rest pr o x o1 hu
          simp only [load]
          rw [← hR]
          simp [List.getElem?_set, hlen, ho, hsib]
      · intro f hfF hne
        rw [← hf.protected_same f hfF hne]
        have : l.obj ≠ f := by
          rcases hl with hout | ⟨hR, _⟩
          · exact fun he => hout (he ▸ hfF)
          · exact fun he => hne (he ▸ hR)
        exact List.getElem?_set_ne this

theorem Framed.after_alloc {F : List Addr} {R : Addr} {pr : List Nat} {j0 : Nat}
    {h0 h : Heap} (hf : Framed F R pr j0 h0 h) {x : Val} (hx : ∀ a ∈ x.refs, a ∉ F) :
    Framed F R pr j0 h0 (h ++ [x]) ∧ h.length ∉ F := by
  have hfresh : h.length ∉ F := fun hm => Nat.lt_irrefl _ (hf.allocated _ hm)
  have hR : R < h.length := hf.allocated R hf.mem
  have hload : ∀ p, load (h ++ [x]) ⟨R, p⟩ = load h ⟨R, p⟩ := by
    intro p
    simp [load, List.getElem?_append_left hR]
  refine ⟨⟨hf.mem, ?_, ?_, ?_, ?_, ?_⟩, hfresh⟩
  · intro f hfF
    rw [List.length_append, List.length_singleton]
    exact Nat.lt_succ_of_lt (hf.allocated f hfF)
  · intro o v hv hout a ha
    by_cases hlt : o < h.length
    · rw [List.getElem?_append_left hlt] at hv
      exact hf.outside o v hv hout a ha
    · have hge : h.length ≤ o := Nat.le_of_not_lt hlt
      rw [List.getElem?_append_right hge] at hv
      have hv2 : x = v := by
        cases hd : o - h.length with
        | zero => simpa [hd] using hv
        | succ m => simp [hd] at hv
      subst hv2
      exact hx a ha
  · intro u hld
    rw [hload] at hld
    exact hf.field u hld
  · intro j hj
    rw [hload]
    exact hf.others j hj
  · intro f hfF hne
    rw [List.getElem?_append_left (hf.allocated f hfF)]
    exact hf.protected_same f hfF hne

section FrameOfMethods

variable {F : List Addr} {R : Addr} {pr : List Nat} {j0 : Nat} {h0 : Heap}

theorem Value.Set_framed {h h1 : Heap} (hf : Framed F R pr j0 h0 h) {v : Value} {x : Val}
    (hv : v.Within F R pr j0) (hx : ∀ a ∈ x.refs, a ∉ F) (hs : v.Set h x = some h1) :
    Framed F R pr j0 h0 h1 := by
  unfold Value.Set at hs
  cases ha : v.addr with
  | none => simp [ha] at hs
  | some l =>
    simp only [ha] at hs
    exact hf.after_store (hv l ha) hx hs

theorem setint_framed (w : Nat) {h h1 : Heap} (hf : Framed F R pr j0 h0 h) {v : Value}
    (hv : v.Within F R pr j0) (i : Int) (hs : setint w h v i = some h1) :
    Framed F R pr j0 h0 h1 := by
  unfold setint at hs
  split at hs <;> first
    | exact Value.Set_framed hf hv (by simp [Val.refs]) hs
    | (simp only [Option.some.injEq] at hs; subst hs; exact hf)

theorem setfloat_framed (fc : FloatConv) {h h1 : Heap} (hf : Framed F R pr j0 h0 h)
    {v : Value} (hv : v.Within F R pr j0) (f : Nat) (hs : setfloat fc h v f = some h1) :
    Framed F R pr j0 h0 h1 := by
  unfold setfloat at hs
  split at hs <;> first
    | exact Value.Set_framed hf hv (by simp [Val.refs]) hs
    | (simp only [Option.some.injEq] at hs; subst hs; exact hf)

theorem Int64_framed (w : Nat) (fc : FloatConv) {h h1 : Heap} (hf : Framed F R pr j0 h0 h)
    {b : Builder} (hb : BuilderWithin F R pr j0 b) (i : Int)
    (hs : _StructBuilder.Int64 w fc h b i = some h1) : Framed F R pr j0 h0 h1 := by
  cases b with
  | none => simp [_StructBuilder.Int64] at hs; subst hs; exact hf
  | some sb =>
    simp only [_StructBuilder.Int64] at hs
    split at hs <;> first
      | exact setfloat_framed fc hf (hb sb rfl) _ hs
      | exact setint_framed w hf (hb sb rfl) _ hs

theorem Uint64_framed (w : Nat) (fc : FloatConv) {h h1 : Heap} (hf : Framed F R pr j0 h0 h)
    {b : Builder} (hb : BuilderWithin F R pr j0 b) (u : Nat)
    (hs : _StructBuilder.Uint64 w fc h b u = some h1) : Framed F R pr j0 h0 h1 := by
  cases b with
  | none => simp [_StructBuilder.Uint64] at hs; subst hs; exact hf
  | some sb =>
    simp only [_StructBuilder.Uint64] at hs
    split at hs <;> first
      | exact setfloat_framed fc hf (hb sb rfl) _ hs
      | exact setint_framed w hf (hb sb rfl) _ hs

theorem Float64_framed (w : Nat) (fc : FloatConv) {h h1 : Heap} (hf : Framed F R pr j0 h0 h)
    {b : Builder} (hb : BuilderWithin F R pr j0 b) (f : Nat)
    (hs : _StructBuilder.Float64 w fc h b f = some h1) : Framed F R pr j0 h0 h1 := by
  cases b with
  | none => simp [_StructBuilder.Float64] at hs; subst hs; exact hf
  | some sb =>
    simp only [_StructBuilder.Float64] at hs
    split at hs <;> first
      | exact setfloat_framed fc hf (hb sb rfl) _ hs
      | exact setint_framed w hf (hb sb rfl) _ hs

theorem String_framed {h h1 : Heap} (hf : Framed F R pr j0 h0 h)
    {b : Builder} (hb : BuilderWithin F R pr j0 b) (s : String)
    (hs : _StructBuilder.String h b s = some h1) : Framed F R pr j0 h0 h1 := by
  cases b with
  | none => simp [_StructBuilder.String] at hs; subst hs; exact hf
  | some sb =>
    simp only [_StructBuilder.String] at hs
    split at hs
    · exact Value.Set_framed hf (hb sb rfl) (by simp [Val.refs]) hs
    · simp only [Option.some.injEq] at hs; subst hs; exact hf

theorem Bool_framed {h h1 : Heap} (hf : Framed F R pr j0 h0 h)
    {b : Builder} (hb : BuilderWithin F R pr j0 b) (tf : Bool)
    (hs : _StructBuilder.Bool h b tf = some h1) : Framed F R pr j0 h0 h1 := by
  cases b with
  | none => simp [_StructBuilder.Bool] at hs; subst hs; exact hf
  | some sb =>
    simp only [_StructBuilder.Bool] at hs
    split at hs
    · exact Value.Set_framed hf (hb sb rfl) (by simp [Val.refs]) hs
    · simp only [Option.some.injEq] at hs; subst hs; exact hf

theorem Value.Get_avoid {h : Heap} (hf : Framed F R pr j0 h0 h) {v : Value}
    (hv : v.Within F R pr j0) {l2 : Loc} (hg : v.Get h = some (some l2)) :
    l2.Within F R pr j0 := by
  unfold Value.Get at hg
  cases ha : v.addr with
  | none => simp [ha] at hg
  | some l =>
    simp only [ha] at hg
    cases hl : load h l with
    | none => simp [hl] at hg
    | some u =>
      cases u <;> simp [hl] at hg
      subst hg
      exact Or.inl (hf.load_avoid (hv l ha) hl l2.obj (by simp [Val.refs]))

theorem Value.Sub_within {h : Heap} (hf : Framed F R pr j0 h0 h) {v r : Value}
    (hv : v.Within F R pr j0) (hs : v.Sub h = some r) : r.Within F R pr j0 := by
  unfold Value.Sub at hs
  split at hs
  · rename_i s t hsub hget
    simp only [Option.some.injEq] at hs
    subst hs
    intro l2 hl2
    simp only at hl2
    subst hl2
    exact Value.Get_avoid hf hv hget
  · simp at hs

theorem Loc.sub_within {l : Loc} (hl : l.Within F R pr j0) (i : Nat) :
    (l.sub i).Within F R pr j0 := by
  rcases hl with hout | ⟨hR, rest, hp⟩
  · exact Or.inl hout
  · exact Or.inr ⟨hR, rest ++ [i], by simp [Loc.sub, hp]⟩

theorem Value.Field_within {v f : Value} (hv : v.Within F R pr j0) {i : Nat}
    (hfd : v.Field i = some f) : f.Within F R pr j0 := by
  unfold Value.Field at hfd
  split at hfd
  · simp only [Option.some.injEq] at hfd
    subst hfd
    intro l hl
    cases ha : v.addr with
    | none => simp [ha] at hl
    | some l1 =>
      simp [ha] at hl
      subst hl
      exact Loc.sub_within (hv l1 ha) i
  · simp at hfd

theorem Value.Elem_within {h : Heap} (hf : Framed F R pr j0 h0 h) {v e : Value}
    (hv : v.Within F R pr j0) {i : Nat} (he : v.Elem h i = some e) :
    e.Within F R pr j0 := by
  unfold Value.Elem at he
  split at he
  · rename_i t l hty hal
    split at he
    · rename_i d len cap hld
      simp only [Option.some.injEq] at he
      subst he
      intro l2 hl2
      simp only [Option.some.injEq] at hl2
      subst hl2
      exact Or.inl (hf.load_avoid (hv l hal) hld d (by simp [Val.refs]))
    · simp only [Option.some.injEq] at he
      subst he
      intro l2 hl2
      simp at hl2
    · simp at he
  · rename_i t n l hty hal
    simp only [Option.some.injEq] at he
    subst he
    intro l2 hl2
    simp only [Option.some.injEq] at hl2
    subst hl2
    exact Loc.sub_within (hv l hal) i
  · simp only [Option.some.injEq] at he
    subst he
    intro l2 hl2
    simp at hl2
  · simp at he

theorem Value.SetLen_framed {h h1 : Heap} (hf : Framed F R pr j0 h0 h) {v : Value}
    (hv : v.Within F R pr j0) {len : Nat} (hs : v.SetLen h len = some h1) :
    Framed F R pr j0 h0 h1 := by
  unfold Value.SetLen at hs
  split at hs
  · rename_i t l hty hal
    split at hs
    · rename_i d len0 cap hld
      refine hf.after_store (hv l hal) ?_ hs
      intro a ha
      refine hf.load_avoid (hv l hal) hld a ?_
      cases d with
      | none => simp [Val.refs] at ha
      | some d => simpa [Val.refs] using ha
    · simp at hs
  · simp only [Option.some.injEq] at hs
    subst hs
    exact hf
  · simp at hs


theorem NewSliceValue_framed {h h1 : Heap} (hf : Framed F R pr j0 h0 h) {typ : Typ}
    {len cap : Nat} {av : Value} (hn : NewSliceValue h typ len cap = some (h1, av)) :
    Framed F R pr j0 h0 h1 ∧ av.Within F R pr j0 ∧ ∀ a ∈ (Val.ptr av.addr).refs, a ∉ F := by
  unfold NewSliceValue at hn
  split at hn
  · rename_i e _
    simp only [alloc, Option.some.injEq, Prod.mk.injEq] at hn
    obtain ⟨hh, hav⟩ := hn
    subst hh hav
    have hz : ∀ a ∈ (Val.tuple (List.replicate cap e.zero)).refs, a ∉ F := by
      intro a ha
      simp [Val.refs, Val.refsList_replicate _ (Typ.zero_refs e)] at ha
    obtain ⟨hf1, hfresh1⟩ := hf.after_alloc hz
    have hs : ∀ a ∈ (Val.slice (some h.length) len cap).refs, a ∉ F := by
      intro a ha
      simp only [Val.refs, List.mem_singleton] at ha
      subst ha
      exact hfresh1
    obtain ⟨hf2, hfresh2⟩ := hf1.after_alloc hs
    refine ⟨hf2, ?_, ?_⟩
    · intro l hl
      simp only [Option.some.injEq] at hl
      subst hl
      exact Or.inl hfresh2
    · intro a ha
      simp only [Val.refs, List.mem_singleton] at ha
      subst ha
      exact hfresh2
  · simp at hn

theorem NewInitValue_framed {h : Heap} (hf : Framed F R pr j0 h0 h) (typ : Typ) :
    Framed F R pr j0 h0 (NewInitValue h typ).1 ∧
      ∀ a ∈ (Val.ptr (NewInitValue h typ).2.addr).refs, a ∉ F := by
  have hz : ∀ a ∈ typ.zero.refs, a ∉ F := by
    intro a ha
    simp [Typ.zero_refs] at ha
  obtain ⟨hf1, hfresh⟩ := hf.after_alloc hz
  refine ⟨hf1, ?_⟩
  intro a ha
  simp only [NewInitValue, alloc, Val.refs, List.mem_singleton] at ha
  subst ha
  exact hfresh

theorem Value.CopyFrom_framed {dst src : Value} (hd : dst.Within F R pr j0)
    (hsrc : src.Within F R pr j0) :
    ∀ (n : Nat) {h h1 : Heap}, Framed F R pr j0 h0 h → dst.CopyFrom src n h = some h1 →
      Framed F R pr j0 h0 h1
  | 0, h, h1, hf, hc => by
    simp only [Value.CopyFrom, Option.some.injEq] at hc
    subst hc
    exact hf
  | n + 1, h, h1, hf, hc => by
    simp only [Value.CopyFrom] at hc
    cases hrec : dst.CopyFrom src n h with
    | none => simp [hrec] at hc
    | some h2 =>
      simp only [hrec] at hc
      have hf2 := Value.CopyFrom_framed hd hsrc n hf hrec
      split at hc
      · rename_i t ls d hse hde
        cases hx : load h2 ls with
        | none => simp [hx] at hc
        | some x =>
          simp only [hx] at hc
          have hsw := Value.Elem_within hf2 hsrc hse
          have hdw := Value.Elem_within hf2 hd hde
          exact Value.Set_framed hf2 hdw (hf2.load_avoid (hsw ls rfl) hx) hc
      · simp at hc

theorem Array_framed {h h1 : Heap} (hf : Framed F R pr j0 h0 h)
    {b : Builder} (hb : BuilderWithin F R pr j0 b)
    (hs : _StructBuilder.Array h b = some h1) : Framed F R pr j0 h0 h1 := by
  cases b with
  | none => simp [_StructBuilder.Array] at hs; subst hs; exact hf
  | some sb =>
    simp only [_StructBuilder.Array] at hs
    split at hs
    · split at hs
      · split at hs
        · split at hs
          · rename_i h2 av hn
            obtain ⟨hf2, _, hav⟩ := NewSliceValue_framed hf hn
            exact Value.Set_framed hf2 (hb sb rfl) hav hs
          · simp at hs
        · simp only [Option.some.injEq] at hs; subst hs; exact hf
      · simp at hs
    · simp only [Option.some.injEq] at hs; subst hs; exact hf

theorem Map_framed {h h1 : Heap} (hf : Framed F R pr j0 h0 h)
    {b : Builder} (hb : BuilderWithin F R pr j0 b)
    (hs : _StructBuilder.Map h b = some h1) : Framed F R pr j0 h0 h1 := by
  cases b with
  | none => simp [_StructBuilder.Map] at hs; subst hs; exact hf
  | some sb =>
    simp only [_StructBuilder.Map] at hs
    split at hs
    · split at hs
      · rename_i sub tgt hsub hget
        split at hs
        · obtain ⟨hf2, hav⟩ := NewInitValue_framed hf sub
          exact Value.Set_framed hf2 (hb sb rfl) hav hs
        · simp only [Option.some.injEq] at hs; subst hs; exact hf
      · simp at hs
    · simp only [Option.some.injEq] at hs; subst hs; exact hf


theorem elemGrow_framed (w : Nat) {h h1 : Heap} (hf : Framed F R pr j0 h0 h) {v v1 : Value}
    (hv : v.Within F R pr j0) (i : Int) (hs : elemGrow w h v i = some (h1, v1)) :
    Framed F R pr j0 h0 h1 ∧ v1.Within F R pr j0 := by
  unfold elemGrow at hs
  simp only at hs
  split at hs
  · rename_i psub hsub
    have hpw := Value.Sub_within hf hv hsub
    split at hs
    · split at hs
      · rename_i cap hcap
        split at hs
        · split at hs
          · rename_i n len hgrow hlen
            split at hs
            · rename_i h2 av1 hnew
              obtain ⟨hf2, hav1, href⟩ := NewSliceValue_framed hf hnew
              split at hs
              · rename_i h3 hcopy
                have hf3 := Value.CopyFrom_framed hav1 hpw len hf2 hcopy
                split at hs
                · rename_i h4 hset
                  simp only [Option.some.injEq, Prod.mk.injEq] at hs
                  obtain ⟨hh, hvv⟩ := hs
                  subst hh hvv
                  exact ⟨Value.Set_framed hf3 hv href hset, hpw⟩
                · simp at hs
              · simp at hs
            · simp at hs
          · simp at hs
        · simp only [Option.some.injEq, Prod.mk.injEq] at hs
          obtain ⟨hh, hvv⟩ := hs
          subst hh hvv
          exact ⟨hf, hpw⟩
      · simp at hs
    · simp only [Option.some.injEq, Prod.mk.injEq] at hs
      obtain ⟨hh, hvv⟩ := hs
      subst hh hvv
      exact ⟨hf, hpw⟩
  · simp at hs

theorem elemIndex_framed {h h1 : Heap} (hf : Framed F R pr j0 h0 h) {v : Value}
    (hv : v.Within F R pr j0) (i : Int) {b : Builder}
    (hs : elemIndex h v i = some (h1, b)) :
    Framed F R pr j0 h0 h1 ∧ BuilderWithin F R pr j0 b := by
  unfold elemIndex at hs
  simp only at hs
  split at hs
  · split at hs
    · rename_i len cap hlen hcap
      split at hs
      · rename_i h2 hset
        have hf2 : Framed F R pr j0 h0 h2 := by
          split at hset
          · exact Value.SetLen_framed hf hv hset
          · simp only [Option.some.injEq] at hset
            subst hset
            exact hf
        split at hs
        · split at hs
          · split at hs
            · rename_i e he
              simp only [Option.some.injEq, Prod.mk.injEq] at hs
              obtain ⟨hh, hb⟩ := hs
              subst hh hb
              refine ⟨hf2, ?_⟩
              intro sb hsb
              simp only [Option.some.injEq] at hsb
              subst hsb
              exact Value.Elem_within hf2 hv he
            · simp at hs
          · simp only [Option.some.injEq, Prod.mk.injEq] at hs
            obtain ⟨hh, hb⟩ := hs
            subst hh hb
            exact ⟨hf2, by intro sb hsb; simp [nobuilder] at hsb⟩
        · simp at hs
      · simp at hs
    · simp at hs
  · simp only [Option.some.injEq, Prod.mk.injEq] at hs
    obtain ⟨hh, hb⟩ := hs
    subst hh hb
    exact ⟨hf, by intro sb hsb; simp [nobuilder] at hsb⟩

theorem Elem_framed (w : Nat) {h h1 : Heap} (hf : Framed F R pr j0 h0 h)
    {b b1 : Builder} (hb : BuilderWithin F R pr j0 b) (i : Int)
    (hs : _StructBuilder.Elem w h b i = some (h1, b1)) :
    Framed F R pr j0 h0 h1 ∧ BuilderWithin F R pr j0 b1 := by
  cases b with
  | none =>
    simp only [_StructBuilder.Elem, Option.some.injEq, Prod.mk.injEq] at hs
    obtain ⟨hh, hb1⟩ := hs
    subst hh hb1
    exact ⟨hf, by intro sb hsb; simp [nobuilder] at hsb⟩
  | some sb =>
    simp only [_StructBuilder.Elem] at hs
    split at hs
    · simp only [Option.some.injEq, Prod.mk.injEq] at hs
      obtain ⟨hh, hb1⟩ := hs
      subst hh hb1
      exact ⟨hf, by intro sb hsb; simp [nobuilder] at hsb⟩
    · split at hs
      · split at hs
        · rename_i h2 v1 hgrow
          obtain ⟨hf2, hv1⟩ := elemGrow_framed w hf (hb sb rfl) i hgrow
          exact elemIndex_framed hf2 hv1 i hs
        · simp at hs
      · exact elemIndex_framed hf (hb sb rfl) i hs

theorem keyLoop_within {sv : Value} (hsv : sv.Within F R pr j0) (t : Typ) (k : String) :
    ∀ (n i : Nat) {b : Builder}, keyLoop sv t k n i = some b → BuilderWithin F R pr j0 b
  | 0, i, b, hk => by
    simp only [keyLoop, Option.some.injEq] at hk
    subst hk
    intro sb hsb
    simp [nobuilder] at hsb
  | n + 1, i, b, hk => by
    simp only [keyLoop] at hk
    split at hk
    · split at hk
      · split at hk
        · rename_i f hfd
          simp only [Option.some.injEq] at hk
          subst hk
          intro sb hsb
          simp only [Option.some.injEq] at hsb
          subst hsb
          exact Value.Field_within hsv hfd
        · simp at hk
      · exact keyLoop_within hsv t k n (i + 1) hk
    · simp at hk

theorem Key_within {h : Heap} (hf : Framed F R pr j0 h0 h)
    {b b1 : Builder} (hb : BuilderWithin F R pr j0 b) (k : String)
    (hs : _StructBuilder.Key h b k = some b1) : BuilderWithin F R pr j0 b1 := by
  cases b with
  | none =>
    simp only [_StructBuilder.Key, Option.some.injEq] at hs
    subst hs
    intro sb hsb
    simp [nobuilder] at hsb
  | some sb =>
    simp only [_StructBuilder.Key] at hs
    split at hs
    · rename_i v hv
      have hvw : v.Within F R pr j0 := by
        split at hv
        · exact Value.Sub_within hf (hb sb rfl) hv
        · simp only [Option.some.injEq] at hv
          subst hv
          exact hb sb rfl
      split at hs
      · exact keyLoop_within hvw _ k _ _ hs
      · simp only [Option.some.injEq] at hs
        subst hs
        intro sb hsb
        simp [nobuilder] at hsb
    · simp at hs

theorem step_framed (w : Nat) (fc : FloatConv) {s s1 : Run} (hf : Framed F R pr j0 h0 s.heap)
    (hc : BuilderWithin F R pr j0 s.cur) (hup : ∀ b ∈ s.up, BuilderWithin F R pr j0 b)
    (e : Event) (hs : step w fc s e = some s1) :
    Framed F R pr j0 h0 s1.heap ∧ BuilderWithin F R pr j0 s1.cur ∧
      ∀ b ∈ s1.up, BuilderWithin F R pr j0 b := by
  have hcons : ∀ b ∈ s.cur :: s.up, BuilderWithin F R pr j0 b := by
    intro b hb
    rcases List.mem_cons.mp hb with hb | hb
    · exact hb ▸ hc
    · exact hup b hb
  cases e with
  | null =>
    simp only [step, _StructBuilder.Null, Option.map_some', Option.some.injEq] at hs
    subst hs
    exact ⟨hf, hc, hup⟩
  | bool tf =>
    simp only [step, Option.map_eq_some'] at hs
    obtain ⟨h1, hm, rfl⟩ := hs
    exact ⟨Bool_framed hf hc tf hm, hc, hup⟩
  | string x =>
    simp only [step, Option.map_eq_some'] at hs
    obtain ⟨h1, hm, rfl⟩ := hs
    exact ⟨String_framed hf hc x hm, hc, hup⟩
  | int64 i =>
    simp only [step, Option.map_eq_some'] at hs
    obtain ⟨h1, hm, rfl⟩ := hs
    exact ⟨Int64_framed w fc hf hc i hm, hc, hup⟩
  | uint64 u =>
    simp only [step, Option.map_eq_some'] at hs
    obtain ⟨h1, hm, rfl⟩ := hs
    exact ⟨Uint64_framed w fc hf hc u hm, hc, hup⟩
  | float64 f =>
    simp only [step, Option.map_eq_some'] at hs
    obtain ⟨h1, hm, rfl⟩ := hs
    exact ⟨Float64_framed w fc hf hc f hm, hc, hup⟩
  | array =>
    simp only [step, Option.map_eq_some'] at hs
    obtain ⟨h1, hm, rfl⟩ := hs
    exact ⟨Array_framed hf hc hm, hc, hup⟩
  | map =>
    simp only [step, Option.map_eq_some'] at hs
    obtain ⟨h1, hm, rfl⟩ := hs
    exact ⟨Map_framed hf hc hm, hc, hup⟩
  | elem i =>
    simp only [step, Option.map_eq_some'] at hs
    obtain ⟨⟨h1, b1⟩, hm, rfl⟩ := hs
    obtain ⟨hf1, hb1⟩ := Elem_framed w hf hc i hm
    exact ⟨hf1, hb1, hcons⟩
  | key k =>
    simp only [step, Option.map_eq_some'] at hs
    obtain ⟨b1, hm, rfl⟩ := hs
    exact ⟨hf, Key_within hf hc k hm, hcons⟩
  | done =>
    simp only [step] at hs
    split at hs
    · rename_i p ps hps
      simp only [Option.some.injEq] at hs
      subst hs
      exact ⟨hf, hup p (by simp [hps]), fun b hb => hup b (by simp [hps, hb])⟩
    · simp only [Option.some.injEq] at hs
      subst hs
      exact ⟨hf, hc, hup⟩

theorem run_framed (w : Nat) (fc : FloatConv) :
    ∀ (es : List Event) {s s1 : Run}, Framed F R pr j0 h0 s.heap →
      BuilderWithin F R pr j0 s.cur → (∀ b ∈ s.up, BuilderWithin F R pr j0 b) →
      run w fc s es = some s1 → Framed F R pr j0 h0 s1.heap
  | [], s, s1, hf, _, _, hr => by
    simp only [run, Option.some.injEq] at hr
    subst hr
    exact hf
  | e :: es, s, s1, hf, hc, hup, hr => by
    simp only [run] at hr
    split at hr
    · rename_i s2 hst
      obtain ⟨hf2, hc2, hup2⟩ := step_framed w fc hf hc hup e hst
      exact run_framed w fc es hf2 hc2 hup2 hr
    · simp at hr

end FrameOfMethods

/-! ## Fields that a key does not name -/

theorem Key_found (h : Heap) (d r : Value) (k : String) (fs : List (String × Typ))
    (j : Nat) (tj : Typ)
    (hr : (d.Kind ≠ .PtrKind ∧ r = d) ∨ (d.Kind = .PtrKind ∧ d.Sub h = some r))
    (ht : r.typ = .struct fs) (hj : fs[j]? = some (k, tj))
    (hfirst : ∀ j1 x, j1 < j → fs[j1]? = some x → x.1 ≠ k) :
    _StructBuilder.Key h (some ⟨d⟩) k = some (some ⟨⟨tj, r.addr.map (fun l => l.sub j)⟩⟩) := by
  have hlen : j < fs.length := (List.getElem?_eq_some.mp hj).1
  rw [Key_eq_keyLoop h d r k hr, if_pos (by simp [Value.Kind, ht, Typ.Kind]), ht]
  exact keyLoop_found r fs k j tj ht hj hfirst fs.length 0 (by omega) (by simpa using hlen)

theorem Key_absent (h : Heap) (d r : Value) (k : String) (fs : List (String × Typ))
    (hr : (d.Kind ≠ .PtrKind ∧ r = d) ∨ (d.Kind = .PtrKind ∧ d.Sub h = some r))
    (ht : r.typ = .struct fs) (hno : ∀ x ∈ fs, x.1 ≠ k) :
    _StructBuilder.Key h (some ⟨d⟩) k = some nobuilder := by
  rw [Key_eq_keyLoop h d r k hr, if_pos (by simp [Value.Kind, ht, Typ.Kind]), ht]
  exact keyLoop_absent r fs k hno fs.length 0 (by simp [Typ.Len])

/-- C6 as stated fails. In `aliasHeap` field `p` of the record points to the
record's own field `inner`; the events `Key("name")`, `String("b")` sent
through the builder returned by `Key("p")` change field `inner`, which is not
the field named `p`, from `{"a"}` to `{"b"}`. -/
theorem C6_aliased_field_is_overwritten :
    _StructBuilder.Key aliasHeap aliasDest "p" = some aliasField ∧
    (∀ fc : FloatConv,
      (run 32 fc ⟨aliasHeap, aliasField, []⟩ [.key "name", .string "b"]).map (fun s => s.heap) =
        some [.tuple [.tuple [.string "b"], .ptr (some ⟨0, [0]⟩)]]) ∧
    load aliasHeap ⟨0, [0]⟩ = some (.tuple [.string "a"]) ∧
    load [.tuple [.tuple [.string "b"], .ptr (some ⟨0, [0]⟩)]] ⟨0, [0]⟩ =
      some (.tuple [.string "b"]) :=
  ⟨by decide, fun _ => rfl, by decide, by decide⟩

/-- C6, amended. Let `r` be the destination `d` after dereferencing one pointer
layer, if `d` is a pointer, and let `r` be a record stored at path `pr` of
object `R`. If field `j0` is the first declared field named `k`, and the
record's object cannot be reached from that field (there is a set `F` of
allocated objects containing `R` such that neither the objects outside `F` nor
field `j0` hold a pointer or slice into `F`), then after every event sequence
sent through the builder returned by `Key(k)` every other field of the record
holds its prior value. If no declared field is named `k`, `Key(k)` returns the
nil builder and every event sequence through it succeeds and leaves memory
unchanged. -/
theorem C6_other_fields_keep_their_value (w : Nat) (fc : FloatConv) (h : Heap) (d r : Value)
    (fs : List (String × Typ)) (R : Addr) (pr : List Nat) (k : String) (es : List Event)
    (F : List Addr)
    (hr : (d.Kind ≠ .PtrKind ∧ r = d) ∨ (d.Kind = .PtrKind ∧ d.Sub h = some r))
    (ht : r.typ = .struct fs) (ha : r.addr = some ⟨R, pr⟩) :
    (∀ j0 t0, fs[j0]? = some (k, t0) → (∀ j1 x, j1 < j0 → fs[j1]? = some x → x.1 ≠ k) →
      R ∈ F → (∀ f ∈ F, f < h.length) →
      (∀ o v, h[o]? = some v → o ∉ F → ∀ a ∈ v.refs, a ∉ F) →
      (∀ u, load h ⟨R, pr ++ [j0]⟩ = some u → ∀ a ∈ u.refs, a ∉ F) →
      ∃ b, _StructBuilder.Key h (some ⟨d⟩) k = some b ∧
        ∀ res, run w fc ⟨h, b, []⟩ es = some res →
          ∀ j, j ≠ j0 → load res.heap ⟨R, pr ++ [j]⟩ = load h ⟨R, pr ++ [j]⟩) ∧
    ((∀ x ∈ fs, x.1 ≠ k) →
      ∃ up, _StructBuilder.Key h (some ⟨d⟩) k = some nobuilder ∧
        run w fc ⟨h, nobuilder, []⟩ es = some ⟨h, nobuilder, up⟩) := by
  constructor
  · intro j0 t0 hj hfirst hR halloc hout hfield
    refine ⟨_, Key_found h d r k fs j0 t0 hr ht hj hfirst, ?_⟩
    intro res hrun j hjne
    have hf : Framed F R pr j0 h h :=
      ⟨hR, halloc, hout, hfield, fun _ _ => rfl, fun _ _ _ => rfl⟩
    have hb : BuilderWithin F R pr j0 (some ⟨⟨t0, r.addr.map (fun l => l.sub j0)⟩⟩) := by
      intro sb hsb
      simp only [Option.some.injEq] at hsb
      subst hsb
      intro l hl
      simp only [ha, Option.map_some', Option.some.injEq] at hl
      subst hl
      exact Or.inr ⟨rfl, [], rfl⟩
    exact (run_framed w fc es (s := ⟨h, _, []⟩) hf hb (by simp) hrun).others j hjne
  · intro hno
    obtain ⟨up, hrun, _⟩ := run_nobuilder w fc h es [] (by simp)
    exact ⟨up, Key_absent h d r k fs hr ht hno, hrun⟩

/-- Witness of C6: in `sepHeap` field `p` of the record points to a separate
object, so object 0 is not reachable from it (`F = [0]`); whatever a run of
`Map()`, `Key("name")`, `String("b")` through the builder of `Key("p")` does,
field `inner` keeps its value. The run itself succeeds and writes `"b"` into
the separate object. -/
theorem C6_other_fields_witness :
    _StructBuilder.Key sepHeap (some ⟨⟨Holder, some ⟨0, []⟩⟩⟩) "p" = some aliasField ∧
    (∀ fc : FloatConv,
      (run 32 fc ⟨sepHeap, aliasField, []⟩ [.map, .key "name", .string "b", .done]).map
          (fun s => s.heap) =
        some [.tuple [.tuple [.string "a"], .ptr (some ⟨1, []⟩)], .tuple [.string "b"]]) ∧
    (∀ (fc : FloatConv) (res : Run),
      run 32 fc ⟨sepHeap, aliasField, []⟩ [.map, .key "name", .string "b", .done] = some res →
        load res.heap ⟨0, [0]⟩ = load sepHeap ⟨0, [0]⟩) := by
  refine ⟨by decide, fun _ => rfl, ?_⟩
  intro fc res hres
  obtain ⟨b, hb, hkeep⟩ :=
    (C6_other_fields_keep_their_value 32 fc sepHeap ⟨Holder, some ⟨0, []⟩⟩ ⟨Holder, some ⟨0, []⟩⟩
      [("inner", Leaf), ("p", .ptr Leaf)] 0 [] "p"
      [.map, .key "name", .string "b", .done] [0]
      (Or.inl ⟨by decide, rfl⟩) rfl rfl).1 1 (.ptr Leaf) rfl
      (by
        intro j1 x hj1 hx
        have h0 : j1 = 0 := by omega
        subst h0
        simp at hx
        subst hx
        decide)
      (by simp) (by intro f hf; simp at hf; subst hf; decide)
      (by
        intro o v hv ho a ha
        match o with
        | 0 => simp at ho
        | 1 =>
          simp [sepHeap] at hv
          subst hv
          simp [Val.refs, Val.refsList] at ha
        | n + 2 => simp [sepHeap] at hv)
      (by
        intro u hu a ha
        simp [load, sepHeap, Val.at] at hu
        subst hu
        simp [Val.refs] at ha
        subst ha
        decide)
  have hb2 : b = aliasField := by
    have : _StructBuilder.Key sepHeap (some ⟨⟨Holder, some ⟨0, []⟩⟩⟩) "p" = some aliasField := by
      decide
    rw [this] at hb
    exact (Option.some.inj hb).symm
  subst hb2
  exact hkeep res hres 0 (by decide)

/-! ## The growth loop -/

theorem wrapInt_of_dvd (w : Nat) (hw : 0 < w) (x : Int) (hx : (2 : Int) ^ w ∣ x) :
    wrapInt w x = 0 := by
  have h0 : inRange true w 0 := by
    have hpos : (0 : Int) < 2 ^ (w - 1) := by positivity
    simp only [inRange, if_true]
    constructor <;> omega
  have h1 : inRange true w (wrapInt w x) := by
    simpa [narrow] using narrow_inRange true w hw x
  have h2 : (2 : Int) ^ w ∣ wrapInt w x - x := by
    simpa [narrow] using narrow_dvd true w x
  have h3 : (2 : Int) ^ w ∣ wrapInt w x - 0 := by
    have := dvd_add h2 hx
    simpa using this
  exact inRange_unique true w hw _ _ h1 h0 h3

theorem growCap_zero (w : Nat) (hw : 0 < w) (i : Int) (hi : 0 ≤ i) :
    ∀ fuel, growCap w fuel 0 i = none
  | 0 => rfl
  | fuel + 1 => by
    have hz : wrapInt w (0 * 2) = 0 := wrapInt_of_dvd w hw _ (by simp)
    simp only [growCap, if_pos hi, hz]
    exact growCap_zero w hw i hi fuel

/-- More fuel than `w + 2` never changes the outcome of the growth loop: when
`growCap w (w + 2) n i` is `none`, the loop of the source does not end. -/
theorem growCap_fuel (w : Nat) (hw : 0 < w) (i : Int) (hi : 0 ≤ i) :
    ∀ (k : Nat) (n : Int), (2 : Int) ^ (w - k) ∣ n → ∀ fuel, k + 2 ≤ fuel →
      growCap w fuel n i = growCap w (k + 2) n i
  | 0, n, hn, fuel, hfuel => by
    obtain ⟨f, rfl⟩ : ∃ f, fuel = f + 1 := ⟨fuel - 1, by omega⟩
    have hz : wrapInt w (n * 2) = 0 :=
      wrapInt_of_dvd w hw _ (Dvd.dvd.mul_right (by simpa using hn) 2)
    by_cases hle : n ≤ i
    · simp only [growCap, if_pos hle, hz, growCap_zero w hw i hi f]
      simp [growCap, hi]
    · simp [growCap, if_neg hle]
  | k + 1, n, hn, fuel, hfuel => by
    obtain ⟨f, rfl⟩ : ∃ f, fuel = f + 1 := ⟨fuel - 1, by omega⟩
    by_cases hle : n ≤ i
    · have hd : (2 : Int) ^ (w - k) ∣ wrapInt w (n * 2) := by
        have h1 : (2 : Int) ^ (w - k) ∣ n * 2 := by
          by_cases hk : k < w
          · have he : w - k = (w - (k + 1)) + 1 := by omega
            rw [he, pow_succ]
            exact mul_dvd_mul_right hn 2
          · have he : w - k = 0 := by omega
            simp [he]
        have h2 : (2 : Int) ^ w ∣ wrapInt w (n * 2) - n * 2 := by
          simpa [narrow] using narrow_dvd true w (n * 2)
        have h3 : (2 : Int) ^ (w - k) ∣ wrapInt w (n * 2) - n * 2 :=
          dvd_trans (pow_dvd_pow 2 (Nat.sub_le w k)) h2
        have := dvd_add h3 h1
        simpa using this
      have ih := growCap_fuel w hw i hi k (wrapInt w (n * 2)) hd f (by omega)
      simp only [growCap, if_pos hle]
      exact ih
    · simp [growCap, if_neg hle]

/-! ## Addressing elements within the capacity -/

theorem Value.slice_of_Len_Cap {h : Heap} {s : Value} {len cap : Nat} {e : Typ}
    (ht : s.typ = .slice e) (hlen : s.Len h = some len) (hcap : s.Cap h = some cap) :
    ∃ l d, s.addr = some l ∧ load h l = some (.slice d len cap) := by
  obtain ⟨typ, addr⟩ := s
  simp only at ht
  subst ht
  cases addr with
  | none => simp [Value.Len] at hlen
  | some l =>
    simp only [Value.Len] at hlen
    simp only [Value.Cap] at hcap
    cases hl : load h l with
    | none => simp [hl] at hlen
    | some v =>
      cases v <;> simp [hl] at hlen hcap
      subst hlen hcap
      exact ⟨l, _, rfl, hl⟩

theorem elemIndex_extend (h : Heap) (s : Value) (len cap i : Nat)
    (hk : s.Kind = .ArrayKind) (hlen : s.Len h = some len) (hcap : s.Cap h = some cap)
    (h1 : len ≤ i) (h2 : i < cap) :
    ∃ h1 e, elemIndex h s i = some (h1, some ⟨e⟩) ∧ s.Elem h1 i = some e ∧
      s.Len h1 = some (i + 1) ∧ s.Cap h1 = some cap := by
  obtain ⟨typ, addr⟩ := s
  cases typ with
  | slice e =>
    obtain ⟨l, d, ha, hl⟩ := Value.slice_of_Len_Cap (s := ⟨.slice e, addr⟩) rfl hlen hcap
    simp only at ha
    subst ha
    obtain ⟨hn, hst, hld⟩ := load_store_same (.slice d (i + 1) cap) hl
    have hc : (len ≤ i ∧ i < cap) := ⟨h1, h2⟩
    have hlt : (i : Int) < ((i + 1 : Nat) : Int) := by omega
    have htn : ((i : Int) + 1).toNat = i + 1 := by omega
    cases d with
    | none =>
      refine ⟨hn, ⟨e, none⟩, ?_, ?_, ?_, ?_⟩
      · simp [elemIndex, Value.Kind, Typ.Kind, Value.Len, Value.Cap, hl, hc, Value.SetLen,
          htn, hst, hld, Value.Elem]
      · simp [Value.Elem, hld]
      · simp [Value.Len, hld]
      · simp [Value.Cap, hld]
    | some dd =>
      refine ⟨hn, ⟨e, some ⟨dd, [i]⟩⟩, ?_, ?_, ?_, ?_⟩
      · simp [elemIndex, Value.Kind, Typ.Kind, Value.Len, Value.Cap, hl, hc, Value.SetLen,
          htn, hst, hld, Value.Elem]
      · simp [Value.Elem, hld]
      · simp [Value.Len, hld]
      · simp [Value.Cap, hld]
  | array e n =>
    simp [Value.Len] at hlen
    simp [Value.Cap] at hcap
    omega
  | basic b => cases b <;> simp [Value.Kind, Typ.Kind, Basic.Kind] at hk
  | ptr t => simp [Value.Kind, Typ.Kind] at hk
  | struct fs => simp [Value.Kind, Typ.Kind] at hk

theorem elemIndex_below (h : Heap) (s : Value) (len cap i : Nat)
    (hk : s.Kind = .ArrayKind) (hlen : s.Len h = some len) (hcap : s.Cap h = some cap)
    (h1 : i < len) :
    ∃ e, elemIndex h s i = some (h, some ⟨e⟩) ∧ s.Elem h i = some e := by
  obtain ⟨typ, addr⟩ := s
  have hc : ¬ (len ≤ i ∧ i < cap) := by omega
  have hlt : i < len := h1
  cases typ with
  | slice e =>
    obtain ⟨l, d, ha, hl⟩ := Value.slice_of_Len_Cap (s := ⟨.slice e, addr⟩) rfl hlen hcap
    simp only at ha
    subst ha
    cases d with
    | none =>
      exact ⟨⟨e, none⟩, by
        simp [elemIndex, Value.Kind, Typ.Kind, Value.Len, Value.Cap, hl, hc, hlt, Value.Elem],
        by simp [Value.Elem, hl]⟩
    | some dd =>
      exact ⟨⟨e, some ⟨dd, [i]⟩⟩, by
        simp [elemIndex, Value.Kind, Typ.Kind, Value.Len, Value.Cap, hl, hc, hlt, Value.Elem],
        by simp [Value.Elem, hl]⟩
  | array e n =>
    simp [Value.Len] at hlen
    simp [Value.Cap] at hcap
    subst hlen
    cases addr with
    | none =>
      exact ⟨⟨e, none⟩, by
        simp [elemIndex, Value.Kind, Typ.Kind, Value.Len, Value.Cap, hlt, Value.Elem,
          Value.SetLen],
        by simp [Value.Elem]⟩
    | some l =>
      exact ⟨⟨e, some (l.sub i)⟩, by
        simp [elemIndex, Value.Kind, Typ.Kind, Value.Len, Value.Cap, hlt, Value.Elem,
          Value.SetLen],
        by simp [Value.Elem]⟩
  | basic b => cases b <;> simp [Value.Kind, Typ.Kind, Basic.Kind] at hk
  | ptr t => simp [Value.Kind, Typ.Kind] at hk
  | struct fs => simp [Value.Kind, Typ.Kind] at hk

theorem Elem_eq_elemIndex (w : Nat) (h : Heap) (d s : Value) (cap i : Nat)
    (hs : boundSeq h d = some s) (hk : s.Kind = .ArrayKind) (hcap : s.Cap h = some cap)
    (hi : i ≤ cap) :
    _StructBuilder.Elem w h (some ⟨d⟩) i = elemIndex h s i := by
  have h0 : ¬ ((i : Int) < 0) := by omega
  have h1 : ¬ ((i : Int) > (cap : Int)) := by omega
  unfold boundSeq at hs
  by_cases hp : d.Kind = .PtrKind
  · simp only [hp, if_true] at hs
    simp [_StructBuilder.Elem, h0, hp, elemGrow, hs, hk, hcap, h1]
  · simp only [hp, if_false, Option.some.injEq] at hs
    subst hs
    simp [_StructBuilder.Elem, h0, hp]

/-- C11. For every sequence destination (the sequence itself, or a pointer to
it) with length `len ≤ cap` and capacity `cap`: for `len ≤ i < cap`, `Elem(i)`
succeeds, sets the length to `i + 1`, leaves the capacity at `cap` and returns
a real builder over element `i`; for `i < len` it returns a real builder over
element `i` and leaves memory, hence length and capacity, unchanged. -/
theorem C11_index_within_capacity (w : Nat) (h : Heap) (d s : Value) (len cap i : Nat)
    (hs : boundSeq h d = some s) (hk : s.Kind = .ArrayKind)
    (hlen : s.Len h = some len) (hcap : s.Cap h = some cap) (hle : len ≤ cap) :
    (len ≤ i → i < cap →
      ∃ h1 e, _StructBuilder.Elem w h (some ⟨d⟩) i = some (h1, some ⟨e⟩) ∧
        s.Elem h1 i = some e ∧ s.Len h1 = some (i + 1) ∧ s.Cap h1 = some cap) ∧
    (i < len →
      ∃ e, _StructBuilder.Elem w h (some ⟨d⟩) i = some (h, some ⟨e⟩) ∧
        s.Elem h i = some e) := by
  constructor
  · intro h1 h2
    rw [Elem_eq_elemIndex w h d s cap i hs hk hcap (by omega)]
    exact elemIndex_extend h s len cap i hk hlen hcap h1 h2
  · intro h1
    rw [Elem_eq_elemIndex w h d s cap i hs hk hcap (by omega)]
    exact elemIndex_below h s len cap i hk hlen hcap h1

/-- Witness of C11: on `partHeap` (length 3, capacity 8) `Elem(5)` sets the
length to 6 and returns the builder over element 5. -/
theorem C11_index_within_capacity_witness :
    (boundSeq partHeap ⟨.ptr (.slice (.basic .string)), some ⟨0, []⟩⟩ =
        some ⟨.slice (.basic .string), some ⟨2, []⟩⟩ ∧
      (⟨.slice (.basic .string), some ⟨2, []⟩⟩ : Value).Len partHeap = some 3 ∧
      (⟨.slice (.basic .string), some ⟨2, []⟩⟩ : Value).Cap partHeap = some 8) ∧
    ((3 ≤ 5 → 5 < 8 →
      ∃ h1 e, _StructBuilder.Elem 32 partHeap seqDest (5 : Nat) = some (h1, some ⟨e⟩) ∧
        (⟨.slice (.basic .string), some ⟨2, []⟩⟩ : Value).Elem h1 5 = some e ∧
        (⟨.slice (.basic .string), some ⟨2, []⟩⟩ : Value).Len h1 = some (5 + 1) ∧
        (⟨.slice (.basic .string), some ⟨2, []⟩⟩ : Value).Cap h1 = some 8) ∧
     (5 < 3 →
      ∃ e, _StructBuilder.Elem 32 partHeap seqDest (5 : Nat) = some (partHeap, some ⟨e⟩) ∧
        (⟨.slice (.basic .string), some ⟨2, []⟩⟩ : Value).Elem partHeap 5 = some e)) ∧
    _StructBuilder.Elem 32 partHeap seqDest 5 =
      some (partHeap.set 2 (.slice (some 1) 6 8), some ⟨⟨.basic .string, some ⟨1, [5]⟩⟩⟩) ∧
    _StructBuilder.Elem 32 partHeap seqDest 1 =
      some (partHeap, some ⟨⟨.basic .string, some ⟨1, [1]⟩⟩⟩) :=
  ⟨⟨by decide, by decide, by decide⟩,
   C11_index_within_capacity 32 partHeap ⟨.ptr (.slice (.basic .string)), some ⟨0, []⟩⟩
     ⟨.slice (.basic .string), some ⟨2, []⟩⟩ 3 8 5 (by decide) (by decide) (by decide)
     (by decide) (by decide),
   by decide, by decide⟩

/-! ## Indices and destinations that `Elem` rejects -/

/-- C12. `Elem(i)` returns the nil builder and leaves memory unchanged when `i`
is negative, when the destination is neither a sequence nor a pointer, when
it is a pointer to something that is not a sequence, and when it is a
fixed-size array of `n` elements (not behind a pointer) and `i ≥ n`; for
`0 ≤ i < n` a fixed-size array yields a real builder over element `i`, again
with memory unchanged. -/
theorem C12_rejected_index_or_destination (w : Nat) (h : Heap) (d : Value) (i : Int) :
    (i < 0 → _StructBuilder.Elem w h (some ⟨d⟩) i = some (h, nobuilder)) ∧
    (d.Kind ≠ .ArrayKind → d.Kind ≠ .PtrKind →
      _StructBuilder.Elem w h (some ⟨d⟩) i = some (h, nobuilder)) ∧
    (∀ r, d.Kind = .PtrKind → d.Sub h = some r → r.Kind ≠ .ArrayKind →
      _StructBuilder.Elem w h (some ⟨d⟩) i = some (h, nobuilder)) ∧
    (∀ e n, d.typ = .array e n → (n : Int) ≤ i →
      _StructBuilder.Elem w h (some ⟨d⟩) i = some (h, nobuilder)) ∧
    (∀ e n l, d = ⟨.array e n, some l⟩ → 0 ≤ i → i < (n : Int) →
      _StructBuilder.Elem w h (some ⟨d⟩) i = some (h, some ⟨⟨e, some (l.sub i.toNat)⟩⟩)) := by
  refine ⟨?_, ?_, ?_, ?_, ?_⟩
  · intro hi
    simp [_StructBuilder.Elem, hi]
  · intro hk hp
    by_cases hi : i < 0
    · simp [_StructBuilder.Elem, hi]
    · simp [_StructBuilder.Elem, hi, hp, elemIndex, hk]
  · intro r hp hs hk
    by_cases hi : i < 0
    · simp [_StructBuilder.Elem, hi]
    · simp [_StructBuilder.Elem, hi, hp, elemGrow, hs, hk, elemIndex]
  · intro e n ht hn
    obtain ⟨typ, addr⟩ := d
    simp only at ht
    subst ht
    have hi : ¬ i < 0 := by omega
    have h1 : ¬ ((n : Int) ≤ i ∧ i < n) := by omega
    have h2 : ¬ (i < (n : Int)) := by omega
    simp [_StructBuilder.Elem, hi, Value.Kind, Typ.Kind, elemIndex, Value.Len, Value.Cap, h1, h2]
  · intro e n l hd h0 hn
    subst hd
    have hi : ¬ i < 0 := by omega
    have h1 : ¬ ((n : Int) ≤ i) := by omega
    simp [_StructBuilder.Elem, hi, Value.Kind, Typ.Kind, elemIndex, Value.Len, Value.Cap, h1, hn,
      Value.Elem]

/-- Witness of C12: a fixed-size array of 2 elements yields real builders for
`Elem(0)` and `Elem(1)` and the nil builder for `Elem(2)`. -/
theorem C12_fixed_array_of_two :
    _StructBuilder.Elem 32 pairHeap pairDest 0 =
      some (pairHeap, some ⟨⟨.basic .int, some ⟨0, [0]⟩⟩⟩) ∧
    _StructBuilder.Elem 32 pairHeap pairDest 1 =
      some (pairHeap, some ⟨⟨.basic .int, some ⟨0, [1]⟩⟩⟩) ∧
    _StructBuilder.Elem 32 pairHeap pairDest 2 = some (pairHeap, nobuilder) ∧
    _StructBuilder.Elem 32 pairHeap pairDest (-1) = some (pairHeap, nobuilder) :=
  ⟨(C12_rejected_index_or_destination 32 pairHeap ⟨.array (.basic .int) 2, some ⟨0, []⟩⟩ 0).2.2.2.2
      (.basic .int) 2 ⟨0, []⟩ rfl (by decide) (by decide),
   (C12_rejected_index_or_destination 32 pairHeap ⟨.array (.basic .int) 2, some ⟨0, []⟩⟩ 1).2.2.2.2
      (.basic .int) 2 ⟨0, []⟩ rfl (by decide) (by decide),
   (C12_rejected_index_or_destination 32 pairHeap ⟨.array (.basic .int) 2, some ⟨0, []⟩⟩ 2).2.2.2.1
      (.basic .int) 2 rfl (by decide),
   (C12_rejected_index_or_destination 32 pairHeap ⟨.array (.basic .int) 2, some ⟨0, []⟩⟩ (-1)).1
      (by decide)⟩

/-! ## Unsigned input -/

theorem narrow_wrapInt_dvd (s : Bool) (n : Nat) (hn : n ≤ 64) (x : Int) :
    (2 : Int) ^ n ∣ narrow s n (wrapInt 64 x) - x := by
  have h1 := narrow_dvd s n (wrapInt 64 x)
  have h2 : (2 : Int) ^ n ∣ wrapInt 64 x - x :=
    dvd_trans (pow_dvd_pow 2 hn) (narrow_dvd true 64 x)
  have := dvd_add h1 h2
  simpa using this

/-- C16. For every `uint64` input `u` and every existing integer destination of
kind `K` and width `n` (`int` and `uint` being `w` bits wide, `0 < w ≤ 64`):
`Uint64(u)` does what `Int64` does on the signed reinterpretation `int64(u)`
of `u`; it stores the value of the range of `K` that is congruent to `u`
modulo `2^n`; on a `uint64` destination it stores exactly `u`, since
`uint64(int64(u)) = u`. -/
theorem C16_unsigned_goes_through_signed (w : Nat) (fc : FloatConv) (h : Heap) (K : Basic)
    (n : Nat) (l : Loc) (old : Val) (u : Nat)
    (hu : u < 2 ^ 64) (hw : 0 < w) (hw64 : w ≤ 64) (hK : K.width w = some n)
    (hl : load h l = some old) :
    _StructBuilder.Uint64 w fc h (some ⟨⟨.basic K, some l⟩⟩) u =
      _StructBuilder.Int64 w fc h (some ⟨⟨.basic K, some l⟩⟩) (wrapInt 64 u) ∧
    (∃ h1 s, _StructBuilder.Uint64 w fc h (some ⟨⟨.basic K, some l⟩⟩) u = some h1 ∧
      load h1 l = some (.int s) ∧ inRange K.signed n s ∧ (2 : Int) ^ n ∣ s - u) ∧
    (K = .uint64 →
      ∃ h1, _StructBuilder.Uint64 w fc h (some ⟨⟨.basic K, some l⟩⟩) u = some h1 ∧
        load h1 l = some (.int u)) ∧
    wrapUint 64 (wrapInt 64 u) = u := by
  have hn := width_pos w hw K n hK
  have hn64 := width_le w hw64 K n hK
  have hur : inRange false 64 (u : Int) := by
    simp only [inRange, Bool.false_eq_true, if_false]
    constructor
    · omega
    · exact_mod_cast hu
  have hback : narrow false 64 (wrapInt 64 u) = u :=
    inRange_unique false 64 (by decide) _ _ (narrow_inRange false 64 (by decide) _) hur
      (narrow_wrapInt_dvd false 64 (le_refl _) u)
  refine ⟨?_, ?_, ?_, ?_⟩
  · rw [Uint64_width w fc h K n l u hK, Int64_width w fc h K n l (wrapInt 64 u) hK]
  · obtain ⟨h1, hs, hld⟩ :=
      load_store_same (.int (narrow K.signed n (wrapInt 64 u))) hl
    exact ⟨h1, _, by rw [Uint64_width w fc h K n l u hK, hs], hld,
      narrow_inRange _ n hn _, narrow_wrapInt_dvd _ n hn64 u⟩
  · intro hk
    subst hk
    simp only [Basic.width, Option.some.injEq] at hK
    subst hK
    obtain ⟨h1, hs, hld⟩ := load_store_same (.int (u : Int)) hl
    refine ⟨h1, ?_, hld⟩
    rw [Uint64_width w fc h .uint64 64 l u rfl]
    simp only [Basic.signed]
    rw [hback, hs]
  · simpa [narrow] using hback

/-- Witness of C16: `2^64 - 1` sent through `Uint64` to a `uint64` and to an
`int8` destination. -/
theorem C16_unsigned_witness :
    ((2 ^ 64 - 1 : Nat) < 2 ^ 64 ∧ Basic.int8.width 32 = some 8 ∧
      load [.int 0] ⟨0, []⟩ = some (.int 0)) ∧
    ∀ fc : FloatConv,
      (∃ h1 s, _StructBuilder.Uint64 32 fc [.int 0] (some ⟨⟨.basic .int8, some ⟨0, []⟩⟩⟩)
            (2 ^ 64 - 1) = some h1 ∧
          load h1 ⟨0, []⟩ = some (.int s) ∧ inRange Basic.int8.signed 8 s ∧
          (2 : Int) ^ 8 ∣ s - ((2 ^ 64 - 1 : Nat) : Int)) ∧
      _StructBuilder.Uint64 32 fc [.int 0] (some ⟨⟨.basic .int8, some ⟨0, []⟩⟩⟩) (2 ^ 64 - 1) =
        some [.int (-1)] ∧
      _StructBuilder.Uint64 32 fc [.int 0] (some ⟨⟨.basic .uint64, some ⟨0, []⟩⟩⟩) (2 ^ 64 - 1) =
        some [.int 18446744073709551615] :=
  ⟨by decide, fun fc =>
    ⟨(C16_unsigned_goes_through_signed 32 fc [.int 0] .int8 8 ⟨0, []⟩ (.int 0) (2 ^ 64 - 1)
        (by decide) (by decide) (by decide) rfl (by decide)).2.1, rfl, rfl⟩⟩

/-! ## Allocation by `Array` and `Map` -/

theorem load_append {h : Heap} {l : Loc} {v : Val} (xs : List Val) (hl : load h l = some v) :
    load (h ++ xs) l = some v := by
  unfold load at hl ⊢
  cases ho : h[l.obj]? with
  | none => simp [ho] at hl
  | some o =>
    have hlt : l.obj < h.length := (List.getElem?_eq_some.mp ho).1
    rw [List.getElem?_append_left hlt, ho]
    simpa [ho] using hl

theorem heap_get_fresh (h : Heap) (x : Val) (xs : List Val) :
    (h ++ x :: xs)[h.length]? = some x := by
  rw [List.getElem?_append_right (Nat.le_refl _)]
  simp

theorem heap_get_fresh_succ (h : Heap) (x y : Val) (xs : List Val) :
    (h ++ x :: y :: xs)[h.length + 1]? = some y := by
  rw [List.getElem?_append_right (Nat.le_add_right _ _)]
  simp

theorem load_obj_lt {h : Heap} {l : Loc} {v : Val} (hl : load h l = some v) :
    (l.obj : Nat) < h.length := by
  unfold load at hl
  cases ho : h[l.obj]? with
  | none => simp [ho] at hl
  | some o => exact (List.getElem?_eq_some.mp ho).1

theorem fresh_ne_obj {h : Heap} {l : Loc} {v : Val} (hl : load h l = some v) (k : Nat) :
    (h.length + k : Nat) ≠ l.obj := by
  intro he
  have := load_obj_lt hl
  rw [← he] at this
  exact absurd this (Nat.not_lt.mpr (Nat.le_add_right _ _))

theorem store_length {h h1 : Heap} {l : Loc} {x : Val} (hs : store h l x = some h1) :
    h1.length = h.length := by
  unfold store at hs
  split at hs
  · split at hs
    · simp only [Option.some.injEq] at hs
      subst hs
      simp
    · simp at hs
  · simp at hs

theorem store_other_obj {h h1 : Heap} {l : Loc} {x : Val} (hs : store h l x = some h1)
    (o : Addr) (ho : o ≠ l.obj) : h1[o]? = h[o]? := by
  unfold store at hs
  split at hs
  · split at hs
    · simp only [Option.some.injEq] at hs
      subst hs
      exact List.getElem?_set_ne (Ne.symm ho)
    · simp at hs
  · simp at hs

theorem load_store_other_obj {h h1 : Heap} {l : Loc} {x : Val} (hs : store h l x = some h1)
    (l2 : Loc) (ho : l2.obj ≠ l.obj) : load h1 l2 = load h l2 := by
  simp only [load, store_other_obj hs l2.obj ho]

theorem NewSliceValue_slice (h : Heap) (e : Typ) (len cap : Nat) :
    NewSliceValue h (.slice e) len cap =
      some (h ++ [.tuple (List.replicate cap e.zero), .slice (some h.length) len cap],
        ⟨.slice e, some ⟨h.length + 1, []⟩⟩) := by
  simp [NewSliceValue, Typ.Elem, alloc]

theorem load_fresh (h : Heap) (x : Val) (xs : List Val) :
    load (h ++ x :: xs) ⟨h.length, []⟩ = some x := by
  simp only [load]
  rw [heap_get_fresh]
  simp [Val.at]

theorem load_fresh_succ (h : Heap) (x y : Val) (xs : List Val) :
    load (h ++ x :: y :: xs) ⟨h.length + 1, []⟩ = some y := by
  simp only [load]
  rw [heap_get_fresh_succ]
  simp [Val.at]

theorem Typ.Kind_ptr_iff (t : Typ) : t.Kind = .PtrKind ↔ ∃ sub, t = .ptr sub := by
  cases t with
  | basic b => cases b <;> simp [Typ.Kind, Basic.Kind]
  | ptr s => simp [Typ.Kind]
  | slice e => simp [Typ.Kind]
  | array e n => simp [Typ.Kind]
  | struct fs => simp [Typ.Kind]

theorem Typ.Kind_array_Elem (t : Typ) (hk : t.Kind = .ArrayKind) :
    ∃ e, t.Elem = some e ∧ (t = .slice e ∨ ∃ n, t = .array e n) := by
  cases t with
  | basic b => cases b <;> simp [Typ.Kind, Basic.Kind] at hk
  | ptr s => simp [Typ.Kind] at hk
  | slice e => exact ⟨e, rfl, Or.inl rfl⟩
  | array e n => exact ⟨e, rfl, Or.inr ⟨n, rfl⟩⟩
  | struct fs => simp [Typ.Kind] at hk

theorem NewSliceValue_seq (h : Heap) (t e : Typ) (len cap : Nat) (he : t.Elem = some e) :
    NewSliceValue h t len cap =
      some (h ++ [.tuple (List.replicate cap e.zero), .slice (some h.length) len cap],
        ⟨.slice e, some ⟨h.length + 1, []⟩⟩) := by
  simp [NewSliceValue, he, alloc]

/-- C14. `Array()` on an unset pointer whose pointee is of sequence kind (a slice
or a fixed-size array, with element type `e`) succeeds and binds the pointer to
a new sequence of length 0 and capacity 8, whose header and 8 zero elements are
freshly allocated; for a slice pointee that new sequence is the sequence bound
to the destination. On a pointer that is already set, on an unset pointer to
something that is not a sequence, and on a destination that is not a pointer,
`Array()` leaves memory unchanged. -/
theorem C14_array_allocates_for_unset_sequence_pointer (h : Heap) (d : Value) (l : Loc)
    (hd : d.addr = some l) :
    (∀ sub, d.typ = .ptr sub → sub.Kind = .ArrayKind → load h l = some (.ptr none) →
      ∃ e h1, sub.Elem = some e ∧ _StructBuilder.Array h (some ⟨d⟩) = some h1 ∧
        load h1 l = some (.ptr (some ⟨h.length + 1, []⟩)) ∧
        d.Get h1 = some (some ⟨h.length + 1, []⟩) ∧
        load h1 ⟨h.length + 1, []⟩ = some (.slice (some h.length) 0 8) ∧
        load h1 ⟨h.length, []⟩ = some (.tuple (List.replicate 8 e.zero)) ∧
        (⟨.slice e, some ⟨h.length + 1, []⟩⟩ : Value).Len h1 = some 0 ∧
        (⟨.slice e, some ⟨h.length + 1, []⟩⟩ : Value).Cap h1 = some 8 ∧
        (sub = .slice e → boundSeq h1 d = some ⟨.slice e, some ⟨h.length + 1, []⟩⟩)) ∧
    (∀ t, d.Kind = .PtrKind → load h l = some (.ptr (some t)) →
      _StructBuilder.Array h (some ⟨d⟩) = some h) ∧
    (∀ sub, d.typ = .ptr sub → sub.Kind ≠ .ArrayKind → load h l = some (.ptr none) →
      _StructBuilder.Array h (some ⟨d⟩) = some h) ∧
    (d.Kind ≠ .PtrKind → _StructBuilder.Array h (some ⟨d⟩) = some h) := by
  obtain ⟨typ, addr⟩ := d
  simp only at hd
  subst hd
  refine ⟨?_, ?_, ?_, ?_⟩
  · intro sub ht hk hl
    simp only at ht
    subst ht
    obtain ⟨e, he, _⟩ := Typ.Kind_array_Elem sub hk
    have hl2 : load (h ++ [Val.tuple (List.replicate 8 e.zero), Val.slice (some h.length) 0 8]) l =
        some (.ptr none) := load_append _ hl
    obtain ⟨h1, hs, hld⟩ := load_store_same (.ptr (some ⟨h.length + 1, []⟩)) hl2
    have hhdr : load h1 ⟨h.length + 1, []⟩ = some (.slice (some h.length) 0 8) := by
      rw [load_store_other_obj hs ⟨h.length + 1, []⟩ (fresh_ne_obj hl 1)]
      exact load_fresh_succ h _ _ _
    have hdat : load h1 ⟨h.length, []⟩ = some (.tuple (List.replicate 8 e.zero)) := by
      rw [load_store_other_obj hs ⟨h.length, []⟩ (fresh_ne_obj hl 0)]
      exact load_fresh h _ _
    have hp : (Typ.ptr sub).Kind = Kind.PtrKind := rfl
    refine ⟨e, h1, he, ?_, hld, ?_, hhdr, hdat, ?_, ?_, ?_⟩
    · simp [-List.reduceReplicate, _StructBuilder.Array, Value.Kind, hp, Typ.Sub, Value.Get,
        hl, hk, NewSliceValue_seq h sub e 0 8 he, Value.SetSub, Value.Set, hs]
    · simp [Value.Get, hld]
    · simp [Value.Len, hhdr]
    · simp [Value.Cap, hhdr]
    · intro hsub
      subst hsub
      simp [boundSeq, Value.Kind, Typ.Kind, Value.Sub, Typ.Sub, Value.Get, hld]
  · intro t hk hl
    obtain ⟨sub, hsub⟩ := (Typ.Kind_ptr_iff typ).mp hk
    subst hsub
    simp [_StructBuilder.Array, Value.Kind, Typ.Kind, Typ.Sub, Value.Get, hl]
  · intro sub ht hk hl
    simp only at ht
    subst ht
    have hp : (Typ.ptr sub).Kind = Kind.PtrKind := rfl
    simp [_StructBuilder.Array, Value.Kind, hp, Typ.Sub, Value.Get, hl, hk]
  · intro hk
    simp [_StructBuilder.Array, hk]

/-- Witness of C14: `Array()` on the unset `*[]string` of `seqDest`, and on an
unset `*[2]int`. -/
theorem C14_array_witness :
    (∃ e h1, (Typ.slice (.basic .string)).Elem = some e ∧
      _StructBuilder.Array [.ptr none] seqDest = some h1 ∧
      load h1 ⟨0, []⟩ = some (.ptr (some ⟨1 + 1, []⟩)) ∧
      (⟨.ptr (.slice (.basic .string)), some ⟨0, []⟩⟩ : Value).Get h1 =
        some (some ⟨1 + 1, []⟩) ∧
      load h1 ⟨1 + 1, []⟩ = some (.slice (some 1) 0 8) ∧
      load h1 ⟨1, []⟩ = some (.tuple (List.replicate 8 e.zero)) ∧
      (⟨.slice e, some ⟨1 + 1, []⟩⟩ : Value).Len h1 = some 0 ∧
      (⟨.slice e, some ⟨1 + 1, []⟩⟩ : Value).Cap h1 = some 8 ∧
      (Typ.slice (.basic .string) = .slice e →
        boundSeq h1 ⟨.ptr (.slice (.basic .string)), some ⟨0, []⟩⟩ =
          some ⟨.slice e, some ⟨1 + 1, []⟩⟩)) ∧
    _StructBuilder.Array [.ptr none] seqDest =
      some [.ptr (some ⟨2, []⟩), .tuple (List.replicate 8 (.string "")), .slice (some 1) 0 8] ∧
    _StructBuilder.Array [.ptr none] (some ⟨⟨.ptr (.array (.basic .int) 2), some ⟨0, []⟩⟩⟩) =
      some [.ptr (some ⟨2, []⟩), .tuple (List.replicate 8 (.int 0)), .slice (some 1) 0 8] :=
  ⟨(C14_array_allocates_for_unset_sequence_pointer [.ptr none]
      ⟨.ptr (.slice (.basic .string)), some ⟨0, []⟩⟩ ⟨0, []⟩ rfl).1
      (.slice (.basic .string)) rfl (by decide) (by decide),
   by decide, by decide⟩

/-- C15. `Map()` on an unset pointer succeeds and binds it to a freshly
allocated zero value of the pointed-to type; on a pointer that is already set
and on a destination that is not a pointer it leaves memory unchanged; and
calling `Map()` a second time changes nothing more. -/
theorem C15_map_allocates_once (h : Heap) (d : Value) (l : Loc) (hd : d.addr = some l) :
    (∀ sub, d.typ = .ptr sub → load h l = some (.ptr none) →
      ∃ h1, _StructBuilder.Map h (some ⟨d⟩) = some h1 ∧
        load h1 l = some (.ptr (some ⟨h.length, []⟩)) ∧
        load h1 ⟨h.length, []⟩ = some sub.zero ∧
        _StructBuilder.Map h1 (some ⟨d⟩) = some h1) ∧
    (∀ t, d.Kind = .PtrKind → load h l = some (.ptr (some t)) →
      _StructBuilder.Map h (some ⟨d⟩) = some h) ∧
    (d.Kind ≠ .PtrKind → _StructBuilder.Map h (some ⟨d⟩) = some h) ∧
    (∀ h1, _StructBuilder.Map h (some ⟨d⟩) = some h1 →
      _StructBuilder.Map h1 (some ⟨d⟩) = some h1) := by
  obtain ⟨typ, addr⟩ := d
  simp only at hd
  subst hd
  have hunset : ∀ sub, typ = .ptr sub → load h l = some (.ptr none) →
      ∃ h1, _StructBuilder.Map h (some ⟨⟨typ, some l⟩⟩) = some h1 ∧
        load h1 l = some (.ptr (some ⟨h.length, []⟩)) ∧
        load h1 ⟨h.length, []⟩ = some sub.zero ∧
        _StructBuilder.Map h1 (some ⟨⟨typ, some l⟩⟩) = some h1 := by
    intro sub ht hl
    subst ht
    have hl2 : load (h ++ [sub.zero]) l = some (.ptr none) := load_append _ hl
    obtain ⟨h1, hs, hld⟩ := load_store_same (.ptr (some ⟨h.length, []⟩)) hl2
    have hnew : load h1 ⟨h.length, []⟩ = some sub.zero := by
      rw [load_store_other_obj hs ⟨h.length, []⟩ (fresh_ne_obj hl 0)]
      exact load_fresh h _ _
    refine ⟨h1, ?_, hld, hnew, ?_⟩
    · simp [_StructBuilder.Map, Value.Kind, Typ.Kind, Typ.Sub, Value.Get, hl, NewInitValue,
        alloc, Value.SetSub, Value.Set, hs]
    · simp [_StructBuilder.Map, Value.Kind, Typ.Kind, Typ.Sub, Value.Get, hld]
  have hset : ∀ t, typ.Kind = .PtrKind → load h l = some (.ptr (some t)) →
      _StructBuilder.Map h (some ⟨⟨typ, some l⟩⟩) = some h := by
    intro t hk hl
    obtain ⟨sub, hsub⟩ := (Typ.Kind_ptr_iff typ).mp hk
    subst hsub
    simp [_StructBuilder.Map, Value.Kind, Typ.Kind, Typ.Sub, Value.Get, hl]
  refine ⟨hunset, hset, ?_, ?_⟩
  · intro hk
    simp [_StructBuilder.Map, hk]
  · intro h1 hm
    by_cases hk : typ.Kind = .PtrKind
    · obtain ⟨sub, hsub⟩ := (Typ.Kind_ptr_iff typ).mp hk
      cases hl : load h l with
      | none =>
        subst hsub
        simp [_StructBuilder.Map, Value.Kind, Typ.Kind, Typ.Sub, Value.Get, hl] at hm
      | some v =>
        cases v with
        | ptr t =>
          cases t with
          | none =>
            obtain ⟨h2, hm2, _, _, hagain⟩ := hunset sub hsub hl
            rw [hm2] at hm
            simp only [Option.some.injEq] at hm
            subst hm
            exact hagain
          | some t =>
            have := hset t hk hl
            rw [this] at hm
            simp only [Option.some.injEq] at hm
            subst hm
            exact this
        | _ =>
          subst hsub
          simp [_StructBuilder.Map, Value.Kind, Typ.Kind, Typ.Sub, Value.Get, hl] at hm
    · have : _StructBuilder.Map h (some ⟨⟨typ, some l⟩⟩) = some h := by
        simp [_StructBuilder.Map, Value.Kind, hk]
      rw [this] at hm
      simp only [Option.some.injEq] at hm
      subst hm
      exact this

/-- Witness of C15: `Map()` on an unset `*Leaf` allocates the zero record once. -/
theorem C15_map_witness :
    ∃ h1, _StructBuilder.Map [.ptr none] (some ⟨⟨.ptr Leaf, some ⟨0, []⟩⟩⟩) = some h1 ∧
      load h1 ⟨0, []⟩ = some (.ptr (some ⟨1, []⟩)) ∧
      load h1 ⟨1, []⟩ = some Leaf.zero ∧
      _StructBuilder.Map h1 (some ⟨⟨.ptr Leaf, some ⟨0, []⟩⟩⟩) = some h1 :=
  (C15_map_allocates_once [.ptr none] ⟨.ptr Leaf, some ⟨0, []⟩⟩ ⟨0, []⟩ rfl).1 Leaf rfl
    (by decide)

/-! ## The entry point -/

/-- C17. Whatever the parser is, for a destination over which the handle is
constructed: when the parser reports failure with token `tok`, `Unmarshal`
returns `(false, tok)`; when it reports success, `Unmarshal` returns
`(true, "")`, whatever token the parser returned. In both cases the memory is
the one the parser left. -/
theorem C17_unmarshal_reports_what_the_parser_reports (Parse : ParseFn) (h : Heap) (s : String)
    (typ : Typ) (val : Val) (h1 : Heap) (v : Value) (h2 : Heap) (ok : Bool) (idx : Int)
    (tok : String) (hv : NewValue h typ val = some (h1, v))
    (hp : Parse s (some ⟨v⟩) h1 = some (h2, ok, idx, tok)) :
    (ok = false → Unmarshal Parse h s typ val = some (h2, false, tok)) ∧
    (ok = true → Unmarshal Parse h s typ val = some (h2, true, "")) := by
  constructor
  · intro hok
    subst hok
    simp [Unmarshal, hv, hp]
  · intro hok
    subst hok
    simp [Unmarshal, hv, hp]

/-- Witness of C17: on the documented destination, a parser that stops at the
token `]` of the text `[1, ]`. -/
theorem C17_unmarshal_witness :
    ((false = false →
        Unmarshal (reject 4 "]") callerHeap "[1, ]" (.ptr Result) (.ptr (some ⟨0, []⟩)) =
          some (docHeap, false, "]")) ∧
      (false = true →
        Unmarshal (reject 4 "]") callerHeap "[1, ]" (.ptr Result) (.ptr (some ⟨0, []⟩)) =
          some (docHeap, true, ""))) ∧
    Unmarshal (reject 4 "]") callerHeap "[1, ]" (.ptr Result) (.ptr (some ⟨0, []⟩)) =
      some (docHeap, false, "]") ∧
    (∀ fc : FloatConv,
      Unmarshal (replay 32 fc docEvents) callerHeap "" (.ptr Result) (.ptr (some ⟨0, []⟩)) =
        some ([.tuple [.string "Grace R. Emlin", .string "phone", .slice none 0 0],
               .ptr (some ⟨0, []⟩)], true, "")) :=
  ⟨C17_unmarshal_reports_what_the_parser_reports (reject 4 "]") callerHeap "[1, ]"
      (.ptr Result) (.ptr (some ⟨0, []⟩)) docHeap ⟨.ptr Result, some ⟨1, []⟩⟩ docHeap false 4 "]"
      rfl rfl,
   rfl, fun _ => rfl⟩

theorem store_fresh (h : Heap) (x y : Val) :
    store (h ++ [x]) ⟨h.length, []⟩ y = some (h ++ [y]) := by
  simp only [store]
  rw [heap_get_fresh]
  simp [Val.update, List.set_append_right]

theorem Basic.Kind_scalar (K : Basic) :
    K.Kind ≠ .PtrKind ∧ K.Kind ≠ .ArrayKind ∧ K.Kind ≠ .StructKind := by
  cases K <;> simp [Basic.Kind]

theorem Value.Set_copy (h : Heap) (K : Basic) (x y : Val) :
    Value.Set (h ++ [x]) ⟨.basic K, some ⟨h.length, []⟩⟩ y = some (h ++ [y]) := by
  simp [Value.Set, store_fresh]

theorem setint_copy (w : Nat) (h : Heap) (K : Basic) (x : Val) (i : Int) :
    ∃ y, setint w (h ++ [x]) ⟨.basic K, some ⟨h.length, []⟩⟩ i = some (h ++ [y]) := by
  unfold setint
  split <;> first
    | exact ⟨_, Value.Set_copy h K x _⟩
    | exact ⟨x, rfl⟩

theorem setfloat_copy (fc : FloatConv) (h : Heap) (K : Basic) (x : Val) (f : Nat) :
    ∃ y, setfloat fc (h ++ [x]) ⟨.basic K, some ⟨h.length, []⟩⟩ f = some (h ++ [y]) := by
  unfold setfloat
  split <;> first
    | exact ⟨_, Value.Set_copy h K x _⟩
    | exact ⟨x, rfl⟩

theorem step_copy (w : Nat) (fc : FloatConv) (h : Heap) (K : Basic) (x : Val) (cur : Builder)
    (up : List Builder) (e : Event)
    (hc : cur = some ⟨⟨.basic K, some ⟨h.length, []⟩⟩⟩ ∨ cur = nobuilder)
    (hup : ∀ b ∈ up, b = some ⟨⟨.basic K, some ⟨h.length, []⟩⟩⟩ ∨ b = nobuilder) :
    ∃ y cur1 up1, step w fc ⟨h ++ [x], cur, up⟩ e = some ⟨h ++ [y], cur1, up1⟩ ∧
      (cur1 = some ⟨⟨.basic K, some ⟨h.length, []⟩⟩⟩ ∨ cur1 = nobuilder) ∧
      ∀ b ∈ up1, b = some ⟨⟨.basic K, some ⟨h.length, []⟩⟩⟩ ∨ b = nobuilder := by
  have hcons : ∀ b ∈ cur :: up, b = some ⟨⟨.basic K, some ⟨h.length, []⟩⟩⟩ ∨ b = nobuilder := by
    intro b hb
    rcases List.mem_cons.mp hb with hb | hb
    · exact hb ▸ hc
    · exact hup b hb
  obtain ⟨hkp, hka, hks⟩ := Basic.Kind_scalar K
  cases e with
  | done =>
    cases up with
    | nil => exact ⟨x, cur, [], by simp [step], hc, hup⟩
    | cons p ps =>
      exact ⟨x, p, ps, by simp [step], hup p (by simp), fun b hb => hup b (by simp [hb])⟩
  | elem i =>
    refine ⟨x, nobuilder, cur :: up, ?_, Or.inr rfl, hcons⟩
    rcases hc with hc | hc
    · subst hc
      by_cases hi : i < 0
      · simp [step, _StructBuilder.Elem, hi]
      · simp [step, _StructBuilder.Elem, hi, Value.Kind, Typ.Kind, hkp, hka, elemIndex]
    · subst hc
      simp [step, _StructBuilder.Elem, nobuilder]
  | key k =>
    refine ⟨x, nobuilder, cur :: up, ?_, Or.inr rfl, hcons⟩
    rcases hc with hc | hc
    · subst hc
      simp [step, _StructBuilder.Key, Value.Kind, Typ.Kind, hkp, hks]
    · subst hc
      simp [step, _StructBuilder.Key, nobuilder]
  | null => exact ⟨x, cur, up, by simp [step, _StructBuilder.Null], hc, hup⟩
  | array =>
    refine ⟨x, cur, up, ?_, hc, hup⟩
    rcases hc with hc | hc
    · subst hc
      simp [step, _StructBuilder.Array, Value.Kind, Typ.Kind, hkp]
    · subst hc
      simp [step, _StructBuilder.Array, nobuilder]
  | map =>
    refine ⟨x, cur, up, ?_, hc, hup⟩
    rcases hc with hc | hc
    · subst hc
      simp [step, _StructBuilder.Map, Value.Kind, Typ.Kind, hkp]
    · subst hc
      simp [step, _StructBuilder.Map, nobuilder]
  | bool tf =>
    rcases hc with hc | hc
    · subst hc
      by_cases hk : K.Kind = .BoolKind
      · exact ⟨.bool tf, _, up, by
          simp [step, _StructBuilder.Bool, Value.Kind, Typ.Kind, hk, Value.Set_copy], Or.inl rfl, hup⟩
      · exact ⟨x, _, up, by
          simp [step, _StructBuilder.Bool, Value.Kind, Typ.Kind, hk], Or.inl rfl, hup⟩
    · subst hc
      exact ⟨x, _, up, by simp [step, _StructBuilder.Bool, nobuilder], Or.inr rfl, hup⟩
  | string s =>
    rcases hc with hc | hc
    · subst hc
      by_cases hk : K.Kind = .StringKind
      · exact ⟨.string s, _, up, by
          simp [step, _StructBuilder.String, Value.Kind, Typ.Kind, hk, Value.Set_copy],
          Or.inl rfl, hup⟩
      · exact ⟨x, _, up, by
          simp [step, _StructBuilder.String, Value.Kind, Typ.Kind, hk], Or.inl rfl, hup⟩
    · subst hc
      exact ⟨x, _, up, by simp [step, _StructBuilder.String, nobuilder], Or.inr rfl, hup⟩
  | int64 i =>
    rcases hc with hc | hc
    · subst hc
      have hm : ∃ y, _StructBuilder.Int64 w fc (h ++ [x])
          (some ⟨⟨.basic K, some ⟨h.length, []⟩⟩⟩) i = some (h ++ [y]) := by
        simp only [_StructBuilder.Int64]
        split <;> first
          | exact setfloat_copy fc h K x _
          | exact setint_copy w h K x _
      obtain ⟨y, hy⟩ := hm
      exact ⟨y, _, up, by simp [step, hy], Or.inl rfl, hup⟩
    · subst hc
      exact ⟨x, _, up, by simp [step, _StructBuilder.Int64, nobuilder], Or.inr rfl, hup⟩
  | uint64 u =>
    rcases hc with hc | hc
    · subst hc
      have hm : ∃ y, _StructBuilder.Uint64 w fc (h ++ [x])
          (some ⟨⟨.basic K, some ⟨h.length, []⟩⟩⟩) u = some (h ++ [y]) := by
        simp only [_StructBuilder.Uint64]
        split <;> first
          | exact setfloat_copy fc h K x _
          | exact setint_copy w h K x _
      obtain ⟨y, hy⟩ := hm
      exact ⟨y, _, up, by simp [step, hy], Or.inl rfl, hup⟩
    · subst hc
      exact ⟨x, _, up, by simp [step, _StructBuilder.Uint64, nobuilder], Or.inr rfl, hup⟩
  | float64 f =>
    rcases hc with hc | hc
    · subst hc
      have hm : ∃ y, _StructBuilder.Float64 w fc (h ++ [x])
          (some ⟨⟨.basic K, some ⟨h.length, []⟩⟩⟩) f = some (h ++ [y]) := by
        simp only [_StructBuilder.Float64]
        split <;> first
          | exact setfloat_copy fc h K x _
          | exact setint_copy w h K x _
      obtain ⟨y, hy⟩ := hm
      exact ⟨y, _, up, by simp [step, hy], Or.inl rfl, hup⟩
    · subst hc
      exact ⟨x, _, up, by simp [step, _StructBuilder.Float64, nobuilder], Or.inr rfl, hup⟩

theorem run_copy (w : Nat) (fc : FloatConv) (h : Heap) (K : Basic) (es : List Event) :
    ∀ (x : Val) (cur : Builder) (up : List Builder),
      (cur = some ⟨⟨.basic K, some ⟨h.length, []⟩⟩⟩ ∨ cur = nobuilder) →
      (∀ b ∈ up, b = some ⟨⟨.basic K, some ⟨h.length, []⟩⟩⟩ ∨ b = nobuilder) →
      ∃ y cur1 up1, run w fc ⟨h ++ [x], cur, up⟩ es = some ⟨h ++ [y], cur1, up1⟩ := by
  induction es with
  | nil => intro x cur up _ _; exact ⟨x, cur, up, by simp [run]⟩
  | cons e es ih =>
    intro x cur up hc hup
    obtain ⟨y, cur1, up1, hs, hc1, hup1⟩ := step_copy w fc h K x cur up e hc hup
    obtain ⟨z, cur2, up2, hr⟩ := ih y cur1 up1 hc1 hup1
    exact ⟨z, cur2, up2, by simp [run, hs, hr]⟩

/-- C18. For every destination that is not a pointer, every parser and every
text, well-formed or not: the construction of the destination handle fails and
with it the whole call. `Unmarshal` returns neither `ok = true` nor the
`(false, token)` of a syntax failure, and the outcome does not depend on the
parser, which is not driven. -/
theorem C18_non_pointer_destination_fails_the_call (Parse : ParseFn) (h : Heap) (s : String)
    (typ : Typ) (val : Val) (hk : typ.Kind ≠ .PtrKind) :
    NewValue h typ val = none ∧
    Unmarshal Parse h s typ val = none ∧
    (∀ P2 : ParseFn, Unmarshal P2 h s typ val = Unmarshal Parse h s typ val) ∧
    (∀ h2 tok, Unmarshal Parse h s typ val ≠ some (h2, true, tok)) ∧
    (∀ h2 tok, Unmarshal Parse h s typ val ≠ some (h2, false, tok)) := by
  have hv : NewValue h typ val = none := by
    cases typ with
    | ptr sub => exact absurd rfl hk
    | basic b => rfl
    | slice e => rfl
    | array e n => rfl
    | struct fs => rfl
  have hu : ∀ P : ParseFn, Unmarshal P h s typ val = none := by
    intro P
    simp [Unmarshal, hv]
  refine ⟨hv, hu Parse, fun P2 => by rw [hu P2, hu Parse], ?_, ?_⟩
  · intro h2 tok
    rw [hu Parse]
    simp
  · intro h2 tok
    rw [hu Parse]
    simp

/-- Witness of C18: a string passed by value, with a parser that accepts the
text and sends a string; the same parser on a pointer to the string returns
`(true, "")`, and a rejecting parser on that pointer returns `(false, token)`. -/
theorem C18_non_pointer_destination_witness :
    (Typ.basic .string).Kind ≠ .PtrKind ∧
    (∀ fc : FloatConv,
      NewValue [.string "old"] (.basic .string) (.string "old") = none ∧
      Unmarshal (replay 32 fc [.string "new"]) [.string "old"] "new" (.basic .string)
        (.string "old") = none ∧
      (∀ P2 : ParseFn, Unmarshal P2 [.string "old"] "new" (.basic .string) (.string "old") =
        Unmarshal (replay 32 fc [.string "new"]) [.string "old"] "new" (.basic .string)
          (.string "old")) ∧
      (∀ h2 tok, Unmarshal (replay 32 fc [.string "new"]) [.string "old"] "new"
        (.basic .string) (.string "old") ≠ some (h2, true, tok)) ∧
      (∀ h2 tok, Unmarshal (replay 32 fc [.string "new"]) [.string "old"] "new"
        (.basic .string) (.string "old") ≠ some (h2, false, tok))) ∧
    (∀ fc : FloatConv,
      Unmarshal (replay 32 fc [.map]) [.string "old"] "new" (.ptr (.basic .string))
        (.ptr (some ⟨0, []⟩)) = some ([.string "old", .ptr (some ⟨0, []⟩)], true, "")) ∧
    Unmarshal (reject 0 "new") [.string "old"] "new" (.ptr (.basic .string))
      (.ptr (some ⟨0, []⟩)) = some ([.string "old", .ptr (some ⟨0, []⟩)], false, "new") :=
  ⟨by decide,
   fun fc => C18_non_pointer_destination_fails_the_call (replay 32 fc [.string "new"])
     [.string "old"] "new" (.basic .string) (.string "old") (by decide),
   fun _ => rfl, rfl⟩

/-! ## Stores that do not reach another value -/

theorem Val.at_cons_of_not_tuple (v : Val) (hv : ∀ es, v ≠ .tuple es) (i : Nat) (p : List Nat) :
    v.at (i :: p) = none := by
  cases v with
  | tuple es => exact absurd rfl (hv es)
  | _ => simp [Val.at]

theorem Val.at_update_leaf : ∀ (p2 p : List Nat) (v x v1 a b : Val),
    v.at p = some a → v.at p2 = some b → (∀ es, a ≠ .tuple es) → (∀ es, b ≠ .tuple es) →
    p ≠ p2 → v.update p2 x = some v1 → v1.at p = some a
  | [], p, v, x, v1, a, b, ha, hb, _, hlb, hne, _ => by
    simp only [Val.at, Option.some.injEq] at hb
    subst hb
    cases p with
    | nil => exact absurd rfl hne
    | cons i p => rw [Val.at_cons_of_not_tuple v hlb i p] at ha; simp at ha
  | i2 :: p2, p, v, x, v1, a, b, ha, hb, hla, hlb, hne, hu => by
    cases v with
    | tuple es =>
      simp only [Val.update] at hu
      simp only [Val.at] at hb
      cases he : es[i2]? with
      | none => simp [he] at hu
      | some e =>
        simp only [he] at hu hb
        cases hu2 : e.update p2 x with
        | none => simp [hu2] at hu
        | some e1 =>
          simp only [hu2, Option.some.injEq] at hu
          subst hu
          have hi2 : i2 < es.length := (List.getElem?_eq_some.mp he).1
          cases p with
          | nil =>
            simp only [Val.at, Option.some.injEq] at ha
            exact absurd ha.symm (hla es)
          | cons i p =>
            simp only [Val.at] at ha ⊢
            by_cases hii : i = i2
            · subst hii
              simp only [he] at ha
              have hne2 : p ≠ p2 := fun hpp => hne (by rw [hpp])
              have ih := Val.at_update_leaf p2 p e x e1 a b ha hb hla hlb hne2 hu2
              simp [List.getElem?_set, hi2, ih]
            · rw [List.getElem?_set_ne (Ne.symm hii)]
              exact ha
    | _ => simp [Val.update] at hu

theorem load_store_leaf {h h1 : Heap} {l l2 : Loc} {a b x : Val}
    (ha : load h l = some a) (hb : load h l2 = some b)
    (hla : ∀ es, a ≠ .tuple es) (hlb : ∀ es, b ≠ .tuple es) (hne : l ≠ l2)
    (hs : store h l2 x = some h1) : load h1 l = some a := by
  by_cases ho : l.obj = l2.obj
  · have hp : l.path ≠ l2.path := by
      intro hp
      apply hne
      cases l
      cases l2
      simp_all
    unfold store at hs
    unfold load at ha hb ⊢
    rw [ho] at ha ⊢
    cases hv : h[l2.obj]? with
    | none => simp [hv] at hb
    | some v =>
      simp only [hv] at ha hb hs
      cases hu : v.update l2.path x with
      | none => simp [hu] at hs
      | some v1 =>
        simp only [hu, Option.some.injEq] at hs
        subst hs
        have hlt : l2.obj < h.length := (List.getElem?_eq_some.mp hv).1
        simp only [List.getElem?_set, hlt, if_true]
        exact Val.at_update_leaf l2.path l.path v x v1 a b ha hb hla hlb hp hu
  · rw [load_store_other_obj hs l ho]
    exact ha

/-! ## Copying into a fresh slice -/

theorem Val.at_of_update : ∀ (p : List Nat) (v x v1 : Val),
    v.update p x = some v1 → v1.at p = some x
  | [], v, x, v1, hu => by
    simp only [Val.update, Option.some.injEq] at hu
    subst hu
    simp [Val.at]
  | i :: p, v, x, v1, hu => by
    cases v with
    | tuple es =>
      simp only [Val.update] at hu
      cases he : es[i]? with
      | none => simp [he] at hu
      | some e =>
        simp only [he] at hu
        cases hu2 : e.update p x with
        | none => simp [hu2] at hu
        | some e1 =>
          simp only [hu2, Option.some.injEq] at hu
          subst hu
          have hi : i < es.length := (List.getElem?_eq_some.mp he).1
          simp [Val.at, List.getElem?_set, hi, Val.at_of_update p e x e1 hu2]
    | _ => simp [Val.update] at hu

theorem load_of_store {h h1 : Heap} {l : Loc} {x : Val} (hs : store h l x = some h1) :
    load h1 l = some x := by
  unfold store at hs
  cases hv : h[l.obj]? with
  | none => simp [hv] at hs
  | some v =>
    simp only [hv] at hs
    cases hu : v.update l.path x with
    | none => simp [hu] at hs
    | some v1 =>
      simp only [hu, Option.some.injEq] at hs
      subst hs
      have hlt : l.obj < h.length := (List.getElem?_eq_some.mp hv).1
      simp [load, List.getElem?_set, hlt, Val.at_of_update l.path v x v1 hu]

theorem load_store_elem_ne {h h1 : Heap} {o : Addr} {m j : Nat} {x : Val}
    (hs : store h ⟨o, [m]⟩ x = some h1) (hj : j ≠ m) :
    load h1 ⟨o, [j]⟩ = load h ⟨o, [j]⟩ := by
  unfold store at hs
  cases hv : h[o]? with
  | none => simp [hv] at hs
  | some v =>
    simp only [hv] at hs
    cases hu : v.update [m] x with
    | none => simp [hu] at hs
    | some v1 =>
      simp only [hu, Option.some.injEq] at hs
      subst hs
      have hlt : o < h.length := (List.getElem?_eq_some.mp hv).1
      have hsib := Val.at_update_sibling m j hj [] [] v x v1 (by simpa using hu)
      simp only [List.nil_append] at hsib
      simp [load, List.getElem?_set, hlt, hv, hsib]

theorem load_root {h : Heap} {a : Addr} {v : Val} (ha : h[a]? = some v) :
    load h ⟨a, []⟩ = some v := by
  simp [load, ha, Val.at]

theorem Value.CopyFrom_frame (e : Typ) (a dn ln N : Nat) (hne : a ≠ dn) (src : Value) :
    ∀ (m : Nat) (h1 h2 : Heap), h1[a]? = some (.slice (some dn) ln N) →
      Value.CopyFrom ⟨.slice e, some ⟨a, []⟩⟩ src m h1 = some h2 →
      h2.length = h1.length ∧ ∀ o, o ≠ dn → h2[o]? = h1[o]?
  | 0, h1, h2, _, hc => by
    simp only [Value.CopyFrom, Option.some.injEq] at hc
    subst hc
    exact ⟨rfl, fun _ _ => rfl⟩
  | m + 1, h1, h2, hhdr, hc => by
    simp only [Value.CopyFrom] at hc
    cases hrec : Value.CopyFrom ⟨.slice e, some ⟨a, []⟩⟩ src m h1 with
    | none => simp [hrec] at hc
    | some h3 =>
      simp only [hrec] at hc
      obtain ⟨hlen, hfr⟩ := Value.CopyFrom_frame e a dn ln N hne src m h1 h3 hhdr hrec
      have hhdr3 : load h3 ⟨a, []⟩ = some (.slice (some dn) ln N) :=
        load_root (by rw [hfr a hne]; exact hhdr)
      have hde : Value.Elem h3 ⟨.slice e, some ⟨a, []⟩⟩ m = some ⟨e, some ⟨dn, [m]⟩⟩ := by
        simp [Value.Elem, hhdr3]
      rw [hde] at hc
      split at hc
      · rename_i t ls d hse hd
        simp only [Option.some.injEq] at hd
        subst hd
        cases hx : load h3 ls with
        | none => simp [hx] at hc
        | some x =>
          simp only [hx, Value.Set] at hc
          refine ⟨by rw [store_length hc, hlen], ?_⟩
          intro o ho
          rw [store_other_obj hc o ho, hfr o ho]
      · simp at hc

theorem Value.CopyFrom_copies (e e2 : Typ) (a dn ln N : Nat) (hne : a ≠ dn) (l2 : Loc)
    (dold : Option Addr) (len cap : Nat) (hl2 : l2.obj ≠ dn)
    (hdo : ∀ d0, dold = some d0 → d0 ≠ dn) :
    ∀ (m : Nat) (h1 h2 : Heap), h1[a]? = some (.slice (some dn) ln N) →
      load h1 l2 = some (.slice dold len cap) →
      Value.CopyFrom ⟨.slice e, some ⟨a, []⟩⟩ ⟨.slice e2, some l2⟩ m h1 = some h2 →
      ∀ j, j < m → ∃ x, load h2 ⟨dn, [j]⟩ = some x ∧ elemAt h1 ⟨.slice e2, some l2⟩ j = some x
  | 0, _, _, _, _, _ => by
    intro j hj
    omega
  | m + 1, h1, h2, hhdr, hold, hc => by
    have hc0 := hc
    simp only [Value.CopyFrom] at hc
    cases hrec : Value.CopyFrom ⟨.slice e, some ⟨a, []⟩⟩ ⟨.slice e2, some l2⟩ m h1 with
    | none => simp [hrec] at hc
    | some h3 =>
      simp only [hrec] at hc
      obtain ⟨hlen, hfr⟩ :=
        Value.CopyFrom_frame e a dn ln N hne ⟨.slice e2, some l2⟩ m h1 h3 hhdr hrec
      have ih := Value.CopyFrom_copies e e2 a dn ln N hne l2 dold len cap hl2 hdo m h1 h3
        hhdr hold hrec
      have hhdr3 : load h3 ⟨a, []⟩ = some (.slice (some dn) ln N) :=
        load_root (by rw [hfr a hne]; exact hhdr)
      have hold3 : load h3 l2 = some (.slice dold len cap) := by
        simp only [load, hfr l2.obj hl2]
        exact hold
      have hde : Value.Elem h3 ⟨.slice e, some ⟨a, []⟩⟩ m = some ⟨e, some ⟨dn, [m]⟩⟩ := by
        simp [Value.Elem, hhdr3]
      rw [hde] at hc
      cases dold with
      | none => simp [Value.Elem, hold3] at hc
      | some d0 =>
        have hd0 := hdo d0 rfl
        have hse : Value.Elem h3 ⟨.slice e2, some l2⟩ m = some ⟨e2, some ⟨d0, [m]⟩⟩ := by
          simp [Value.Elem, hold3]
        have hsame : ∀ j, load h3 ⟨d0, [j]⟩ = load h1 ⟨d0, [j]⟩ := by
          intro j
          simp only [load, hfr d0 hd0]
        rw [hse] at hc
        simp only at hc
        cases hx : load h3 ⟨d0, [m]⟩ with
        | none => simp [hx] at hc
        | some x =>
          simp only [hx, Value.Set] at hc
          intro j hj
          by_cases hjm : j = m
          · subst hjm
            refine ⟨x, load_of_store hc, ?_⟩
            simp [elemAt, Value.Elem, hold, ← hsame, hx]
          · obtain ⟨y, hy1, hy2⟩ := ih j (by omega)
            exact ⟨y, by rw [load_store_elem_ne hc hjm]; exact hy1, hy2⟩

/-! ## The growth branch of `Elem` -/

theorem growCap_exit (w : Nat) (i : Int) : ∀ (f : Nat) (n r : Int),
    growCap w f n i = some r → i < r
  | 0, n, r, hg => by simp [growCap] at hg
  | f + 1, n, r, hg => by
    simp only [growCap] at hg
    split at hg
    · exact growCap_exit w i f _ r hg
    · simp only [Option.some.injEq] at hg
      omega

theorem growCap_more (w : Nat) (i : Int) : ∀ (f j : Nat) (n r : Int),
    growCap w f n i = some r → growCap w (f + j) n i = some r
  | 0, j, n, r, hg => by simp [growCap] at hg
  | f + 1, j, n, r, hg => by
    have he : f + 1 + j = (f + j) + 1 := by omega
    rw [he]
    simp only [growCap] at hg ⊢
    split
    · rename_i hle
      rw [if_pos hle] at hg
      exact growCap_more w i f j _ r hg
    · rename_i hle
      rw [if_neg hle] at hg
      exact hg

theorem wrapInt_of_inRange (w : Nat) (hw : 0 < w) (x : Int) (hx : inRange true w x) :
    wrapInt w x = x := by
  have h1 : inRange true w (wrapInt w x) := by
    simpa [narrow] using narrow_inRange true w hw x
  have h2 : (2 : Int) ^ w ∣ wrapInt w x - x := by
    simpa [narrow] using narrow_dvd true w x
  exact inRange_unique true w hw _ _ h1 hx h2

theorem growCap_ends (w : Nat) (hw : 0 < w) (i : Int) (hi : 2 * i < 2 ^ (w - 1)) :
    ∀ (k : Nat) (n : Int), 0 < n → (i - n + 1).toNat ≤ k → ∃ r, growCap w (k + 1) n i = some r
  | 0, n, hn, hk => by
    have hgt : ¬ n ≤ i := by omega
    exact ⟨n, by simp [growCap, hgt]⟩
  | k + 1, n, hn, hk => by
    by_cases hle : n ≤ i
    · have hr : inRange true w (n * 2) := by
        simp only [inRange, if_true]
        constructor <;> omega
      have hwr : wrapInt w (n * 2) = n * 2 := wrapInt_of_inRange w hw _ hr
      obtain ⟨r, hrec⟩ := growCap_ends w hw i hi k (n * 2) (by omega) (by omega)
      exact ⟨r, by
        show growCap w (k + 1 + 1) n i = some r
        simp only [growCap, if_pos hle, hwr]
        exact hrec⟩
    · exact ⟨n, by simp [growCap, hle]⟩

/-- The growth loop ends whenever doubling cannot overflow: for `0 ≤ i` with
`2 * i < 2^(w-1)` and a positive start value, `w + 2` rounds are enough. -/
theorem growCap_terminates (w : Nat) (hw : 0 < w) (i : Int) (h0 : 0 ≤ i)
    (hi : 2 * i < 2 ^ (w - 1)) (n : Int) (hn : 0 < n) :
    ∃ r, growCap w (w + 2) n i = some r ∧ i < r := by
  obtain ⟨r, hr⟩ := growCap_ends w hw i hi (i - n + 1).toNat n hn (le_refl _)
  have hr2 : growCap w (w + 2) n i = some r := by
    by_cases hf : (i - n + 1).toNat + 1 ≤ w + 2
    · have := growCap_more w i _ (w + 2 - ((i - n + 1).toNat + 1)) n r hr
      have he : (i - n + 1).toNat + 1 + (w + 2 - ((i - n + 1).toNat + 1)) = w + 2 := by omega
      rw [he] at this
      exact this
    · have := growCap_fuel w hw i h0 w n (by simp) ((i - n + 1).toNat + 1) (by omega)
      rw [← this]
      exact hr
  exact ⟨r, hr2, growCap_exit w i _ n r hr2⟩

theorem store_elem {h : Heap} {o : Addr} {es : List Val} (m : Nat) (x : Val)
    (ho : h[o]? = some (.tuple es)) (hm : m < es.length) :
    store h ⟨o, [m]⟩ x = some (h.set o (.tuple (es.set m x))) := by
  simp [store, ho, Val.update, List.getElem?_eq_getElem hm]

theorem Value.CopyFrom_succeeds (e e2 : Typ) (a dn ln N : Nat) (hne : a ≠ dn) (l2 : Loc)
    (d0 : Addr) (len cap L : Nat) (hl2 : l2.obj ≠ dn) (hd0 : d0 ≠ dn) :
    ∀ (m : Nat) (h1 : Heap) (es : List Val), h1[a]? = some (.slice (some dn) ln N) →
      load h1 l2 = some (.slice (some d0) len cap) →
      h1[dn]? = some (.tuple es) → es.length = L → m ≤ L →
      (∀ j, j < m → ∃ x, load h1 ⟨d0, [j]⟩ = some x) →
      ∃ h2 es2, Value.CopyFrom ⟨.slice e, some ⟨a, []⟩⟩ ⟨.slice e2, some l2⟩ m h1 = some h2 ∧
        h2[dn]? = some (.tuple es2) ∧ es2.length = L
  | 0, h1, es, _, _, hes, hL, _, _ => ⟨h1, es, rfl, hes, hL⟩
  | m + 1, h1, es, hhdr, hold, hes, hL, hm, hread => by
    obtain ⟨h3, es3, hrec, hes3, hL3⟩ :=
      Value.CopyFrom_succeeds e e2 a dn ln N hne l2 d0 len cap L hl2 hd0 m h1 es hhdr hold hes hL
        (by omega) (fun j hj => hread j (by omega))
    obtain ⟨hlen, hfr⟩ :=
      Value.CopyFrom_frame e a dn ln N hne ⟨.slice e2, some l2⟩ m h1 h3 hhdr hrec
    have hhdr3 : load h3 ⟨a, []⟩ = some (.slice (some dn) ln N) :=
      load_root (by rw [hfr a hne]; exact hhdr)
    have hold3 : load h3 l2 = some (.slice (some d0) len cap) := by
      simp only [load, hfr l2.obj hl2]
      exact hold
    obtain ⟨x, hx⟩ := hread m (by omega)
    have hx3 : load h3 ⟨d0, [m]⟩ = some x := by
      simp only [load, hfr d0 hd0]
      exact hx
    have hst := store_elem m x hes3 (by omega)
    refine ⟨h3.set dn (.tuple (es3.set m x)), es3.set m x, ?_, ?_, ?_⟩
    · simp [Value.CopyFrom, hrec, Value.Elem, hhdr3, hold3, hx3, Value.Set, hst]
    · have hlt : dn < h3.length := (List.getElem?_eq_some.mp hes3).1
      simp [List.getElem?_set, hlt]
    · simp [hL3]

theorem elemIndex_beyond (h : Heap) (e : Typ) (l2 : Loc) (dold : Option Addr) (len cap : Nat)
    (i : Int) (hs : load h l2 = some (.slice dold len cap)) (hi : (cap : Int) < i) :
    (len ≤ cap → elemIndex h ⟨.slice e, some l2⟩ i = some (h, nobuilder)) ∧
    (∀ h1 b, elemIndex h ⟨.slice e, some l2⟩ i = some (h1, b) → h1 = h) := by
  have h1 : ¬ ((len : Int) ≤ i ∧ i < (cap : Int)) := by omega
  constructor
  · intro hle
    have h2 : ¬ (i < (len : Int)) := by omega
    simp [elemIndex, Value.Kind, Typ.Kind, Value.Len, Value.Cap, hs, h1, h2]
  · intro h1' b hb
    simp only [elemIndex, Value.Kind, Typ.Kind, Value.Len, Value.Cap, hs, h1, if_true,
      if_false] at hb
    split at hb
    · split at hb
      · simp only [Option.some.injEq, Prod.mk.injEq] at hb
        exact hb.1.symm
      · simp at hb
    · simp only [Option.some.injEq, Prod.mk.injEq] at hb
      exact hb.1.symm

theorem elemGrow_unfold (w : Nat) (h : Heap) (e : Typ) (l l2 : Loc) (dold : Option Addr)
    (len cap : Nat) (i : Int)
    (hp : load h l = some (.ptr (some l2))) (hs : load h l2 = some (.slice dold len cap))
    (hi : (cap : Int) < i) :
    elemGrow w h ⟨.ptr (.slice e), some l⟩ i =
      match growCap w (w + 2) (if (cap : Int) < 8 then 8 else cap) i with
      | some n =>
        match Value.CopyFrom ⟨.slice e, some ⟨h.length + 1, []⟩⟩ ⟨.slice e, some l2⟩ len
            (h ++ [.tuple (List.replicate n.toNat e.zero), .slice (some h.length) len n.toNat]) with
        | some h2 =>
          match store h2 l (.ptr (some ⟨h.length + 1, []⟩)) with
          | some h3 => some (h3, ⟨.slice e, some l2⟩)
          | none => none
        | none => none
      | none => none := by
  have hgt : i > (cap : Int) := hi
  simp only [elemGrow, Value.Sub, Typ.Sub, Value.Get, hp, Value.Kind, Typ.Kind, if_true,
    Value.Cap, Value.Len, hs, hgt, NewSliceValue_slice, Value.SetSub, Value.Set]
  cases growCap w (w + 2) (if (cap : Int) < 8 then 8 else cap) i with
  | none => rfl
  | some n => rfl

theorem ptr_ne_slice_loc {h : Heap} {l l2 : Loc} {t : Option Loc} {d : Option Addr}
    {len cap : Nat} (hp : load h l = some (.ptr t)) (hs : load h l2 = some (.slice d len cap)) :
    l ≠ l2 := by
  intro he
  rw [he, hs] at hp
  simp at hp

theorem load_append_lt (h xs : Heap) (l : Loc) (hl : l.obj < h.length) :
    load (h ++ xs) l = load h l := by
  unfold load
  rw [List.getElem?_append_left hl]

theorem elemAt_of_append {h : Heap} {e : Typ} {l2 : Loc} {dold : Option Addr} {len cap j : Nat}
    {x : Val} (hs : load h l2 = some (.slice dold len cap)) (xs : Heap)
    (hd : ∀ d0, dold = some d0 → d0 < h.length)
    (hx : elemAt (h ++ xs) ⟨.slice e, some l2⟩ j = some x) :
    elemAt h ⟨.slice e, some l2⟩ j = some x := by
  cases dold with
  | none =>
    simp [elemAt, Value.Elem, load_append xs hs] at hx
  | some d0 =>
    simp only [elemAt, Value.Elem, load_append xs hs, hs] at hx ⊢
    rw [← hx]
    exact (load_append_lt h xs ⟨d0, [j]⟩ (hd d0 rfl)).symm

/-- What the growth branch of `Elem` leaves behind, when it returns: the pointer
at `l` is bound to a new header at address `h.length + 1` with the old length
and a capacity above `i`, over a new backing object at address `h.length`
holding the old elements; the old header at `l2` is untouched, and `psub`, the
handle over that old header, is what `Elem` goes on with. -/
theorem elemGrow_grown (w : Nat) (h : Heap) (e : Typ) (l l2 : Loc) (dold : Option Addr)
    (len cap : Nat) (i : Int) (h3 : Heap) (v1 : Value)
    (hp : load h l = some (.ptr (some l2))) (hs : load h l2 = some (.slice dold len cap))
    (hi : (cap : Int) < i)
    (hg : elemGrow w h ⟨.ptr (.slice e), some l⟩ i = some (h3, v1)) :
    v1 = ⟨.slice e, some l2⟩ ∧ ∃ N : Nat, i < (N : Int) ∧
      load h3 l = some (.ptr (some ⟨h.length + 1, []⟩)) ∧
      load h3 ⟨h.length + 1, []⟩ = some (.slice (some h.length) len N) ∧
      load h3 l2 = some (.slice dold len cap) ∧
      ((∀ d0, dold = some d0 → d0 < h.length) →
        ∀ j, j < len → ∃ x, load h3 ⟨h.length, [j]⟩ = some x ∧
          elemAt h ⟨.slice e, some l2⟩ j = some x) := by
  rw [elemGrow_unfold w h e l l2 dold len cap i hp hs hi] at hg
  split at hg
  · rename_i n hgrow
    split at hg
    · rename_i h2 hcopy
      split at hg
      · rename_i h4 hstore
        simp only [Option.some.injEq, Prod.mk.injEq] at hg
        obtain ⟨hh, hv⟩ := hg
        subst hh hv
        have hin : i < n := growCap_exit w i _ _ n hgrow
        have hN : ((n.toNat : Nat) : Int) = n := Int.toNat_of_nonneg (by omega)
        have hlobj := load_obj_lt hp
        have hl2obj := load_obj_lt hs
        have hne : h.length + 1 ≠ h.length := by omega
        have hhdr1 : (h ++ [Val.tuple (List.replicate n.toNat e.zero),
            Val.slice (some h.length) len n.toNat])[h.length + 1]? =
            some (.slice (some h.length) len n.toNat) := heap_get_fresh_succ h _ _ _
        obtain ⟨hlen2, hfr⟩ := Value.CopyFrom_frame e (h.length + 1) h.length len n.toNat hne
          ⟨.slice e, some l2⟩ len _ h2 hhdr1 hcopy
        have hl_ne : l.obj ≠ h.length := fun he => (fresh_ne_obj hp 0) (by simpa using he.symm)
        have hl2_ne : l2.obj ≠ h.length := fun he => (fresh_ne_obj hs 0) (by simpa using he.symm)
        have hp2 : load h2 l = some (.ptr (some l2)) := by
          simp only [load, hfr l.obj hl_ne]
          exact load_append _ hp
        have hs1 : load (h ++ [Val.tuple (List.replicate n.toNat e.zero),
            Val.slice (some h.length) len n.toNat]) l2 = some (.slice dold len cap) :=
          load_append _ hs
        have hs2 : load h2 l2 = some (.slice dold len cap) := by
          simp only [load, hfr l2.obj hl2_ne]
          exact hs1
        refine ⟨rfl, n.toNat, by omega, load_of_store hstore, ?_, ?_, ?_⟩
        · rw [load_store_other_obj hstore ⟨h.length + 1, []⟩ (fresh_ne_obj hp 1)]
          exact load_root (by rw [hfr _ hne]; exact hhdr1)
        · exact load_store_leaf hs2 hp2 (by simp) (by simp)
            (Ne.symm (ptr_ne_slice_loc hp2 hs2)) hstore
        · intro hdang j hj
          have hdo : ∀ d0, dold = some d0 → d0 ≠ h.length := by
            intro d0 hd0 he
            have hlt := hdang d0 hd0
            rw [he] at hlt
            exact absurd hlt (lt_irrefl _)
          obtain ⟨x, hx1, hx2⟩ := Value.CopyFrom_copies e e (h.length + 1) h.length len n.toNat
            hne l2 dold len cap hl2_ne hdo len _ h2 hhdr1 hs1 hcopy j hj
          refine ⟨x, ?_, ?_⟩
          · rw [load_store_other_obj hstore ⟨h.length, [j]⟩ (fresh_ne_obj hp 0)]
            exact hx1
          · exact elemAt_of_append hs _ hdang hx2
      · simp at hg
    · simp at hg
  · simp at hg

/-! ## The growth branch returns -/

theorem elemAt_slice {h : Heap} {e : Typ} {l2 : Loc} {d0 : Addr} {len cap : Nat}
    (hs : load h l2 = some (.slice (some d0) len cap)) (j : Nat) :
    elemAt h ⟨.slice e, some l2⟩ j = load h ⟨d0, [j]⟩ := by
  simp [elemAt, Value.Elem, hs]

theorem elemAt_backing {h : Heap} {e : Typ} {l2 : Loc} {dold : Option Addr} {len cap j : Nat}
    {x : Val} (hs : load h l2 = some (.slice dold len cap))
    (hx : elemAt h ⟨.slice e, some l2⟩ j = some x) :
    ∃ d0, dold = some d0 ∧ d0 < h.length ∧ load h ⟨d0, [j]⟩ = some x := by
  cases dold with
  | none => simp [elemAt, Value.Elem, hs] at hx
  | some d0 =>
    rw [elemAt_slice hs] at hx
    exact ⟨d0, rfl, load_obj_lt hx, hx⟩

/-- The growth branch of `Elem` returns when the doubling of the capacity stays
within `int` (`2 * i < 2 ^ (w - 1)`), for a pointer bound to a slice with length
within capacity whose populated elements can be read. -/
theorem elemGrow_returns (w : Nat) (hw : 0 < w) (h : Heap) (e : Typ) (l l2 : Loc)
    (dold : Option Addr) (len cap : Nat) (i : Int)
    (hp : load h l = some (.ptr (some l2))) (hs : load h l2 = some (.slice dold len cap))
    (hle : len ≤ cap) (hi : (cap : Int) < i) (hb : 2 * i < 2 ^ (w - 1))
    (hr : ∀ j, j < len → ∃ x, elemAt h ⟨.slice e, some l2⟩ j = some x) :
    ∃ h3, elemGrow w h ⟨.ptr (.slice e), some l⟩ i = some (h3, ⟨.slice e, some l2⟩) := by
  rw [elemGrow_unfold w h e l l2 dold len cap i hp hs hi]
  obtain ⟨n, hn, hin⟩ := growCap_terminates w hw i (by omega) hb
    (if (cap : Int) < 8 then 8 else cap) (by split <;> omega)
  rw [hn]
  simp only
  have hne : h.length + 1 ≠ h.length := by omega
  have hhdr1 : (h ++ [Val.tuple (List.replicate n.toNat e.zero),
      Val.slice (some h.length) len n.toNat])[h.length + 1]? =
      some (.slice (some h.length) len n.toNat) := heap_get_fresh_succ h _ _ _
  have hl_ne : l.obj ≠ h.length := fun he => (fresh_ne_obj hp 0) (by simpa using he.symm)
  have hl2_ne : l2.obj ≠ h.length := fun he => (fresh_ne_obj hs 0) (by simpa using he.symm)
  have hs1 : load (h ++ [Val.tuple (List.replicate n.toNat e.zero),
      Val.slice (some h.length) len n.toNat]) l2 = some (.slice dold len cap) :=
    load_append _ hs
  have hcopy : ∃ h2, Value.CopyFrom ⟨.slice e, some ⟨h.length + 1, []⟩⟩ ⟨.slice e, some l2⟩ len
      (h ++ [Val.tuple (List.replicate n.toNat e.zero),
        Val.slice (some h.length) len n.toNat]) = some h2 := by
    cases len with
    | zero => exact ⟨_, rfl⟩
    | succ m =>
      obtain ⟨x0, hx0⟩ := hr 0 (by omega)
      obtain ⟨d0, hd, hlt, _⟩ := elemAt_backing hs hx0
      subst hd
      have hd0 : d0 ≠ h.length := fun he => by
        rw [he] at hlt
        exact absurd hlt (lt_irrefl _)
      have hlen : m + 1 ≤ n.toNat := by omega
      obtain ⟨h2, _, hc, _, _⟩ := Value.CopyFrom_succeeds e e (h.length + 1) h.length (m + 1)
        n.toNat hne l2 d0 (m + 1) cap n.toNat hl2_ne hd0 (m + 1) _ _ hhdr1 hs1
        (heap_get_fresh h _ _) (List.length_replicate _ _) hlen
        (fun j hj => by
          obtain ⟨x, hx⟩ := hr j hj
          rw [elemAt_slice hs] at hx
          exact ⟨x, load_append _ hx⟩)
      exact ⟨h2, hc⟩
  obtain ⟨h2, hc⟩ := hcopy
  rw [hc]
  simp only
  obtain ⟨_, hfr⟩ := Value.CopyFrom_frame e (h.length + 1) h.length len n.toNat hne
    ⟨.slice e, some l2⟩ len _ h2 hhdr1 hc
  have hp2 : load h2 l = some (.ptr (some l2)) := by
    simp only [load, hfr l.obj hl_ne]
    exact load_append _ hp
  obtain ⟨h3, hst, _⟩ := load_store_same (.ptr (some ⟨h.length + 1, []⟩)) hp2
  rw [hst]
  exact ⟨h3, rfl⟩

/-! ## Growth: what `Elem` returns and what it leaves -/

theorem Elem_ptr_slice (w : Nat) (h : Heap) (e : Typ) (l : Loc) (i : Int) (h0 : 0 ≤ i) :
    _StructBuilder.Elem w h (some ⟨⟨.ptr (.slice e), some l⟩⟩) i =
      match elemGrow w h ⟨.ptr (.slice e), some l⟩ i with
      | some (h1, v1) => elemIndex h1 v1 i
      | none => none := by
  have h1 : ¬ (i < 0) := by omega
  simp [_StructBuilder.Elem, h1, Value.Kind, Typ.Kind]

/-- A call `Elem(i)` with `i` above the capacity of the slice bound to the
pointer, when it returns: the pointer is bound to a new header at address
`h.length + 1` with the old length and a capacity above `i`, the old header is
as it was, the builder returned is the nil builder when the old length was
within the old capacity, and the new backing object holds the old elements. -/
theorem Elem_grown (w : Nat) (h : Heap) (e : Typ) (l l2 : Loc) (dold : Option Addr)
    (len cap : Nat) (i : Int) (h1 : Heap) (b : Builder)
    (hp : load h l = some (.ptr (some l2))) (hs : load h l2 = some (.slice dold len cap))
    (hi : (cap : Int) < i)
    (hE : _StructBuilder.Elem w h (some ⟨⟨.ptr (.slice e), some l⟩⟩) i = some (h1, b)) :
    elemGrow w h ⟨.ptr (.slice e), some l⟩ i = some (h1, ⟨.slice e, some l2⟩) ∧
    (len ≤ cap → b = nobuilder) ∧
    ∃ N : Nat, i < (N : Int) ∧
      load h1 l = some (.ptr (some ⟨h.length + 1, []⟩)) ∧
      load h1 ⟨h.length + 1, []⟩ = some (.slice (some h.length) len N) ∧
      load h1 l2 = some (.slice dold len cap) ∧
      ((∀ d0, dold = some d0 → d0 < h.length) →
        ∀ j, j < len → ∃ x, load h1 ⟨h.length, [j]⟩ = some x ∧
          elemAt h ⟨.slice e, some l2⟩ j = some x) := by
  rw [Elem_ptr_slice w h e l i (by omega)] at hE
  cases hg : elemGrow w h ⟨.ptr (.slice e), some l⟩ i with
  | none => simp [hg] at hE
  | some r =>
    obtain ⟨h3, v1⟩ := r
    simp only [hg] at hE
    obtain ⟨hv, N, hN, hl, hnew, hold, hcp⟩ :=
      elemGrow_grown w h e l l2 dold len cap i h3 v1 hp hs hi hg
    subst hv
    obtain ⟨hnil, hsame⟩ := elemIndex_beyond h3 e l2 dold len cap i hold hi
    have hh : h1 = h3 := hsame h1 b hE
    subst hh
    refine ⟨rfl, ?_, N, hN, hl, hnew, hold, hcp⟩
    intro hle
    rw [hnil hle] at hE
    simp only [Option.some.injEq, Prod.mk.injEq] at hE
    exact hE.2.symm

theorem loc_fresh_ne {h : Heap} {l : Loc} {v : Val} (hl : load h l = some v) (k : Nat)
    (p : List Nat) : (⟨h.length + k, p⟩ : Loc) ≠ l := by
  intro he
  exact fresh_ne_obj hl k (by rw [← he])

/-- C19. Whenever `Elem(i)` reallocates (`i` above the capacity of the slice
bound to the pointer) and returns, the pointer is bound to a new sequence,
distinct from the old one, whose length is the old length `len` and whose
elements at the indices below `len` are the old sequence's elements at those
indices; and the call does return when the doubling stays within `int` and
the length is within the capacity. The populated elements of the old
sequence are taken to be readable. -/
theorem C19_growth_keeps_the_populated_elements (w : Nat) (h : Heap) (e : Typ) (l l2 : Loc)
    (dold : Option Addr) (len cap : Nat) (i : Int)
    (hp : load h l = some (.ptr (some l2))) (hs : load h l2 = some (.slice dold len cap))
    (hi : (cap : Int) < i)
    (hr : ∀ j, j < len → ∃ x, elemAt h ⟨.slice e, some l2⟩ j = some x) :
    (0 < w → 2 * i < 2 ^ (w - 1) → len ≤ cap →
      ∃ h1 b, _StructBuilder.Elem w h (some ⟨⟨.ptr (.slice e), some l⟩⟩) i = some (h1, b)) ∧
    ∀ h1 b, _StructBuilder.Elem w h (some ⟨⟨.ptr (.slice e), some l⟩⟩) i = some (h1, b) →
      ∃ snew, boundSeq h1 ⟨.ptr (.slice e), some l⟩ = some snew ∧
        snew ≠ ⟨.slice e, some l2⟩ ∧
        snew.Len h1 = some len ∧
        ∀ j, j < len → ∃ x, elemAt h ⟨.slice e, some l2⟩ j = some x ∧
          elemAt h1 snew j = some x := by
  constructor
  · intro hw hb hle
    obtain ⟨h3, hg⟩ := elemGrow_returns w hw h e l l2 dold len cap i hp hs hle hi hb hr
    obtain ⟨_, N, _, _, _, hold, _⟩ :=
      elemGrow_grown w h e l l2 dold len cap i h3 _ hp hs hi hg
    refine ⟨h3, nobuilder, ?_⟩
    rw [Elem_ptr_slice w h e l i (by omega), hg]
    exact (elemIndex_beyond h3 e l2 dold len cap i hold hi).1 hle
  · intro h1 b hE
    obtain ⟨_, _, N, _, hl, hnew, _, hcp⟩ :=
      Elem_grown w h e l l2 dold len cap i h1 b hp hs hi hE
    refine ⟨⟨.slice e, some ⟨h.length + 1, []⟩⟩, ?_, ?_, ?_, ?_⟩
    · simp [boundSeq, Value.Kind, Typ.Kind, Value.Sub, Typ.Sub, Value.Get, hl]
    · intro he
      simp only [Value.mk.injEq, Option.some.injEq, true_and] at he
      exact loc_fresh_ne hs 1 [] he
    · simp [Value.Len, hnew]
    · intro j hj
      have hdang : ∀ d0, dold = some d0 → d0 < h.length := by
        intro d0 hd0
        obtain ⟨x, hx⟩ := hr j hj
        obtain ⟨d1, hd1, hlt, _⟩ := elemAt_backing hs hx
        rw [hd0] at hd1
        simp only [Option.some.injEq] at hd1
        rw [hd1]
        exact hlt
      obtain ⟨x, hx1, hx2⟩ := hcp hdang j hj
      exact ⟨x, hx2, by rw [elemAt_slice hnew]; exact hx1⟩

/-- Witness of C19: on `fullHeap` (length 8, capacity 8, every element `"x"`)
`Elem(9)` rebinds the pointer to a new slice of length 8 and capacity 16 whose
first eight elements are `"x"`. -/
theorem C19_growth_witness :
    (load fullHeap ⟨0, []⟩ = some (.ptr (some ⟨2, []⟩)) ∧
      load fullHeap ⟨2, []⟩ = some (.slice (some 1) 8 8) ∧ ((8 : Nat) : Int) < 9 ∧
      ∀ j, j < 8 → ∃ x, elemAt fullHeap ⟨.slice (.basic .string), some ⟨2, []⟩⟩ j = some x) ∧
    ((0 < 32 → 2 * (9 : Int) < 2 ^ (32 - 1) → 8 ≤ 8 →
      ∃ h1 b, _StructBuilder.Elem 32 fullHeap
        (some ⟨⟨.ptr (.slice (.basic .string)), some ⟨0, []⟩⟩⟩) 9 = some (h1, b)) ∧
    ∀ h1 b, _StructBuilder.Elem 32 fullHeap
        (some ⟨⟨.ptr (.slice (.basic .string)), some ⟨0, []⟩⟩⟩) 9 = some (h1, b) →
      ∃ snew, boundSeq h1 ⟨.ptr (.slice (.basic .string)), some ⟨0, []⟩⟩ = some snew ∧
        snew ≠ ⟨.slice (.basic .string), some ⟨2, []⟩⟩ ∧
        snew.Len h1 = some 8 ∧
        ∀ j, j < 8 → ∃ x, elemAt fullHeap ⟨.slice (.basic .string), some ⟨2, []⟩⟩ j = some x ∧
          elemAt h1 snew j = some x) ∧
    _StructBuilder.Elem 32 fullHeap seqDest 9 =
      some ([.ptr (some ⟨4, []⟩), .tuple (List.replicate 8 (.string "x")), .slice (some 1) 8 8,
        .tuple (List.replicate 8 (.string "x") ++ List.replicate 8 (.string "")),
        .slice (some 3) 8 16], nobuilder) :=
  ⟨⟨by decide, by decide, by decide, fun j hj => by
      interval_cases j <;> exact ⟨_, rfl⟩⟩,
   C19_growth_keeps_the_populated_elements 32 fullHeap (.basic .string) ⟨0, []⟩ ⟨2, []⟩ (some 1)
     8 8 9 (by decide) (by decide) (by decide) (fun j hj => by
      interval_cases j <;> exact ⟨_, rfl⟩),
   by decide⟩

/-! ## Growth: the call that never returns -/

theorem growCap_none_of_le (w : Nat) (i : Int) : ∀ (f g : Nat) (n : Int), f ≤ g →
    growCap w g n i = none → growCap w f n i = none := by
  intro f g n hfg hg
  cases hf : growCap w f n i with
  | none => rfl
  | some r =>
    have hm := growCap_more w i f (g - f) n r hf
    have he : f + (g - f) = g := by omega
    rw [he, hg] at hm
    simp at hm

/-- C20 as stated fails. With 32-bit `int`, `Elem(1 << 30)` on a pointer bound
to a slice of capacity 8 takes the reallocation branch and never returns: the
doubling `n *= 2` reaches `1 << 30`, which is not above `i`, wraps to
`-(1 << 31)` and then to 0, and `0 <= i` holds for ever. The loop is still
running after any number of rounds, so the call returns no builder at all. -/
theorem C20_growth_loop_never_ends :
    (Value.Cap fullHeap ⟨.slice (.basic .string), some ⟨2, []⟩⟩ = some 8 ∧
      (2 : Int) ^ 30 > 8 ∧ (2 : Int) ^ 30 < 2 ^ 31) ∧
    (∀ fuel, growCap 32 fuel 8 (2 ^ 30) = none) ∧
    _StructBuilder.Elem 32 fullHeap seqDest (2 ^ 30) = none := by
  refine ⟨⟨by decide, by decide, by decide⟩, ?_, by decide⟩
  intro fuel
  have h34 : growCap 32 34 8 (2 ^ 30) = none := by decide
  by_cases hf : fuel ≤ 34
  · exact growCap_none_of_le 32 _ fuel 34 8 hf h34
  · rw [growCap_fuel 32 (by decide) (2 ^ 30) (by decide) 32 8 (by simp) fuel (by omega)]
    exact h34

/-- C20, amended. For a pointer bound to a slice with length within capacity
`cap` whose populated elements are readable, and an index `i > cap` whose
doubling stays within `int` (`2 * i < 2 ^ (w - 1)`): `Elem(i)` returns; the
growth step hands on `psub`, the handle of the old sequence, and the lookup is
made on it; the builder returned is the nil builder; and the pointer is bound
to a new sequence, distinct from the old one, with the old length and a
capacity above `i`. -/
theorem C20_reallocating_call_returns_the_nil_builder (w : Nat) (hw : 0 < w) (h : Heap)
    (e : Typ) (l l2 : Loc) (dold : Option Addr) (len cap : Nat) (i : Int)
    (hp : load h l = some (.ptr (some l2))) (hs : load h l2 = some (.slice dold len cap))
    (hle : len ≤ cap) (hi : (cap : Int) < i) (hb : 2 * i < 2 ^ (w - 1))
    (hr : ∀ j, j < len → ∃ x, elemAt h ⟨.slice e, some l2⟩ j = some x) :
    ∃ (h1 : Heap) (snew : Value) (N : Nat),
      elemGrow w h ⟨.ptr (.slice e), some l⟩ i = some (h1, ⟨.slice e, some l2⟩) ∧
      _StructBuilder.Elem w h (some ⟨⟨.ptr (.slice e), some l⟩⟩) i =
        elemIndex h1 ⟨.slice e, some l2⟩ i ∧
      _StructBuilder.Elem w h (some ⟨⟨.ptr (.slice e), some l⟩⟩) i = some (h1, nobuilder) ∧
      boundSeq h1 ⟨.ptr (.slice e), some l⟩ = some snew ∧
      snew ≠ ⟨.slice e, some l2⟩ ∧
      snew.Len h1 = some len ∧ snew.Cap h1 = some N ∧ i < (N : Int) := by
  obtain ⟨h3, hg⟩ := elemGrow_returns w hw h e l l2 dold len cap i hp hs hle hi hb hr
  obtain ⟨_, N, hN, hl, hnew, hold, _⟩ :=
    elemGrow_grown w h e l l2 dold len cap i h3 _ hp hs hi hg
  have hE : _StructBuilder.Elem w h (some ⟨⟨.ptr (.slice e), some l⟩⟩) i =
      elemIndex h3 ⟨.slice e, some l2⟩ i := by
    rw [Elem_ptr_slice w h e l i (by omega), hg]
  refine ⟨h3, ⟨.slice e, some ⟨h.length + 1, []⟩⟩, N, hg, hE, ?_, ?_, ?_, ?_, ?_, hN⟩
  · rw [hE]
    exact (elemIndex_beyond h3 e l2 dold len cap i hold hi).1 hle
  · simp [boundSeq, Value.Kind, Typ.Kind, Value.Sub, Typ.Sub, Value.Get, hl]
  · intro he
    simp only [Value.mk.injEq, Option.some.injEq, true_and] at he
    exact loc_fresh_ne hs 1 [] he
  · simp [Value.Len, hnew]
  · simp [Value.Cap, hnew]

/-- Witness of C20: on `fullHeap` (length 8, capacity 8) `Elem(9)`
returns the nil builder and leaves the pointer bound to a new slice of length
8 and capacity 16; the value for index 9 has nowhere to go. -/
theorem C20_reallocating_call_witness :
    (0 < 32 ∧ load fullHeap ⟨0, []⟩ = some (.ptr (some ⟨2, []⟩)) ∧
      load fullHeap ⟨2, []⟩ = some (.slice (some 1) 8 8) ∧ 8 ≤ 8 ∧ ((8 : Nat) : Int) < 9 ∧
      2 * (9 : Int) < 2 ^ (32 - 1) ∧
      ∀ j, j < 8 → ∃ x, elemAt fullHeap ⟨.slice (.basic .string), some ⟨2, []⟩⟩ j = some x) ∧
    (∃ (h1 : Heap) (snew : Value) (N : Nat),
      elemGrow 32 fullHeap ⟨.ptr (.slice (.basic .string)), some ⟨0, []⟩⟩ 9 =
        some (h1, ⟨.slice (.basic .string), some ⟨2, []⟩⟩) ∧
      _StructBuilder.Elem 32 fullHeap (some ⟨⟨.ptr (.slice (.basic .string)), some ⟨0, []⟩⟩⟩) 9 =
        elemIndex h1 ⟨.slice (.basic .string), some ⟨2, []⟩⟩ 9 ∧
      _StructBuilder.Elem 32 fullHeap (some ⟨⟨.ptr (.slice (.basic .string)), some ⟨0, []⟩⟩⟩) 9 =
        some (h1, nobuilder) ∧
      boundSeq h1 ⟨.ptr (.slice (.basic .string)), some ⟨0, []⟩⟩ = some snew ∧
      snew ≠ ⟨.slice (.basic .string), some ⟨2, []⟩⟩ ∧
      snew.Len h1 = some 8 ∧ snew.Cap h1 = some N ∧ (9 : Int) < (N : Int)) ∧
    (_StructBuilder.Elem 32 fullHeap seqDest 9).map (fun r =>
        (r.2, boundSeq r.1 ⟨.ptr (.slice (.basic .string)), some ⟨0, []⟩⟩,
          load r.1 ⟨4, []⟩)) =
      some (nobuilder, some ⟨.slice (.basic .string), some ⟨4, []⟩⟩,
        some (.slice (some 3) 8 16)) :=
  ⟨⟨by decide, by decide, by decide, by decide, by decide, by decide, fun j hj => by
      interval_cases j <;> exact ⟨_, rfl⟩⟩,
   C20_reallocating_call_returns_the_nil_builder 32 (by decide) fullHeap (.basic .string)
     ⟨0, []⟩ ⟨2, []⟩ (some 1) 8 8 9 (by decide) (by decide) (by decide) (by decide) (by decide)
     (fun j hj => by interval_cases j <;> exact ⟨_, rfl⟩),
   by decide⟩

/-! ## The sequence bound to a destination, event by event -/

theorem seqLenCap_array (h : Heap) (e : Typ) (n : Nat) (a : Option Loc) :
    seqLenCap h ⟨.array e n, a⟩ = some (n, n) := by
  simp [seqLenCap, boundSeq, Value.Kind, Typ.Kind, Value.Len, Value.Cap]

theorem seqLenCap_slice {h : Heap} {e : Typ} {l2 : Loc} {dold : Option Addr} {len cap : Nat}
    (hs : load h l2 = some (.slice dold len cap)) :
    seqLenCap h ⟨.slice e, some l2⟩ = some (len, cap) := by
  simp [seqLenCap, boundSeq, Value.Kind, Typ.Kind, Value.Len, Value.Cap, hs]

theorem seqLenCap_ptr_array {h : Heap} {e : Typ} {n : Nat} {l : Loc} {t : Option Loc}
    (hp : load h l = some (.ptr t)) :
    seqLenCap h ⟨.ptr (.array e n), some l⟩ = some (n, n) := by
  simp [seqLenCap, boundSeq, Value.Kind, Typ.Kind, Value.Sub, Typ.Sub, Value.Get, hp,
    Value.Len, Value.Cap]

theorem seqLenCap_ptr_slice {h : Heap} {e : Typ} {l l2 : Loc} {dold : Option Addr}
    {len cap : Nat} (hp : load h l = some (.ptr (some l2)))
    (hs : load h l2 = some (.slice dold len cap)) :
    seqLenCap h ⟨.ptr (.slice e), some l⟩ = some (len, cap) := by
  simp [seqLenCap, boundSeq, Value.Kind, Typ.Kind, Value.Sub, Typ.Sub, Value.Get, hp,
    Value.Len, Value.Cap, hs]

/-- The destinations to which a sequence is bound: a fixed-size array, a slice
with a readable header, a pointer to a fixed-size array, and a pointer bound to
a slice with a readable header. -/
theorem seqLenCap_cases {h : Heap} {d : Value} {len cap : Nat}
    (hq : seqLenCap h d = some (len, cap)) :
    (∃ e n a, d = ⟨.array e n, a⟩ ∧ len = n ∧ cap = n) ∨
    (∃ e l2 dold, d = ⟨.slice e, some l2⟩ ∧ load h l2 = some (.slice dold len cap)) ∨
    (∃ e n l t, d = ⟨.ptr (.array e n), some l⟩ ∧ load h l = some (.ptr t) ∧
      len = n ∧ cap = n) ∨
    (∃ e l l2 dold, d = ⟨.ptr (.slice e), some l⟩ ∧ load h l = some (.ptr (some l2)) ∧
      load h l2 = some (.slice dold len cap)) := by
  obtain ⟨typ, addr⟩ := d
  cases typ with
  | basic b => cases b <;> simp [seqLenCap, boundSeq, Value.Kind, Typ.Kind, Basic.Kind] at hq
  | struct fs => simp [seqLenCap, boundSeq, Value.Kind, Typ.Kind] at hq
  | array e n =>
    rw [seqLenCap_array] at hq
    simp only [Option.some.injEq, Prod.mk.injEq] at hq
    exact Or.inl ⟨e, n, addr, rfl, hq.1.symm, hq.2.symm⟩
  | slice e =>
    cases addr with
    | none => simp [seqLenCap, boundSeq, Value.Kind, Typ.Kind, Value.Len] at hq
    | some l2 =>
      cases hl : load h l2 with
      | none => simp [seqLenCap, boundSeq, Value.Kind, Typ.Kind, Value.Len, hl] at hq
      | some v =>
        cases v with
        | slice dold ln cp =>
          rw [seqLenCap_slice hl] at hq
          simp only [Option.some.injEq, Prod.mk.injEq] at hq
          obtain ⟨h1, h2⟩ := hq
          subst h1 h2
          exact Or.inr (Or.inl ⟨e, l2, dold, rfl, hl⟩)
        | _ => simp [seqLenCap, boundSeq, Value.Kind, Typ.Kind, Value.Len, hl] at hq
  | ptr sub =>
    cases addr with
    | none => simp [seqLenCap, boundSeq, Value.Kind, Typ.Kind, Value.Sub, Value.Get] at hq
    | some l =>
      cases hl : load h l with
      | none =>
        simp [seqLenCap, boundSeq, Value.Kind, Typ.Kind, Value.Sub, Value.Get, hl] at hq
      | some v =>
        cases v with
        | ptr t =>
          cases sub with
          | basic b =>
            cases b <;> simp [seqLenCap, boundSeq, Value.Kind, Typ.Kind, Basic.Kind, Value.Sub,
              Typ.Sub, Value.Get, hl] at hq
          | struct fs =>
            simp [seqLenCap, boundSeq, Value.Kind, Typ.Kind, Value.Sub, Typ.Sub, Value.Get,
              hl] at hq
          | ptr s2 =>
            simp [seqLenCap, boundSeq, Value.Kind, Typ.Kind, Value.Sub, Typ.Sub, Value.Get,
              hl] at hq
          | array e n =>
            rw [seqLenCap_ptr_array hl] at hq
            simp only [Option.some.injEq, Prod.mk.injEq] at hq
            exact Or.inr (Or.inr (Or.inl ⟨e, n, l, t, rfl, hl, hq.1.symm, hq.2.symm⟩))
          | slice e =>
            cases t with
            | none =>
              simp [seqLenCap, boundSeq, Value.Kind, Typ.Kind, Value.Sub, Typ.Sub, Value.Get,
                hl, Value.Len] at hq
            | some l2 =>
              cases hl2 : load h l2 with
              | none =>
                simp [seqLenCap, boundSeq, Value.Kind, Typ.Kind, Value.Sub, Typ.Sub, Value.Get,
                  hl, Value.Len, hl2] at hq
              | some v2 =>
                cases v2 with
                | slice dold ln cp =>
                  rw [seqLenCap_ptr_slice hl hl2] at hq
                  simp only [Option.some.injEq, Prod.mk.injEq] at hq
                  obtain ⟨h1, h2⟩ := hq
                  subst h1 h2
                  exact Or.inr (Or.inr (Or.inr ⟨e, l, l2, dold, rfl, hl, hl2⟩))
                | _ =>
                  simp [seqLenCap, boundSeq, Value.Kind, Typ.Kind, Value.Sub, Typ.Sub,
                    Value.Get, hl, Value.Len, hl2] at hq
        | _ =>
          simp [seqLenCap, boundSeq, Value.Kind, Typ.Kind, Value.Sub, Value.Get, hl] at hq

/-- The events other than `Array`, `Map` and `Elem` leave memory as it is when
the destination is a sequence or a pointer. -/
theorem step_quiet (w : Nat) (fc : FloatConv) (h : Heap) (d : Value) (up : List Builder)
    (ev : Event) (s1 : Run) (hk : d.Kind = .ArrayKind ∨ d.Kind = .PtrKind)
    (h1 : ev ≠ .array) (h2 : ev ≠ .map) (h3 : ∀ i, ev ≠ .elem i)
    (hst : step w fc ⟨h, some ⟨d⟩, up⟩ ev = some s1) : s1.heap = h := by
  cases ev with
  | array => exact absurd rfl h1
  | map => exact absurd rfl h2
  | elem i => exact absurd rfl (h3 i)
  | null =>
    simp only [step, _StructBuilder.Null, Option.map_some', Option.some.injEq] at hst
    rw [← hst]
  | bool tf =>
    rcases hk with hk | hk <;>
    · simp only [step, _StructBuilder.Bool, hk, Option.map_some', Option.some.injEq] at hst
      simp at hst
      rw [← hst]
  | string x =>
    rcases hk with hk | hk <;>
    · simp only [step, _StructBuilder.String, hk, Option.map_some', Option.some.injEq] at hst
      simp at hst
      rw [← hst]
  | int64 i =>
    rcases hk with hk | hk <;>
    · simp only [step, _StructBuilder.Int64, hk, setint, Option.map_some',
        Option.some.injEq] at hst
      rw [← hst]
  | uint64 u =>
    rcases hk with hk | hk <;>
    · simp only [step, _StructBuilder.Uint64, hk, setint, Option.map_some',
        Option.some.injEq] at hst
      rw [← hst]
  | float64 f =>
    rcases hk with hk | hk <;>
    · simp only [step, _StructBuilder.Float64, hk, setint, Option.map_some',
        Option.some.injEq] at hst
      rw [← hst]
  | key k =>
    simp only [step, Option.map_eq_some'] at hst
    obtain ⟨b, _, hb⟩ := hst
    rw [← hb]
  | done =>
    simp only [step] at hst
    split at hst <;>
    · simp only [Option.some.injEq] at hst
      rw [← hst]

theorem Array_not_ptr (h : Heap) (d : Value) (hk : d.Kind ≠ .PtrKind) :
    _StructBuilder.Array h (some ⟨d⟩) = some h := by
  simp [_StructBuilder.Array, hk]

theorem Map_not_ptr (h : Heap) (d : Value) (hk : d.Kind ≠ .PtrKind) :
    _StructBuilder.Map h (some ⟨d⟩) = some h := by
  simp [_StructBuilder.Map, hk]

theorem Array_bound (h : Heap) (sub : Typ) (l l2 : Loc)
    (hp : load h l = some (.ptr (some l2))) :
    _StructBuilder.Array h (some ⟨⟨.ptr sub, some l⟩⟩) = some h := by
  simp [_StructBuilder.Array, Value.Kind, Typ.Kind, Typ.Sub, Value.Get, hp]

theorem Map_bound (h : Heap) (sub : Typ) (l l2 : Loc)
    (hp : load h l = some (.ptr (some l2))) :
    _StructBuilder.Map h (some ⟨⟨.ptr sub, some l⟩⟩) = some h := by
  simp [_StructBuilder.Map, Value.Kind, Typ.Kind, Typ.Sub, Value.Get, hp]

/-- `Array()` and `Map()` leave a pointer cell holding a pointer. -/
theorem Array_keeps_ptr (h h1 : Heap) (sub : Typ) (l : Loc) (t : Option Loc)
    (hp : load h l = some (.ptr t))
    (hA : _StructBuilder.Array h (some ⟨⟨.ptr sub, some l⟩⟩) = some h1) :
    ∃ t1, load h1 l = some (.ptr t1) := by
  cases t with
  | some l2 =>
    rw [Array_bound h sub l l2 hp] at hA
    simp only [Option.some.injEq] at hA
    exact ⟨some l2, by rw [← hA]; exact hp⟩
  | none =>
    simp only [_StructBuilder.Array, Value.Kind, Typ.Kind, if_true, Typ.Sub, Value.Get, hp,
      true_and] at hA
    split at hA
    · split at hA
      · rename_i h2 av hn
        exact ⟨_, load_of_store hA⟩
      · simp at hA
    · simp only [Option.some.injEq] at hA
      exact ⟨none, by rw [← hA]; exact hp⟩

theorem Map_keeps_ptr (h h1 : Heap) (sub : Typ) (l : Loc) (t : Option Loc)
    (hp : load h l = some (.ptr t))
    (hM : _StructBuilder.Map h (some ⟨⟨.ptr sub, some l⟩⟩) = some h1) :
    ∃ t1, load h1 l = some (.ptr t1) := by
  cases t with
  | some l2 =>
    rw [Map_bound h sub l l2 hp] at hM
    simp only [Option.some.injEq] at hM
    exact ⟨some l2, by rw [← hM]; exact hp⟩
  | none =>
    simp only [_StructBuilder.Map, Value.Kind, Typ.Kind, if_true, Typ.Sub, Value.Get, hp,
      NewInitValue, alloc, Value.SetSub, Value.Set] at hM
    exact ⟨_, load_of_store hM⟩

/-- The lookup half of `Elem` on a fixed-size array writes nothing. -/
theorem elemIndex_array (h h1 : Heap) (e : Typ) (n : Nat) (a : Option Loc) (i : Int)
    (b : Builder) (hE : elemIndex h ⟨.array e n, a⟩ i = some (h1, b)) : h1 = h := by
  simp only [elemIndex, Value.Kind, Typ.Kind, if_true, Value.Len, Value.Cap, Value.SetLen,
    ite_self] at hE
  split at hE
  · split at hE
    · simp only [Option.some.injEq, Prod.mk.injEq] at hE
      exact hE.1.symm
    · simp at hE
  · simp only [Option.some.injEq, Prod.mk.injEq] at hE
    exact hE.1.symm

/-- The lookup half of `Elem` on a slice with length within capacity: the header
keeps its capacity and a length within it, and every pointer cell keeps its
value. -/
theorem elemIndex_slice (h h1 : Heap) (e : Typ) (l2 : Loc) (dold : Option Addr)
    (len cap : Nat) (i : Int) (b : Builder) (h0 : 0 ≤ i)
    (hs : load h l2 = some (.slice dold len cap)) (hle : len ≤ cap)
    (hE : elemIndex h ⟨.slice e, some l2⟩ i = some (h1, b)) :
    (∃ len1, load h1 l2 = some (.slice dold len1 cap) ∧ len1 ≤ cap) ∧
    ∀ l t, load h l = some (.ptr t) → load h1 l = some (.ptr t) := by
  by_cases hc : (len : Int) ≤ i ∧ i < cap
  · have hst : ∃ h2, store h l2 (.slice dold (i + 1).toNat cap) = some h2 ∧
        load h2 l2 = some (.slice dold (i + 1).toNat cap) := load_store_same _ hs
    obtain ⟨h2, hst, hl2⟩ := hst
    have hh : h1 = h2 := by
      simp only [elemIndex, Value.Kind, Typ.Kind, if_true, Value.Len, Value.Cap, hs, hc,
        and_self, Value.SetLen, hst, hl2] at hE
      split at hE
      · split at hE
        · simp only [Option.some.injEq, Prod.mk.injEq] at hE
          exact hE.1.symm
        · simp at hE
      · simp only [Option.some.injEq, Prod.mk.injEq] at hE
        exact hE.1.symm
    subst hh
    refine ⟨⟨(i + 1).toNat, hl2, by omega⟩, ?_⟩
    intro l t hl
    exact load_store_leaf hl hs (by simp) (by simp) (ptr_ne_slice_loc hl hs) hst
  · have hh : h1 = h := by
      simp only [elemIndex, Value.Kind, Typ.Kind, if_true, Value.Len, Value.Cap, hs, hc,
        if_false] at hE
      split at hE
      · split at hE
        · simp only [Option.some.injEq, Prod.mk.injEq] at hE
          exact hE.1.symm
        · simp at hE
      · simp only [Option.some.injEq, Prod.mk.injEq] at hE
        exact hE.1.symm
    subst hh
    exact ⟨⟨len, hs, hle⟩, fun l t hl => hl⟩

/-- The growth half of `Elem` on a pointer: it hands on `psub`, and the pointer
cell still holds a pointer. -/
theorem elemGrow_ptr_cell (w : Nat) (h h1 : Heap) (sub : Typ) (l : Loc) (t : Option Loc)
    (i : Int) (v1 : Value) (hp : load h l = some (.ptr t))
    (hg : elemGrow w h ⟨.ptr sub, some l⟩ i = some (h1, v1)) :
    v1 = ⟨sub, t⟩ ∧ ∃ t1, load h1 l = some (.ptr t1) := by
  unfold elemGrow at hg
  simp only [Value.Sub, Typ.Sub, Value.Get, hp] at hg
  split at hg
  · split at hg
    · split at hg
      · split at hg
        · split at hg
          · split at hg
            · simp only [Value.SetSub, Value.Set] at hg
              split at hg
              · rename_i h4 hset
                simp only [Option.some.injEq, Prod.mk.injEq] at hg
                obtain ⟨hh, hvv⟩ := hg
                subst hh hvv
                exact ⟨rfl, _, load_of_store hset⟩
              · simp at hg
            · simp at hg
          · simp at hg
        · simp at hg
      · simp only [Option.some.injEq, Prod.mk.injEq] at hg
        obtain ⟨hh, hvv⟩ := hg
        subst hh hvv
        exact ⟨rfl, t, hp⟩
    · simp at hg
  · simp only [Option.some.injEq, Prod.mk.injEq] at hg
    obtain ⟨hh, hvv⟩ := hg
    subst hh hvv
    exact ⟨rfl, t, hp⟩

/-- `Elem` on a pointer to a fixed-size array leaves a pointer in the pointer
cell when it returns. -/
theorem Elem_ptr_array (w : Nat) (h h1 : Heap) (e : Typ) (n : Nat) (l : Loc) (t : Option Loc)
    (i : Int) (b : Builder) (hp : load h l = some (.ptr t))
    (hE : _StructBuilder.Elem w h (some ⟨⟨.ptr (.array e n), some l⟩⟩) i = some (h1, b)) :
    ∃ t1, load h1 l = some (.ptr t1) := by
  by_cases h0 : i < 0
  · simp only [_StructBuilder.Elem, h0, if_true, Option.some.injEq, Prod.mk.injEq] at hE
    exact ⟨t, by rw [← hE.1]; exact hp⟩
  · simp only [_StructBuilder.Elem, h0, if_false, Value.Kind, Typ.Kind, if_true] at hE
    cases hg : elemGrow w h ⟨.ptr (.array e n), some l⟩ i with
    | none => simp [hg] at hE
    | some r =>
      obtain ⟨h3, v1⟩ := r
      simp only [hg] at hE
      obtain ⟨hv, t1, ht1⟩ := elemGrow_ptr_cell w h h3 _ l t i v1 hp hg
      subst hv
      have hh := elemIndex_array h3 h1 e n t i b hE
      exact ⟨t1, by rw [hh]; exact ht1⟩

/-- C13. For every destination to which a sequence with length within capacity
is bound (a slice or a fixed-size array, directly or behind a pointer) and
every event sent to its builder (`Array`, `Map`, `Elem(i)` for any `i`, the
scalar events, `Key`, and the end of a nested value): when the event returns,
a sequence is still bound to the destination, its length is within its
capacity, and its capacity is at least the capacity before the event. -/
theorem C13_length_stays_within_capacity (w : Nat) (fc : FloatConv) (h : Heap) (d : Value)
    (up : List Builder) (ev : Event) (s1 : Run) (len cap : Nat)
    (hq : seqLenCap h d = some (len, cap)) (hle : len ≤ cap)
    (hst : step w fc ⟨h, some ⟨d⟩, up⟩ ev = some s1) :
    ∃ len1 cap1, seqLenCap s1.heap d = some (len1, cap1) ∧ len1 ≤ cap1 ∧ cap ≤ cap1 := by
  rcases seqLenCap_cases hq with ⟨e, n, a, rfl, hln, hcn⟩ | ⟨e, l2, dold, rfl, hs⟩ |
    ⟨e, n, l, t, rfl, hp, hln, hcn⟩ | ⟨e, l, l2, dold, rfl, hp, hs⟩
  · exact ⟨n, n, seqLenCap_array _ _ _ _, le_refl _, by omega⟩
  · have hk : (⟨.slice e, some l2⟩ : Value).Kind ≠ .PtrKind := by simp [Value.Kind, Typ.Kind]
    have same : ∀ hx : Heap, hx = h → ∃ len1 cap1,
        seqLenCap hx ⟨.slice e, some l2⟩ = some (len1, cap1) ∧ len1 ≤ cap1 ∧
          cap ≤ cap1 := fun hx hh => ⟨len, cap, by rw [hh]; exact hq, hle, le_refl _⟩
    cases ev with
    | array =>
      simp only [step, Array_not_ptr h _ hk, Option.map_some', Option.some.injEq] at hst
      exact same _ (by rw [← hst])
    | map =>
      simp only [step, Map_not_ptr h _ hk, Option.map_some', Option.some.injEq] at hst
      exact same _ (by rw [← hst])
    | elem i =>
      simp only [step, Option.map_eq_some'] at hst
      obtain ⟨r, hE, hr⟩ := hst
      obtain ⟨h1, b⟩ := r
      rw [← hr]
      by_cases h0 : i < 0
      · simp only [_StructBuilder.Elem, h0, if_true, Option.some.injEq, Prod.mk.injEq] at hE
        exact same _ hE.1.symm
      · simp only [_StructBuilder.Elem, h0, if_false, Value.Kind, Typ.Kind] at hE
        simp only [reduceCtorEq, if_false] at hE
        obtain ⟨⟨len1, hl1, hle1⟩, _⟩ :=
          elemIndex_slice h h1 e l2 dold len cap i b (by omega) hs hle hE
        exact ⟨len1, cap, seqLenCap_slice hl1, hle1, le_refl _⟩
    | _ =>
      exact same _ (step_quiet w fc h ⟨.slice e, some l2⟩ up _ s1 (Or.inl rfl) (by simp)
        (by simp) (by simp) hst)
  · have keep : ∀ hx : Heap, (∃ t1, load hx l = some (.ptr t1)) → ∃ len1 cap1,
        seqLenCap hx ⟨.ptr (.array e n), some l⟩ = some (len1, cap1) ∧ len1 ≤ cap1 ∧
          cap ≤ cap1 :=
      fun hx ⟨t1, ht1⟩ => ⟨n, n, seqLenCap_ptr_array ht1, le_refl _, by omega⟩
    cases ev with
    | array =>
      simp only [step, Option.map_eq_some'] at hst
      obtain ⟨h1, hA, hr⟩ := hst
      rw [← hr]
      exact keep _ (Array_keeps_ptr h h1 _ l t hp hA)
    | map =>
      simp only [step, Option.map_eq_some'] at hst
      obtain ⟨h1, hM, hr⟩ := hst
      rw [← hr]
      exact keep _ (Map_keeps_ptr h h1 _ l t hp hM)
    | elem i =>
      simp only [step, Option.map_eq_some'] at hst
      obtain ⟨r, hE, hr⟩ := hst
      obtain ⟨h1, b⟩ := r
      rw [← hr]
      exact keep _ (Elem_ptr_array w h h1 e n l t i b hp hE)
    | _ =>
      have hh := step_quiet w fc h ⟨.ptr (.array e n), some l⟩ up _ s1 (Or.inr rfl) (by simp)
        (by simp) (by simp) hst
      exact keep _ ⟨t, by rw [hh]; exact hp⟩
  · have same : ∀ hx : Heap, hx = h → ∃ len1 cap1,
        seqLenCap hx ⟨.ptr (.slice e), some l⟩ = some (len1, cap1) ∧ len1 ≤ cap1 ∧
          cap ≤ cap1 := fun hx hh => ⟨len, cap, by rw [hh]; exact hq, hle, le_refl _⟩
    cases ev with
    | array =>
      simp only [step, Array_bound h _ l l2 hp, Option.map_some', Option.some.injEq] at hst
      exact same _ (by rw [← hst])
    | map =>
      simp only [step, Map_bound h _ l l2 hp, Option.map_some', Option.some.injEq] at hst
      exact same _ (by rw [← hst])
    | elem i =>
      simp only [step, Option.map_eq_some'] at hst
      obtain ⟨r, hE, hr⟩ := hst
      obtain ⟨h1, b⟩ := r
      rw [← hr]
      by_cases h0 : i < 0
      · simp only [_StructBuilder.Elem, h0, if_true, Option.some.injEq, Prod.mk.injEq] at hE
        exact same _ hE.1.symm
      · by_cases hi : (cap : Int) < i
        · obtain ⟨_, _, N, hN, hl, hnew, _, _⟩ :=
            Elem_grown w h e l l2 dold len cap i h1 b hp hs hi hE
          exact ⟨len, N, seqLenCap_ptr_slice hl hnew, by omega, by omega⟩
        · have hg : elemGrow w h ⟨.ptr (.slice e), some l⟩ i =
              some (h, ⟨.slice e, some l2⟩) := by
            have hi2 : ¬ (i > (cap : Int)) := hi
            simp [elemGrow, Value.Sub, Typ.Sub, Value.Get, hp, Value.Kind, Typ.Kind,
              Value.Cap, hs, hi2]
          rw [Elem_ptr_slice w h e l i (by omega), hg] at hE
          obtain ⟨⟨len1, hl1, hle1⟩, hptr⟩ :=
            elemIndex_slice h h1 e l2 dold len cap i b (by omega) hs hle hE
          exact ⟨len1, cap, seqLenCap_ptr_slice (hptr l _ hp) hl1, hle1, le_refl _⟩
    | _ =>
      exact same _ (step_quiet w fc h ⟨.ptr (.slice e), some l⟩ up _ s1 (Or.inr rfl) (by simp)
        (by simp) (by simp) hst)

/-- Witness of C13: on `partHeap` (length 3, capacity 8) `Elem(5)` leaves
length 6 and capacity 8; on `fullHeap` (length 8, capacity 8) `Elem(9)` leaves
length 8 and capacity 16. -/
theorem C13_length_within_capacity_witness :
    (seqLenCap partHeap ⟨.ptr (.slice (.basic .string)), some ⟨0, []⟩⟩ = some (3, 8) ∧
      3 ≤ 8) ∧
    (∀ fc : FloatConv,
      step 32 fc ⟨partHeap, seqDest, []⟩ (.elem 5) =
        some ⟨partHeap.set 2 (.slice (some 1) 6 8),
          some ⟨⟨.basic .string, some ⟨1, [5]⟩⟩⟩, [seqDest]⟩ ∧
      ∃ len1 cap1, seqLenCap (partHeap.set 2 (.slice (some 1) 6 8))
          ⟨.ptr (.slice (.basic .string)), some ⟨0, []⟩⟩ = some (len1, cap1) ∧
        len1 ≤ cap1 ∧ 8 ≤ cap1) ∧
    seqLenCap (partHeap.set 2 (.slice (some 1) 6 8))
      ⟨.ptr (.slice (.basic .string)), some ⟨0, []⟩⟩ = some (6, 8) ∧
    seqLenCap fullHeap ⟨.ptr (.slice (.basic .string)), some ⟨0, []⟩⟩ = some (8, 8) ∧
    (_StructBuilder.Elem 32 fullHeap seqDest 9).map (fun r =>
      seqLenCap r.1 ⟨.ptr (.slice (.basic .string)), some ⟨0, []⟩⟩) = some (some (8, 16)) :=
  ⟨⟨by decide, by decide⟩,
   fun fc => ⟨rfl,
     C13_length_stays_within_capacity 32 fc partHeap
       ⟨.ptr (.slice (.basic .string)), some ⟨0, []⟩⟩ [] (.elem 5)
       ⟨partHeap.set 2 (.slice (some 1) 6 8), some ⟨⟨.basic .string, some ⟨1, [5]⟩⟩⟩, [seqDest]⟩
       3 8 (by decide) (by decide) rfl⟩,
   by decide, by decide, by decide⟩
